import Mathlib

/-!
# Reverse-mode automatic differentiation engine (`grad.cpp`)

A shallow embedding of the scalar autodiff engine of `grad.cpp` and a
verification of its documented properties.

Modelling conventions.

* The C++ heap of `Value` objects is an explicit `Heap`: a list of cells, one
  per allocation, in allocation order.  A `ValuePtr` is the index of a cell, so
  pointer equality is index equality.  A destroyed object leaves an empty cell.
* The engine is embedded twice.  The first embedding computes with exact
  rationals: `float` is the field `ℚ` (no rounding, NaN or infinities) and the
  `float` exponent of `pow` is an integer `ℤ`.  It carries the statements about
  the structure of the graph and about results that no float operation can
  change.  The second embedding (namespace `Fl`) is the same code over an
  arbitrary float arithmetic `FloatOps F`, of which `binary32` is the IEEE 754
  single format; it carries the statements about computed values.
* A `std::function<void()>` closure is the data it captures, tagged with the
  constructor that built it (`Backward`); `Backward.call` is its body.
* The constructor `Value(data, op, id)` does not initialise `grad`; the
  indeterminate content of that field is an explicit argument `uninit` of every
  node-creating function.
* Dereferencing a pointer to no live object makes the operation return `none`.
* `size_t` is 64 bits wide.
* The recursion of `buildTopo` carries an explicit depth bound; `backProp` uses the
  number of heap cells, which the recursion never reaches on a heap built by
  the constructors, where an operand has a smaller address than its consumer.
* `print` only writes to the console and is left out.
-/

namespace Grad

/-- A `std::shared_ptr<Value>` / `std::weak_ptr<Value>`: the address of a heap cell. -/
abbrev ValuePtr := Nat

/-- The closure stored in `Value::backward`, as the data it captures.  `empty`
is the default-constructed `std::function`.  The field names are those of the
lambda captures in the source. -/
inductive Backward where
  | empty
  | add (lhs_weak rhs_weak out_weak : ValuePtr)
  | multiply (lhs_weak rhs_weak out_weak : ValuePtr)
  | relu (input out : ValuePtr)
  | subtract (lhs_weak rhs_weak out_weak : ValuePtr)
  | pow (base_weak out_weak : ValuePtr) (exponent : ℤ)
  deriving DecidableEq

/-- The fields of `class Value`. -/
structure Value where
  data : ℚ
  grad : ℚ
  op : String
  id : Nat
  prev : List ValuePtr
  backward : Backward
  deriving DecidableEq

/-- The program state: the static counter `Value::currentID` and the heap cells. -/
structure Heap where
  currentID : Nat
  cells : List (Option Value)
  deriving DecidableEq

/-- The state at program start: `currentID = 0`, nothing allocated. -/
def Heap.init : Heap := { currentID := 0, cells := [] }

/-- Dereference a pointer: the live object at address `p`, if any. -/
def Heap.get (h : Heap) (p : ValuePtr) : Option Value := (h.cells[p]?).join

/-- Overwrite the object at address `p`. -/
def Heap.write (h : Heap) (p : ValuePtr) (v : Value) : Heap :=
  { h with cells := h.cells.set p (some v) }

/-- Mutate the object at address `p` in place; `none` when `p` points to no live object. -/
def Heap.modify (h : Heap) (p : ValuePtr) (f : Value → Value) : Option Heap :=
  (h.get p).map fun v => h.write p (f v)

/-- The statement `p->grad += x`. -/
def Heap.addGrad (h : Heap) (p : ValuePtr) (x : ℚ) : Option Heap :=
  h.modify p fun v => { v with grad := v.grad + x }

/-- The gradient stored at `p` (`0` when `p` points to no live object). -/
def Heap.gradAt (h : Heap) (p : ValuePtr) : ℚ :=
  match h.get p with
  | some v => v.grad
  | none => 0

/-- `Value::create(data, op)`: `new Value(data, op, currentID++)`.  The new object
gets the next address; `grad` is left uninitialised, `prev` and `backward` are
default-constructed. -/
def Value.create (h : Heap) (data : ℚ) (op : String) (uninit : ℚ) : Heap × ValuePtr :=
  ({ currentID := (h.currentID + 1) % 2 ^ 64,
     cells := h.cells ++ [some { data := data, grad := uninit, op := op, id := h.currentID,
                                 prev := [], backward := Backward.empty }] },
   h.cells.length)

/-- The destructor `~Value()`, run on the live object at `p`: `--currentID`, and
the storage is released. -/
def Value.destroy (h : Heap) (p : ValuePtr) : Option Heap :=
  (h.get p).map fun _ =>
    { currentID := (h.currentID + 2 ^ 64 - 1) % 2 ^ 64, cells := h.cells.set p none }

/-- `Value::add(lhs, rhs)`. -/
def Value.add (h : Heap) (lhs rhs : ValuePtr) (uninit : ℚ) : Option (Heap × ValuePtr) := do
  let l ← h.get lhs
  let r ← h.get rhs
  let (h1, out) := Value.create h (l.data + r.data) "+" uninit
  let h2 ← h1.modify out fun o => { o with prev := [lhs, rhs] }
  let h3 ← h2.modify out fun o => { o with backward := Backward.add lhs rhs out }
  pure (h3, out)

/-- `Value::multiply(lhs, rhs)`. -/
def Value.multiply (h : Heap) (lhs rhs : ValuePtr) (uninit : ℚ) : Option (Heap × ValuePtr) := do
  let l ← h.get lhs
  let r ← h.get rhs
  let (h1, out) := Value.create h (l.data * r.data) "*" uninit
  let h2 ← h1.modify out fun o => { o with prev := [lhs, rhs] }
  let h3 ← h2.modify out fun o => { o with backward := Backward.multiply lhs rhs out }
  pure (h3, out)

/-- `Value::relu(input)`. -/
def Value.relu (h : Heap) (input : ValuePtr) (uninit : ℚ) : Option (Heap × ValuePtr) := do
  let i ← h.get input
  let relu_val := max 0 i.data
  let (h1, out) := Value.create h relu_val "ReLU" uninit
  let h2 ← h1.modify out fun o => { o with prev := [input] }
  let h3 ← h2.modify out fun o => { o with backward := Backward.relu input out }
  pure (h3, out)

/-- `Value::subtract(lhs, rhs)`. -/
def Value.subtract (h : Heap) (lhs rhs : ValuePtr) (uninit : ℚ) : Option (Heap × ValuePtr) := do
  let l ← h.get lhs
  let r ← h.get rhs
  let (h1, out) := Value.create h (l.data - r.data) "-" uninit
  let h2 ← h1.modify out fun o => { o with prev := [lhs, rhs] }
  let h3 ← h2.modify out fun o => { o with backward := Backward.subtract lhs rhs out }
  pure (h3, out)

/-- `Value::pow(base, exponent)`.  The lambda's capture `base_weak` is
initialised from `out`, as in the source. -/
def Value.pow (h : Heap) (base : ValuePtr) (exponent : ℤ) (uninit : ℚ) :
    Option (Heap × ValuePtr) := do
  let b ← h.get base
  let new_val := b.data ^ exponent
  let (h1, out) := Value.create h new_val "^" uninit
  let h2 ← h1.modify out fun o => { o with prev := [base] }
  let h3 ← h2.modify out fun o => { o with backward := Backward.pow out out exponent }
  pure (h3, out)

/-- `Value::divide(lhs, rhs)`: `multiply(lhs, pow(rhs, -1))`. -/
def Value.divide (h : Heap) (lhs rhs : ValuePtr) (uninit1 uninit2 : ℚ) :
    Option (Heap × ValuePtr) := do
  let (h1, reciprocal) ← Value.pow h rhs (-1) uninit1
  Value.multiply h1 lhs reciprocal uninit2

/-- The body of a backward closure, run on the current heap. -/
def Backward.call (h : Heap) : Backward → Option Heap
  | Backward.empty => some h
  | Backward.add lhs_weak rhs_weak out_weak => do
      let o ← h.get out_weak
      let h1 ← h.addGrad lhs_weak o.grad
      let o ← h1.get out_weak
      h1.addGrad rhs_weak o.grad
  | Backward.multiply lhs_weak rhs_weak out_weak => do
      let r ← h.get rhs_weak
      let o ← h.get out_weak
      let h1 ← h.addGrad lhs_weak (r.data * o.grad)
      let l ← h1.get lhs_weak
      let o ← h1.get out_weak
      h1.addGrad rhs_weak (l.data * o.grad)
  | Backward.relu input out => do
      let o ← h.get out
      h.addGrad input ((if o.data > 0 then 1 else 0) * o.grad)
  | Backward.subtract lhs_weak rhs_weak out_weak => do
      let o ← h.get out_weak
      let h1 ← h.addGrad lhs_weak o.grad
      let o ← h1.get out_weak
      h1.addGrad rhs_weak (-o.grad)
  | Backward.pow base_weak out_weak exponent => do
      let b ← h.get base_weak
      let grad_factor := (exponent : ℚ) * b.data ^ (exponent - 1)
      let o ← h.get out_weak
      h.addGrad base_weak (grad_factor * o.grad)

/-- The two containers threaded through `buildTopo`: the `visited` set (an
`unordered_set` whose key equality is pointer equality; `ValHash` only selects
the bucket) and the `topo` vector. -/
structure TopoState where
  visited : List ValuePtr
  topo : List ValuePtr
  deriving DecidableEq

/-- A `for` loop over operands threading a fallible state transformer. -/
def forEach (f : ValuePtr → TopoState → Option TopoState) :
    List ValuePtr → TopoState → Option TopoState
  | [], st => some st
  | child :: rest, st => (f child st).bind (forEach f rest)

/-- `Value::buildTopo(v, visited, topo)`.  The recursion depth is bounded by
`fuel`; `none` when the bound is hit or a pointer is dangling. -/
def buildTopo : Nat → Heap → ValuePtr → TopoState → Option TopoState
  | 0, _, _, _ => none
  | fuel + 1, h, v, st =>
    if v ∈ st.visited then some st
    else
      match h.get v with
      | none => none
      | some node =>
        (forEach (buildTopo fuel h) node.prev { st with visited := v :: st.visited }).map
          fun st1 => { st1 with topo := st1.topo ++ [v] }

/-- The loop of `backProp` over the nodes `its`, in the order given: each node's
`backward` is invoked when it is non-empty. -/
def replay : List ValuePtr → Heap → Option Heap
  | [], h => some h
  | it :: rest, h =>
    match h.get it with
    | none => none
    | some v => (v.backward.call h).bind (replay rest)

/-- `Value::backProp()` on the object at `self`, with recursion bound `fuel` for
the topological sort. -/
def Value.backPropFuel (fuel : Nat) (h : Heap) (self : ValuePtr) : Option Heap := do
  let h1 ← h.modify self fun v => { v with grad := 1 }
  let st ← buildTopo fuel h1 self { visited := [], topo := [] }
  replay st.topo.reverse h1

/-- `Value::backProp()`; the recursion of `buildTopo` is bounded by the number
of heap cells, which is enough on every heap built by the constructors
(`buildTopo_spec`). -/
def Value.backProp (h : Heap) (self : ValuePtr) : Option Heap :=
  Value.backPropFuel h.cells.length h self

/-! ## Scripts of interface calls -/

/-- Allocation of a fully built object: what `create` followed by the field
assignments of a constructor amounts to (`Value.add_eq` and its siblings). -/
def Heap.push (h : Heap) (v : Value) : Heap :=
  { currentID := (h.currentID + 1) % 2 ^ 64, cells := h.cells ++ [some v] }

/-- One call of the interface of `class Value`, or the destruction of a node. -/
inductive Cmd where
  | create (data : ℚ) (op : String) (uninit : ℚ)
  | add (lhs rhs : ValuePtr) (uninit : ℚ)
  | multiply (lhs rhs : ValuePtr) (uninit : ℚ)
  | divide (lhs rhs : ValuePtr) (uninit1 uninit2 : ℚ)
  | relu (input : ValuePtr) (uninit : ℚ)
  | subtract (lhs rhs : ValuePtr) (uninit : ℚ)
  | pow (base : ValuePtr) (exponent : ℤ) (uninit : ℚ)
  | destroy (p : ValuePtr)
  deriving DecidableEq

/-- The effect of one call on the heap. -/
def Cmd.run (h : Heap) : Cmd → Option Heap
  | Cmd.create data op uninit => some (Value.create h data op uninit).1
  | Cmd.add lhs rhs uninit => (Value.add h lhs rhs uninit).map Prod.fst
  | Cmd.multiply lhs rhs uninit => (Value.multiply h lhs rhs uninit).map Prod.fst
  | Cmd.divide lhs rhs uninit1 uninit2 => (Value.divide h lhs rhs uninit1 uninit2).map Prod.fst
  | Cmd.relu input uninit => (Value.relu h input uninit).map Prod.fst
  | Cmd.subtract lhs rhs uninit => (Value.subtract h lhs rhs uninit).map Prod.fst
  | Cmd.pow base exponent uninit => (Value.pow h base exponent uninit).map Prod.fst
  | Cmd.destroy p => Value.destroy h p

/-- Run a script of calls from the heap `h`. -/
def runAll : Heap → List Cmd → Option Heap
  | h, [] => some h
  | h, c :: cs => (c.run h).bind fun h1 => runAll h1 cs

/-- The node-creating calls: everything but `destroy`. -/
def Cmd.isConstructor : Cmd → Bool
  | Cmd.destroy _ => false
  | _ => true

/-- The calls `create`, `add`, `subtract` and `multiply`. -/
def Cmd.isArith : Cmd → Bool
  | Cmd.create _ _ _ => true
  | Cmd.add _ _ _ => true
  | Cmd.subtract _ _ _ => true
  | Cmd.multiply _ _ _ => true
  | _ => false

/-- `p` is the most recently created node that is still alive. -/
def Heap.newest (h : Heap) (p : ValuePtr) : Prop :=
  (h.get p).isSome ∧ ∀ q, p < q → h.get q = none

/-- Every destruction in the script, at the moment it runs, removes the most
recently created live node (stack discipline). -/
def Lifo : Heap → List Cmd → Prop
  | _, [] => True
  | h, c :: cs => (∀ p, c = Cmd.destroy p → h.newest p) ∧ ∀ h1, c.run h = some h1 → Lifo h1 cs

/-! ## The operand graph -/

/-- The operands of the node at `u` (none when `u` is not a live node). -/
def Heap.prevOf (h : Heap) (u : ValuePtr) : List ValuePtr :=
  match h.get u with
  | some v => v.prev
  | none => []

/-- The value stored at `p` (`0` when `p` is not a live node). -/
def Heap.dataAt (h : Heap) (p : ValuePtr) : ℚ :=
  match h.get p with
  | some v => v.data
  | none => 0

/-- `Reach h r v`: `v` is reachable from `r` by following `prev` entries. -/
inductive Reach (h : Heap) (r : ValuePtr) : ValuePtr → Prop
  | root : Reach h r r
  | step {u c : ValuePtr} : Reach h r u → c ∈ h.prevOf u → Reach h r c

/-- A processing order for the backward pass: no node occurs twice, and the
operands of every node are live nodes that occur later in the list. -/
def RevTopo (h : Heap) : List ValuePtr → Prop
  | [] => True
  | u :: rest =>
    u ∉ rest ∧ (∃ node, h.get u = some node ∧ ∀ c ∈ node.prev, c ∈ rest) ∧ RevTopo h rest

/-- The local derivative factors of the node at `u`, one entry `(operand, factor)`
per operand slot: `1, 1` for a sum, `1, -1` for a difference, the other
operand's value for a product. -/
def localFactors (h : Heap) (u : ValuePtr) : List (ValuePtr × ℚ) :=
  match h.get u with
  | none => []
  | some v =>
    match v.prev with
    | [lhs, rhs] =>
      if v.op = "+" then [(lhs, 1), (rhs, 1)]
      else if v.op = "-" then [(lhs, 1), (rhs, -1)]
      else if v.op = "*" then [(lhs, h.dataAt rhs), (rhs, h.dataAt lhs)]
      else []
    | _ => []

/-- The operand paths from `u` to `v` of at most `fuel - 1` edges, each given by
the list of local derivative factors along it; the two operand slots of a node
give distinct paths also when they hold the same node. -/
def paths (h : Heap) : Nat → ValuePtr → ValuePtr → List (List ℚ)
  | 0, _, _ => []
  | fuel + 1, u, v =>
    (if u = v then [[]] else []) ++
      (localFactors h u).flatMap fun cf => (paths h fuel cf.1 v).map fun path => cf.2 :: path

/-- The sum over the operand paths from `u` to `v` of the product of the local
derivative factors along the path.  On a heap built by the constructors an
operand has a smaller address than its consumer, so a path from `u` has at most
`u` edges and the bound `u + 1` loses none (`pathSum_rec`). -/
def pathSum (h : Heap) (u v : ValuePtr) : ℚ :=
  ((paths h (u + 1) u v).map List.prod).sum

/-- The share of the gradient of `u` that the backward rule of `u` adds to the
gradient of `q`: the sum of the local factors of the operand slots of `u` that
hold `q`. -/
def weightTo (h : Heap) (u q : ValuePtr) : ℚ :=
  ((localFactors h u).map fun cf => if cf.1 = q then cf.2 else 0).sum

/-- The effect on the gradients of the backward rule of `u`. -/
def stepG (h : Heap) (u : ValuePtr) (g : ValuePtr → ℚ) : ValuePtr → ℚ :=
  fun q => g q + g u * weightTo h u q

/-- The effect on the gradients of the backward rules of a list of nodes. -/
def runG (h : Heap) : List ValuePtr → (ValuePtr → ℚ) → ValuePtr → ℚ
  | [], g => g
  | u :: rest, g => runG h rest (stepG h u g)

/-- The heap `h1` is the heap `h` with the gradients replaced by `g`. -/
def Rep (h : Heap) (g : ValuePtr → ℚ) (h1 : Heap) : Prop :=
  h1.cells.length = h.cells.length ∧
    ∀ q, h1.get q = (h.get q).map fun v => { v with grad := g q }

/-- Operands pre-exist their consumer: every cell holds a live node whose
operands have smaller addresses. -/
def Heap.Dag (h : Heap) : Prop :=
  ∀ p, p < h.cells.length → ∃ v, h.get p = some v ∧ ∀ c ∈ v.prev, c < p

/-- The node `v` at address `p` is a leaf or was built by `add`, `subtract` or
`multiply`. -/
def Value.ArithAt (v : Value) (p : ValuePtr) : Prop :=
  (v.prev = [] ∧ v.backward = Backward.empty) ∨
    ∃ lhs rhs, v.prev = [lhs, rhs] ∧
      ((v.op = "+" ∧ v.backward = Backward.add lhs rhs p) ∨
       (v.op = "-" ∧ v.backward = Backward.subtract lhs rhs p) ∨
       (v.op = "*" ∧ v.backward = Backward.multiply lhs rhs p))

/-- Every node of the heap is a leaf or a sum, difference or product. -/
def Heap.Arith (h : Heap) : Prop :=
  ∀ p v, h.get p = some v → v.ArithAt p

/-- The number of live nodes at addresses below `p`. -/
def Heap.liveBelow (h : Heap) (p : ValuePtr) : Nat :=
  (h.cells.take p).countP Option.isSome

/-- A node as a constructor allocates it on the heap `h`: its `id` is the
current counter and its operands are live nodes of `h`. -/
def Fresh (h : Heap) (v : Value) : Prop :=
  v.id = h.currentID ∧ ∀ c ∈ v.prev, c < h.cells.length

/-- The identifier discipline of the counter: `currentID` is the number of live
nodes and the `id` of a live node is the number of live nodes created before it. -/
def IdInv (h : Heap) : Prop :=
  h.currentID = h.liveBelow h.cells.length ∧ ∀ p v, h.get p = some v → v.id = h.liveBelow p

/-- The invariant of the two containers of `buildTopo`: `topo`, read backwards,
is a processing order, and every node of `topo` is marked visited. -/
def TopoInv (h : Heap) (st : TopoState) : Prop :=
  RevTopo h st.topo.reverse ∧ ∀ u ∈ st.topo, u ∈ st.visited

/-- The state `st1` extends `st`: `topo` has grown at its end by unvisited nodes
reachable from `r`, and `visited` by exactly these nodes. -/
def TopoExt (h : Heap) (r : ValuePtr) (st st1 : TopoState) : Prop :=
  TopoInv h st1 ∧
    (∃ new, st1.topo = st.topo ++ new ∧ ∀ x ∈ new, x ∉ st.visited ∧ Reach h r x) ∧
    ∀ w, w ∈ st1.visited ↔ w ∈ st.visited ∨ w ∈ st1.topo

/-- The heap of `main` after its five constructor calls, all gradients `0`:
`a`, `b`, `c = a + b`, `d = c * c`, `loss = d + d` at the addresses `0` to `4`. -/
def mainHeap : Heap :=
  ⟨5, [some ⟨1, 0, "", 0, [], Backward.empty⟩, some ⟨2, 0, "", 1, [], Backward.empty⟩,
       some ⟨1 + 2, 0, "+", 2, [0, 1], Backward.add 0 1 2⟩,
       some ⟨(1 + 2) * (1 + 2), 0, "*", 3, [2, 2], Backward.multiply 2 2 3⟩,
       some ⟨(1 + 2) * (1 + 2) + (1 + 2) * (1 + 2), 0, "+", 4, [3, 3], Backward.add 3 3 4⟩]⟩

/-- The heap after `a = create(3)`, `b = create(4)`, `out = multiply(a, b)`,
all gradients `0`. -/
def productHeap : Heap :=
  ⟨3, [some ⟨3, 0, "", 0, [], Backward.empty⟩, some ⟨4, 0, "", 1, [], Backward.empty⟩,
       some ⟨3 * 4, 0, "*", 2, [0, 1], Backward.multiply 0 1 2⟩]⟩

/-- The value of the node at `u` when the value of the node at `v` is replaced
by `t` and every sum, difference and product that depends on it is computed
anew from its operands: the value of `u` as a function of the value of `v`.
The recursion is bounded as in `pathSum`. -/
def valueWith (h : Heap) (v : ValuePtr) (t : ℚ) : Nat → ValuePtr → ℚ
  | 0, _ => 0
  | fuel + 1, u =>
    if u = v then t
    else
      match h.get u with
      | none => 0
      | some node =>
        match node.prev with
        | [lhs, rhs] =>
          if node.op = "+" then valueWith h v t fuel lhs + valueWith h v t fuel rhs
          else if node.op = "-" then valueWith h v t fuel lhs - valueWith h v t fuel rhs
          else if node.op = "*" then valueWith h v t fuel lhs * valueWith h v t fuel rhs
          else node.data
        | _ => node.data

/-- The value rule of the constructors: the value of a sum, difference or
product is that of its operands, added, subtracted or multiplied. -/
def Heap.Forward (h : Heap) : Prop :=
  ∀ p node lhs rhs, h.get p = some node → node.prev = [lhs, rhs] →
    (node.op = "+" → node.data = h.dataAt lhs + h.dataAt rhs) ∧
    (node.op = "-" → node.data = h.dataAt lhs - h.dataAt rhs) ∧
    (node.op = "*" → node.data = h.dataAt lhs * h.dataAt rhs)

/-! ## Closures, ownership and the hasher -/

/-- The pointers a backward closure dereferences when it runs. -/
def Backward.ptrs : Backward → List ValuePtr
  | Backward.empty => []
  | Backward.add lhs_weak rhs_weak out_weak => [lhs_weak, rhs_weak, out_weak]
  | Backward.multiply lhs_weak rhs_weak out_weak => [lhs_weak, rhs_weak, out_weak]
  | Backward.relu input out => [input, out]
  | Backward.subtract lhs_weak rhs_weak out_weak => [lhs_weak, rhs_weak, out_weak]
  | Backward.pow base_weak out_weak _ => [base_weak, out_weak]

/-- The pointers through which a backward closure writes a gradient. -/
def Backward.writes : Backward → List ValuePtr
  | Backward.empty => []
  | Backward.add lhs_weak rhs_weak _ => [lhs_weak, rhs_weak]
  | Backward.multiply lhs_weak rhs_weak _ => [lhs_weak, rhs_weak]
  | Backward.relu input _ => [input]
  | Backward.subtract lhs_weak rhs_weak _ => [lhs_weak, rhs_weak]
  | Backward.pow base_weak _ _ => [base_weak]

/-- The captures of a backward closure that co-own their target: the lambda of
`relu` copies the `shared_ptr`s `input` and `out`; the lambdas of `add`,
`multiply`, `subtract` and `pow` hold `std::weak_ptr`s only. -/
def Backward.strong : Backward → List ValuePtr
  | Backward.relu input out => [input, out]
  | _ => []

/-- The nodes that the node at `p` co-owns: its `prev` entries and the strong
captures of its backward closure. -/
def Heap.strongRefs (h : Heap) (p : ValuePtr) : List ValuePtr :=
  match h.get p with
  | some v => v.prev ++ v.backward.strong
  | none => []

/-- `ValHash::operator()(value)`: the hash of `op` xor the hash of `data`.  The
library functions `std::hash<std::string>` and `std::hash<float>` are
parameters. -/
def ValHash (hashString : String → Nat) (hashFloat : ℚ → Nat) (h : Heap) (value : ValuePtr) :
    Option Nat :=
  (h.get value).map fun v => Nat.xor (hashString v.op) (hashFloat v.data)

/-- `visited.count(v)` for the `std::unordered_set<ValuePtr, ValHash>` holding
the pointers `visited`, with `bucketCount` buckets: `v` is looked for in the
bucket selected by its hash, and compared there with the default key equality
of the container, the equality of pointers. -/
def visitedCount (hashString : String → Nat) (hashFloat : ℚ → Nat) (bucketCount : Nat)
    (h : Heap) (visited : List ValuePtr) (v : ValuePtr) : Bool :=
  (visited.filter fun w =>
    decide ((ValHash hashString hashFloat h w).map (· % bucketCount) =
      (ValHash hashString hashFloat h v).map (· % bucketCount))).contains v

/-- What the constructors establish for the node `v` at address `p`: its
closure dereferences only `p` and earlier addresses, and writes only to
operands of `v` or to `v` itself. -/
def Value.BuiltAt (v : Value) (p : ValuePtr) : Prop :=
  (∀ q ∈ v.backward.ptrs, q ≤ p) ∧ ∀ q ∈ v.backward.writes, q ∈ v.prev ∨ q = p

/-- Every node of the heap is as a constructor leaves it. -/
def Heap.Built (h : Heap) : Prop :=
  ∀ p v, h.get p = some v → v.BuiltAt p

/-- The heap after `x = create(5)`, `y = create(5)`, `root = add(x, y)`, all
gradients `0`: two distinct leaves with the same `op` and `data`. -/
def twinHeap : Heap :=
  ⟨3, [some ⟨5, 0, "", 0, [], Backward.empty⟩, some ⟨5, 0, "", 1, [], Backward.empty⟩,
       some ⟨5 + 5, 0, "+", 2, [0, 1], Backward.add 0 1 2⟩]⟩


/-- The node `v` at address `p` is as one of the constructors builds it: a
leaf, a sum, difference or product, a `relu` node, or a `pow` node, whose
closure holds `p` in both handles. -/
def Value.MadeAt (v : Value) (p : ValuePtr) : Prop :=
  v.ArithAt p ∨ (∃ input, v.prev = [input] ∧ v.backward = Backward.relu input p) ∨
    ∃ base exponent, v.prev = [base] ∧ v.backward = Backward.pow p p exponent

/-- Every node of the heap is as one of the constructors builds it. -/
def Heap.Made (h : Heap) : Prop :=
  ∀ p v, h.get p = some v → v.MadeAt p

/-- What the backward rule of the node at `u` adds to the gradient of another
node `q` for each unit of the gradient of `u`: the local factors of the operand
slots that hold `q` for a sum, difference or product, the gate `out.data > 0`
for a `relu` node with input `q`, and nothing for a leaf or a `pow` node. -/
def shareTo (h : Heap) (u q : ValuePtr) : ℚ :=
  weightTo h u q +
    match h.get u with
    | some v =>
      match v.backward with
      | Backward.relu input _ => if input = q then (if 0 < v.data then 1 else 0) else 0
      | _ => 0
    | none => 0

/-! ## The engine over machine floats

The definitions above compute with exact rationals.  The definitions of this
section are the same functions of `grad.cpp` with the arithmetic of `float`
left as a parameter: a type `F` of float values and the operations the source
applies to them, each operator of the source being one operation (no excess
precision, no fused multiply-add).  What is proved for every `FloatOps F` holds
for the floats of the machine, whatever they round to; `binary32` below is the
IEEE 754 single format, with round-to-nearest-even, signed zeros, infinities
and NaN. -/

/-- The operations on `float` that `grad.cpp` uses: `+`, `-`, `*`,
`std::pow(float, float)`, `<` (also behind `>` and `std::max`), and the
conversion of an `int` to `float`, which also gives the literals `0.0f` and
`1.0f`. -/
structure FloatOps (F : Type) where
  add : F → F → F
  sub : F → F → F
  mul : F → F → F
  pow : F → F → F
  lt : F → F → Bool
  ofInt : ℤ → F

namespace Fl

/-- The closure stored in `Value::backward`, as the data it captures; the
exponent captured by the lambda of `pow` is a `float`. -/
inductive Backward (F : Type) where
  | empty
  | add (lhs_weak rhs_weak out_weak : ValuePtr)
  | multiply (lhs_weak rhs_weak out_weak : ValuePtr)
  | relu (input out : ValuePtr)
  | subtract (lhs_weak rhs_weak out_weak : ValuePtr)
  | pow (base_weak out_weak : ValuePtr) (exponent : F)
  deriving DecidableEq

/-- The fields of `class Value`, with `float` fields of type `F`. -/
structure Value (F : Type) where
  data : F
  grad : F
  op : String
  id : Nat
  prev : List ValuePtr
  backward : Backward F
  deriving DecidableEq

/-- The program state: the static counter `Value::currentID` and the heap cells. -/
structure Heap (F : Type) where
  currentID : Nat
  cells : List (Option (Value F))
  deriving DecidableEq

variable {F : Type}

/-- The state at program start: `currentID = 0`, nothing allocated. -/
def Heap.init : Heap F := { currentID := 0, cells := [] }

/-- Dereference a pointer: the live object at address `p`, if any. -/
def Heap.get (h : Heap F) (p : ValuePtr) : Option (Value F) := (h.cells[p]?).join

/-- Overwrite the object at address `p`. -/
def Heap.write (h : Heap F) (p : ValuePtr) (v : Value F) : Heap F :=
  { h with cells := h.cells.set p (some v) }

/-- Mutate the object at address `p` in place; `none` when `p` points to no live object. -/
def Heap.modify (h : Heap F) (p : ValuePtr) (f : Value F → Value F) : Option (Heap F) :=
  (h.get p).map fun v => h.write p (f v)

/-- The statement `p->grad += x`: one float addition. -/
def Heap.addGrad (A : FloatOps F) (h : Heap F) (p : ValuePtr) (x : F) : Option (Heap F) :=
  h.modify p fun v => { v with grad := A.add v.grad x }

/-- The statement `p->grad -= x`: one float subtraction. -/
def Heap.subGrad (A : FloatOps F) (h : Heap F) (p : ValuePtr) (x : F) : Option (Heap F) :=
  h.modify p fun v => { v with grad := A.sub v.grad x }

/-- The field `grad` of the object at `p`. -/
def Heap.gradAt (h : Heap F) (p : ValuePtr) : Option F := (h.get p).map Value.grad

/-- The field `data` of the object at `p`. -/
def Heap.dataAt (h : Heap F) (p : ValuePtr) : Option F := (h.get p).map Value.data

/-- Allocation of a fully built object at the next address. -/
def Heap.push (h : Heap F) (v : Value F) : Heap F :=
  { currentID := (h.currentID + 1) % 2 ^ 64, cells := h.cells ++ [some v] }

/-- `Value::create(data, op)`: `new Value(data, op, currentID++)`; `grad` is left
uninitialised and holds `uninit`. -/
def Value.create (h : Heap F) (data : F) (op : String) (uninit : F) : Heap F × ValuePtr :=
  ({ currentID := (h.currentID + 1) % 2 ^ 64,
     cells := h.cells ++ [some { data := data, grad := uninit, op := op, id := h.currentID,
                                 prev := [], backward := Backward.empty }] },
   h.cells.length)

/-- `Value::add(lhs, rhs)`: `lhs->data + rhs->data` is one float addition. -/
def Value.add (A : FloatOps F) (h : Heap F) (lhs rhs : ValuePtr) (uninit : F) :
    Option (Heap F × ValuePtr) := do
  let l ← h.get lhs
  let r ← h.get rhs
  let (h1, out) := Value.create h (A.add l.data r.data) "+" uninit
  let h2 ← h1.modify out fun o => { o with prev := [lhs, rhs] }
  let h3 ← h2.modify out fun o => { o with backward := Backward.add lhs rhs out }
  pure (h3, out)

/-- `Value::multiply(lhs, rhs)`: `lhs->data * rhs->data` is one float multiplication. -/
def Value.multiply (A : FloatOps F) (h : Heap F) (lhs rhs : ValuePtr) (uninit : F) :
    Option (Heap F × ValuePtr) := do
  let l ← h.get lhs
  let r ← h.get rhs
  let (h1, out) := Value.create h (A.mul l.data r.data) "*" uninit
  let h2 ← h1.modify out fun o => { o with prev := [lhs, rhs] }
  let h3 ← h2.modify out fun o => { o with backward := Backward.multiply lhs rhs out }
  pure (h3, out)

/-- `Value::relu(input)`.  `std::max(0.0f, x)` is `(0.0f < x) ? x : 0.0f`. -/
def Value.relu (A : FloatOps F) (h : Heap F) (input : ValuePtr) (uninit : F) :
    Option (Heap F × ValuePtr) := do
  let i ← h.get input
  let relu_val := if A.lt (A.ofInt 0) i.data then i.data else A.ofInt 0
  let (h1, out) := Value.create h relu_val "ReLU" uninit
  let h2 ← h1.modify out fun o => { o with prev := [input] }
  let h3 ← h2.modify out fun o => { o with backward := Backward.relu input out }
  pure (h3, out)

/-- `Value::subtract(lhs, rhs)`: `lhs->data - rhs->data` is one float subtraction. -/
def Value.subtract (A : FloatOps F) (h : Heap F) (lhs rhs : ValuePtr) (uninit : F) :
    Option (Heap F × ValuePtr) := do
  let l ← h.get lhs
  let r ← h.get rhs
  let (h1, out) := Value.create h (A.sub l.data r.data) "-" uninit
  let h2 ← h1.modify out fun o => { o with prev := [lhs, rhs] }
  let h3 ← h2.modify out fun o => { o with backward := Backward.subtract lhs rhs out }
  pure (h3, out)

/-- `Value::pow(base, exponent)` with its `float` exponent.  The lambda's
capture `base_weak` is initialised from `out`, as in the source. -/
def Value.pow (A : FloatOps F) (h : Heap F) (base : ValuePtr) (exponent : F) (uninit : F) :
    Option (Heap F × ValuePtr) := do
  let b ← h.get base
  let new_val := A.pow b.data exponent
  let (h1, out) := Value.create h new_val "^" uninit
  let h2 ← h1.modify out fun o => { o with prev := [base] }
  let h3 ← h2.modify out fun o => { o with backward := Backward.pow out out exponent }
  pure (h3, out)

/-- `Value::divide(lhs, rhs)`: `multiply(lhs, pow(rhs, -1))`; the `int` `-1` is
converted to `float`. -/
def Value.divide (A : FloatOps F) (h : Heap F) (lhs rhs : ValuePtr) (uninit1 uninit2 : F) :
    Option (Heap F × ValuePtr) := do
  let (h1, reciprocal) ← Value.pow A h rhs (A.ofInt (-1)) uninit1
  Value.multiply A h1 lhs reciprocal uninit2

/-- The body of a backward closure, run on the current heap, one float
operation per operator of the source.  In the lambda of `relu` the `bool`
`out->data > 0` is converted to `float` before it is multiplied. -/
def Backward.call (A : FloatOps F) (h : Heap F) : Backward F → Option (Heap F)
  | Backward.empty => some h
  | Backward.add lhs_weak rhs_weak out_weak => do
      let o ← h.get out_weak
      let h1 ← h.addGrad A lhs_weak o.grad
      let o ← h1.get out_weak
      h1.addGrad A rhs_weak o.grad
  | Backward.multiply lhs_weak rhs_weak out_weak => do
      let r ← h.get rhs_weak
      let o ← h.get out_weak
      let h1 ← h.addGrad A lhs_weak (A.mul r.data o.grad)
      let l ← h1.get lhs_weak
      let o ← h1.get out_weak
      h1.addGrad A rhs_weak (A.mul l.data o.grad)
  | Backward.relu input out => do
      let o ← h.get out
      h.addGrad A input (A.mul (A.ofInt (if A.lt (A.ofInt 0) o.data then 1 else 0)) o.grad)
  | Backward.subtract lhs_weak rhs_weak out_weak => do
      let o ← h.get out_weak
      let h1 ← h.addGrad A lhs_weak o.grad
      let o ← h1.get out_weak
      h1.subGrad A rhs_weak o.grad
  | Backward.pow base_weak out_weak exponent => do
      let b ← h.get base_weak
      let grad_factor := A.mul exponent (A.pow b.data (A.sub exponent (A.ofInt 1)))
      let o ← h.get out_weak
      h.addGrad A base_weak (A.mul grad_factor o.grad)

/-- `Value::buildTopo(v, visited, topo)`, with the recursion depth bounded by `fuel`. -/
def buildTopo : Nat → Heap F → ValuePtr → TopoState → Option TopoState
  | 0, _, _, _ => none
  | fuel + 1, h, v, st =>
    if v ∈ st.visited then some st
    else
      match h.get v with
      | none => none
      | some node =>
        (forEach (buildTopo fuel h) node.prev { st with visited := v :: st.visited }).map
          fun st1 => { st1 with topo := st1.topo ++ [v] }

/-- The loop of `backProp` over the nodes `its`, in the order given. -/
def replay (A : FloatOps F) : List ValuePtr → Heap F → Option (Heap F)
  | [], h => some h
  | it :: rest, h =>
    match h.get it with
    | none => none
    | some v => (v.backward.call A h).bind (replay A rest)

/-- `Value::backProp()` on the object at `self`: `this->grad = 1.0f`, the
topological sort with recursion bound `fuel`, and the rules in reverse order. -/
def Value.backPropFuel (A : FloatOps F) (fuel : Nat) (h : Heap F) (self : ValuePtr) :
    Option (Heap F) := do
  let h1 ← h.modify self fun v => { v with grad := A.ofInt 1 }
  let st ← buildTopo fuel h1 self { visited := [], topo := [] }
  replay A st.topo.reverse h1

/-- `Value::backProp()`, the recursion bounded by the number of heap cells. -/
def Value.backProp (A : FloatOps F) (h : Heap F) (self : ValuePtr) : Option (Heap F) :=
  Value.backPropFuel A h.cells.length h self

end Fl

/-! ### IEEE 754 binary32 -/

/-- A `float` of the IEEE 754 binary32 format: NaN, an infinity, or the finite
number `(-1)^neg * m * 2^e`.  The operations below produce the finite numbers in
canonical form: `-149 ≤ e ≤ 104`, `m < 2^24`, and `2^23 ≤ m` unless `e = -149`
(zeros and subnormals). -/
inductive F32 where
  | nan
  | inf (neg : Bool)
  | fin (neg : Bool) (m : Nat) (e : ℤ)
  deriving DecidableEq

/-- The number of binary digits of `n`, for `n < 2 ^ fuel`; `bitLength n n` is the
number of binary digits of `n`. -/
def bitLength : Nat → Nat → Nat
  | 0, _ => 0
  | fuel + 1, n => if n = 0 then 0 else bitLength fuel (n / 2) + 1

/-- A finite result with `m ≤ 2^24`: a carry out of the significand moves to
the next exponent, and an exponent above `104` overflows to infinity. -/
def F32.pack (neg : Bool) (m : Nat) (e : ℤ) : F32 :=
  let m1 := if m = 2 ^ 24 then 2 ^ 23 else m
  let e1 := if m = 2 ^ 24 then e + 1 else e
  if e1 > 104 then F32.inf neg else F32.fin neg m1 e1

/-- Rounding to nearest, ties to even: the float nearest to the exact number
`(-1)^neg * n * 2^e`. -/
def F32.round (neg : Bool) (n : Nat) (e : ℤ) : F32 :=
  if n = 0 then F32.fin neg 0 (-149)
  else
    let e1 : ℤ := max (e + (bitLength n n : ℤ) - 24) (-149)
    if e1 ≤ e then F32.pack neg (n * 2 ^ (e - e1).toNat) e1
    else
      let k := (e1 - e).toNat
      let q := n / 2 ^ k
      let r := n % 2 ^ k
      let half := 2 ^ (k - 1)
      F32.pack neg (if half < r ∨ (r = half ∧ q % 2 = 1) then q + 1 else q) e1

/-- Conversion of an `int` to `float`. -/
def F32.ofInt (n : ℤ) : F32 := F32.round (decide (n < 0)) n.natAbs 0

/-- Float negation. -/
def F32.neg : F32 → F32
  | F32.nan => F32.nan
  | F32.inf s => F32.inf (!s)
  | F32.fin s m e => F32.fin (!s) m e

/-- Float addition. -/
def F32.add : F32 → F32 → F32
  | F32.nan, _ => F32.nan
  | _, F32.nan => F32.nan
  | F32.inf s, F32.inf t => if s = t then F32.inf s else F32.nan
  | F32.inf s, F32.fin _ _ _ => F32.inf s
  | F32.fin _ _ _, F32.inf t => F32.inf t
  | F32.fin s m e, F32.fin t n f =>
    let e0 := min e f
    let a : ℤ := (if s then -1 else 1) * (m * 2 ^ (e - e0).toNat : ℕ)
    let b : ℤ := (if t then -1 else 1) * (n * 2 ^ (f - e0).toNat : ℕ)
    if a + b = 0 then F32.fin (s && t) 0 (-149)
    else F32.round (decide (a + b < 0)) (a + b).natAbs e0

/-- Float subtraction. -/
def F32.sub (x y : F32) : F32 := F32.add x (F32.neg y)

/-- Float multiplication. -/
def F32.mul : F32 → F32 → F32
  | F32.nan, _ => F32.nan
  | _, F32.nan => F32.nan
  | F32.inf s, F32.inf t => F32.inf (xor s t)
  | F32.inf s, F32.fin t n _ => if n = 0 then F32.nan else F32.inf (xor s t)
  | F32.fin s m _, F32.inf t => if m = 0 then F32.nan else F32.inf (xor s t)
  | F32.fin s m e, F32.fin t n f => F32.round (xor s t) (m * n) (e + f)

/-- The comparison `x < y` of floats: false when an operand is NaN, and the
two zeros are equal. -/
def F32.lt : F32 → F32 → Bool
  | F32.nan, _ => false
  | _, F32.nan => false
  | F32.inf s, F32.inf t => s && !t
  | F32.inf s, F32.fin _ _ _ => s
  | F32.fin _ _ _, F32.inf t => !t
  | F32.fin s m e, F32.fin t n f =>
    let e0 := min e f
    let a : ℤ := (if s then -1 else 1) * (m * 2 ^ (e - e0).toNat : ℕ)
    let b : ℤ := (if t then -1 else 1) * (n * 2 ^ (f - e0).toNat : ℕ)
    decide (a < b)

/-- The rational number a finite float stands for (`0` for NaN and the infinities). -/
def F32.val : F32 → ℚ
  | F32.fin s m e => (if s then -1 else 1) * (m : ℚ) * (2 : ℚ) ^ e
  | _ => 0

/-- The float is a finite number. -/
def F32.isFinite : F32 → Bool
  | F32.fin _ _ _ => true
  | _ => false

/-- The float nearest to the exact quotient `(-1)^neg * (num / den) * 2^e`, for
`0 < num` and `0 < den`: the quotient is cut after at least 26 binary digits
and a sticky digit records whether anything was cut off. -/
def F32.roundDiv (neg : Bool) (num den : Nat) (e : ℤ) : F32 :=
  let k := 26 + bitLength den den
  let q := num * 2 ^ k / den
  let sticky := if num * 2 ^ k % den = 0 then 0 else 1
  F32.round neg (2 * q + sticky) (e - k - 1)

/-- The integer a float stands for, when it stands for one. -/
def F32.toInt? : F32 → Option ℤ
  | F32.fin s m e =>
    if 0 ≤ e then some ((if s then -1 else 1) * (m * 2 ^ e.toNat : ℕ))
    else if m % 2 ^ (-e).toNat = 0 then some ((if s then -1 else 1) * (m / 2 ^ (-e).toNat : ℕ))
    else none
  | _ => none

/-- The power `x ^ n` of a float with an integer exponent, rounded once, with
the special values of IEEE 754 for zeros, infinities and NaN. -/
def F32.powInt (x : F32) (n : ℤ) : F32 :=
  if n = 0 then F32.ofInt 1
  else
    match x with
    | F32.nan => F32.nan
    | F32.inf s =>
      if 0 < n then F32.inf (s && decide (n % 2 = 1)) else F32.fin (s && decide (n % 2 = 1)) 0 (-149)
    | F32.fin s m e =>
      if m = 0 then
        if 0 < n then F32.fin (s && decide (n % 2 = 1)) 0 (-149)
        else F32.inf (s && decide (n % 2 = 1))
      else if 0 < n then F32.round (s && decide (n % 2 = 1)) (m ^ n.toNat) (e * n)
      else F32.roundDiv (s && decide (n % 2 = 1)) 1 (m ^ (-n).toNat) (e * n)

/-- A `std::pow(float, float)` for the examples: at an exponent that is an
integer it is the correctly rounded power.  Exponents that are not integers
are not modelled (the result there is NaN); the theorems take `std::pow` as a
parameter of the arithmetic. -/
def F32.pow (x y : F32) : F32 :=
  match y.toInt? with
  | some n => F32.powInt x n
  | none => F32.nan

/-- The arithmetic of IEEE 754 binary32.  The library function
`std::pow(float, float)` is a parameter. -/
def binary32 (pow : F32 → F32 → F32) : FloatOps F32 :=
  { add := F32.add, sub := F32.sub, mul := F32.mul, pow := pow, lt := F32.lt,
    ofInt := F32.ofInt }

/-- Four leaves with gradient `0` and the values `2^24`, `1`, `-1` and `3`: the
sum of the first two and the difference of the first and the third are not
floats, and neither is the reciprocal of the fourth. -/
def roundingHeap : Fl.Heap F32 :=
  ⟨4, [some ⟨F32.ofInt 16777216, F32.ofInt 0, "", 0, [], Fl.Backward.empty⟩,
       some ⟨F32.ofInt 1, F32.ofInt 0, "", 1, [], Fl.Backward.empty⟩,
       some ⟨F32.ofInt (-1), F32.ofInt 0, "", 2, [], Fl.Backward.empty⟩,
       some ⟨F32.ofInt 3, F32.ofInt 0, "", 3, [], Fl.Backward.empty⟩]⟩

/-- The largest finite float, `FLT_MAX = (2^24 - 1) * 2^104`. -/
def FLT_MAX : F32 := F32.fin false (2 ^ 24 - 1) 104

/-! ### Scripts, and floats read as rationals -/

namespace Fl

variable {F : Type}

/-- One call of a constructor of `class Value`. -/
inductive Cmd (F : Type) where
  | create (data : F) (op : String) (uninit : F)
  | add (lhs rhs : ValuePtr) (uninit : F)
  | multiply (lhs rhs : ValuePtr) (uninit : F)
  | divide (lhs rhs : ValuePtr) (uninit1 uninit2 : F)
  | relu (input : ValuePtr) (uninit : F)
  | subtract (lhs rhs : ValuePtr) (uninit : F)
  | pow (base : ValuePtr) (exponent : F) (uninit : F)

/-- The effect of one constructor call on the heap. -/
def Cmd.run (A : FloatOps F) (h : Heap F) : Cmd F → Option (Heap F)
  | Cmd.create data op uninit => some (Value.create h data op uninit).1
  | Cmd.add lhs rhs uninit => (Value.add A h lhs rhs uninit).map Prod.fst
  | Cmd.multiply lhs rhs uninit => (Value.multiply A h lhs rhs uninit).map Prod.fst
  | Cmd.divide lhs rhs uninit1 uninit2 =>
    (Value.divide A h lhs rhs uninit1 uninit2).map Prod.fst
  | Cmd.relu input uninit => (Value.relu A h input uninit).map Prod.fst
  | Cmd.subtract lhs rhs uninit => (Value.subtract A h lhs rhs uninit).map Prod.fst
  | Cmd.pow base exponent uninit => (Value.pow A h base exponent uninit).map Prod.fst

/-- Run a script of constructor calls from the heap `h`. -/
def runAll (A : FloatOps F) : Heap F → List (Cmd F) → Option (Heap F)
  | h, [] => some h
  | h, c :: cs => (c.run A h).bind fun h1 => runAll A h1 cs

/-- The calls `create`, `add`, `subtract` and `multiply`. -/
def Cmd.isArith : Cmd F → Bool
  | Cmd.create _ _ _ => true
  | Cmd.add _ _ _ => true
  | Cmd.subtract _ _ _ => true
  | Cmd.multiply _ _ _ => true
  | _ => false

/-- A closure with its exponent read as a rational and cut to an integer. -/
def Backward.toExact (val : F → ℚ) : Backward F → Grad.Backward
  | Backward.empty => Grad.Backward.empty
  | Backward.add lhs_weak rhs_weak out_weak => Grad.Backward.add lhs_weak rhs_weak out_weak
  | Backward.multiply lhs_weak rhs_weak out_weak =>
    Grad.Backward.multiply lhs_weak rhs_weak out_weak
  | Backward.relu input out => Grad.Backward.relu input out
  | Backward.subtract lhs_weak rhs_weak out_weak =>
    Grad.Backward.subtract lhs_weak rhs_weak out_weak
  | Backward.pow base_weak out_weak exponent =>
    Grad.Backward.pow base_weak out_weak ⌊val exponent⌋

/-- A node with its floats read as the rationals `val` says they stand for. -/
def Value.toExact (val : F → ℚ) (v : Value F) : Grad.Value :=
  { data := val v.data, grad := val v.grad, op := v.op, id := v.id, prev := v.prev,
    backward := v.backward.toExact val }

/-- The heap with its floats read as the rationals `val` says they stand for:
the same graph, with rational values and gradients. -/
def Heap.toExact (val : F → ℚ) (h : Heap F) : Grad.Heap :=
  { currentID := h.currentID, cells := h.cells.map (Option.map (Value.toExact val)) }

/-- The float addition of `p->grad += x` on the heap `h` is exact: the float
stored stands for the sum of the numbers its operands stand for. -/
def Heap.ExactAddGrad (A : FloatOps F) (val : F → ℚ) (h : Heap F) (p : ValuePtr) (x : F) :
    Prop :=
  match h.get p with
  | some v => val (A.add v.grad x) = val v.grad + val x
  | none => True

/-- The float subtraction of `p->grad -= x` on the heap `h` is exact. -/
def Heap.ExactSubGrad (A : FloatOps F) (val : F → ℚ) (h : Heap F) (p : ValuePtr) (x : F) :
    Prop :=
  match h.get p with
  | some v => val (A.sub v.grad x) = val v.grad - val x
  | none => True

/-- Every float addition, subtraction and multiplication that one call of the
closure performs on the heap `h` is exact, operation by operation in the order
of `Backward.call`. -/
def Backward.Exact (A : FloatOps F) (val : F → ℚ) (h : Heap F) : Backward F → Prop
  | Backward.empty => True
  | Backward.add lhs_weak rhs_weak out_weak =>
    match h.get out_weak with
    | none => True
    | some o =>
      h.ExactAddGrad A val lhs_weak o.grad ∧
        match h.addGrad A lhs_weak o.grad with
        | none => True
        | some h1 =>
          match h1.get out_weak with
          | none => True
          | some o1 => h1.ExactAddGrad A val rhs_weak o1.grad
  | Backward.multiply lhs_weak rhs_weak out_weak =>
    match h.get rhs_weak, h.get out_weak with
    | some r, some o =>
      val (A.mul r.data o.grad) = val r.data * val o.grad ∧
        h.ExactAddGrad A val lhs_weak (A.mul r.data o.grad) ∧
        match h.addGrad A lhs_weak (A.mul r.data o.grad) with
        | none => True
        | some h1 =>
          match h1.get lhs_weak, h1.get out_weak with
          | some l, some o1 =>
            val (A.mul l.data o1.grad) = val l.data * val o1.grad ∧
              h1.ExactAddGrad A val rhs_weak (A.mul l.data o1.grad)
          | _, _ => True
    | _, _ => True
  | Backward.relu input out =>
    match h.get out with
    | none => True
    | some o =>
      val (A.mul (A.ofInt (if A.lt (A.ofInt 0) o.data then 1 else 0)) o.grad) =
          (if A.lt (A.ofInt 0) o.data then 1 else 0) * val o.grad ∧
        h.ExactAddGrad A val input
          (A.mul (A.ofInt (if A.lt (A.ofInt 0) o.data then 1 else 0)) o.grad)
  | Backward.subtract lhs_weak rhs_weak out_weak =>
    match h.get out_weak with
    | none => True
    | some o =>
      h.ExactAddGrad A val lhs_weak o.grad ∧
        match h.addGrad A lhs_weak o.grad with
        | none => True
        | some h1 =>
          match h1.get out_weak with
          | none => True
          | some o1 => h1.ExactSubGrad A val rhs_weak o1.grad
  | Backward.pow base_weak out_weak exponent =>
    match h.get base_weak, h.get out_weak with
    | some b, some o =>
      val (A.mul exponent (A.pow b.data (A.sub exponent (A.ofInt 1)))) =
          val exponent * val (A.pow b.data (A.sub exponent (A.ofInt 1))) ∧
        val (A.mul (A.mul exponent (A.pow b.data (A.sub exponent (A.ofInt 1)))) o.grad) =
          val (A.mul exponent (A.pow b.data (A.sub exponent (A.ofInt 1)))) * val o.grad ∧
        h.ExactAddGrad A val base_weak
          (A.mul (A.mul exponent (A.pow b.data (A.sub exponent (A.ofInt 1)))) o.grad)
    | _, _ => True

/-- Every float operation of the loop of `backProp` over the nodes `its`,
started on the heap `h`, is exact. -/
def replayExact (A : FloatOps F) (val : F → ℚ) : List ValuePtr → Heap F → Prop
  | [], _ => True
  | it :: rest, h =>
    match h.get it with
    | none => True
    | some v =>
      v.backward.Exact A val h ∧
        match v.backward.call A h with
        | none => True
        | some h1 => replayExact A val rest h1

/-- Every float operation of the backward pass `self.backProp()` on the heap
`h` is exact: no addition, subtraction or multiplication of the pass rounds,
overflows or yields NaN. -/
def Value.backPropExact (A : FloatOps F) (val : F → ℚ) (h : Heap F) (self : ValuePtr) : Prop :=
  match h.modify self fun v => { v with grad := A.ofInt 1 } with
  | none => True
  | some h1 =>
    match buildTopo h.cells.length h1 self { visited := [], topo := [] } with
    | none => True
    | some st => replayExact A val st.topo.reverse h1

end Fl

/-- The heap after `a = create(1)`, `b = create(2^24)`, `m = multiply(a, b)`,
`root = add(m, a)` in binary32, all gradients `0`. -/
def absorbHeap : Fl.Heap F32 :=
  ⟨4, [some ⟨F32.ofInt 1, F32.ofInt 0, "", 0, [], Fl.Backward.empty⟩,
       some ⟨F32.ofInt 16777216, F32.ofInt 0, "", 1, [], Fl.Backward.empty⟩,
       some ⟨F32.mul (F32.ofInt 1) (F32.ofInt 16777216), F32.ofInt 0, "*", 2, [0, 1],
         Fl.Backward.multiply 0 1 2⟩,
       some ⟨F32.add (F32.mul (F32.ofInt 1) (F32.ofInt 16777216)) (F32.ofInt 1), F32.ofInt 0,
         "+", 3, [2, 0], Fl.Backward.add 2 0 3⟩]⟩

/-- The heap of `main` in binary32 after its five constructor calls, all
gradients `0`: `a = 1`, `b = 2`, `c = a + b`, `d = c * c`, `loss = d + d`. -/
def mainFloatHeap : Fl.Heap F32 :=
  ⟨5, [some ⟨F32.ofInt 1, F32.ofInt 0, "", 0, [], Fl.Backward.empty⟩,
       some ⟨F32.ofInt 2, F32.ofInt 0, "", 1, [], Fl.Backward.empty⟩,
       some ⟨F32.add (F32.ofInt 1) (F32.ofInt 2), F32.ofInt 0, "+", 2, [0, 1],
         Fl.Backward.add 0 1 2⟩,
       some ⟨F32.mul (F32.add (F32.ofInt 1) (F32.ofInt 2)) (F32.add (F32.ofInt 1) (F32.ofInt 2)),
         F32.ofInt 0, "*", 3, [2, 2], Fl.Backward.multiply 2 2 3⟩,
       some ⟨F32.add
           (F32.mul (F32.add (F32.ofInt 1) (F32.ofInt 2)) (F32.add (F32.ofInt 1) (F32.ofInt 2)))
           (F32.mul (F32.add (F32.ofInt 1) (F32.ofInt 2)) (F32.add (F32.ofInt 1) (F32.ofInt 2))),
         F32.ofInt 0, "+", 4, [3, 3], Fl.Backward.add 3 3 4⟩]⟩
/-! ## Basic facts about the heap -/

theorem Heap.get_lt {h : Heap} {p : ValuePtr} {v : Value} (hp : h.get p = some v) :
    p < h.cells.length := by
  unfold Heap.get at hp
  by_contra hlt
  simp [List.getElem?_eq_none (Nat.le_of_not_lt hlt)] at hp

theorem Heap.get_push (h : Heap) (v : Value) (p : ValuePtr) :
    (h.push v).get p = if p = h.cells.length then some v else h.get p := by
  unfold Heap.get Heap.push
  by_cases hp : p = h.cells.length
  · subst hp; simp
  · rcases Nat.lt_or_gt_of_ne hp with hlt | hgt
    · simp [hp, List.getElem?_append_left hlt]
    · have h1 : h.cells.length + 1 ≤ p := hgt
      simp [hp, List.getElem?_eq_none, h1, Nat.le_of_lt hgt]

theorem Heap.get_write (h : Heap) (p q : ValuePtr) (v : Value) (hp : p < h.cells.length) :
    (h.write p v).get q = if q = p then some v else h.get q := by
  unfold Heap.get Heap.write
  by_cases hq : q = p
  · subst hq; simp [hp]
  · simp [hq, List.getElem?_set_ne (Ne.symm hq)]

@[simp] theorem Heap.length_write (h : Heap) (p : ValuePtr) (v : Value) :
    (h.write p v).cells.length = h.cells.length := by
  simp [Heap.write]

@[simp] theorem Heap.length_push (h : Heap) (v : Value) :
    (h.push v).cells.length = h.cells.length + 1 := by
  simp [Heap.push]

theorem Heap.modify_eq {h : Heap} {p : ValuePtr} {v : Value} (hp : h.get p = some v)
    (f : Value → Value) : h.modify p f = some (h.write p (f v)) := by
  simp [Heap.modify, hp]

theorem Value.create_eq (h : Heap) (data : ℚ) (op : String) (uninit : ℚ) :
    Value.create h data op uninit =
      (h.push { data := data, grad := uninit, op := op, id := h.currentID, prev := [],
                backward := Backward.empty }, h.cells.length) := rfl

theorem Heap.write_push_last (h : Heap) (v w : Value) :
    (h.push v).write h.cells.length w = h.push w := by
  simp [Heap.write, Heap.push]

theorem Value.add_eq {h : Heap} {lhs rhs : ValuePtr} {l r : Value} (uninit : ℚ)
    (hl : h.get lhs = some l) (hr : h.get rhs = some r) :
    Value.add h lhs rhs uninit =
      some (h.push { data := l.data + r.data, grad := uninit, op := "+", id := h.currentID,
                     prev := [lhs, rhs], backward := Backward.add lhs rhs h.cells.length },
            h.cells.length) := by
  simp [Value.add, hl, hr, Value.create_eq, Heap.modify, Heap.get_push, Heap.write_push_last]

theorem buildTopo_pos {fuel : Nat} (h : Heap) (v : ValuePtr) (st : TopoState) (hf : 0 < fuel) :
    buildTopo fuel h v st =
      if v ∈ st.visited then some st
      else
        match h.get v with
        | none => none
        | some node =>
          (forEach (buildTopo (fuel - 1) h) node.prev { st with visited := v :: st.visited }).map
            fun st1 => { st1 with topo := st1.topo ++ [v] } := by
  obtain ⟨k, rfl⟩ : ∃ k, fuel = k + 1 := ⟨fuel - 1, by omega⟩
  simp [buildTopo]


theorem Value.multiply_eq {h : Heap} {lhs rhs : ValuePtr} {l r : Value} (uninit : ℚ)
    (hl : h.get lhs = some l) (hr : h.get rhs = some r) :
    Value.multiply h lhs rhs uninit =
      some (h.push { data := l.data * r.data, grad := uninit, op := "*", id := h.currentID,
                     prev := [lhs, rhs], backward := Backward.multiply lhs rhs h.cells.length },
            h.cells.length) := by
  simp [Value.multiply, hl, hr, Value.create_eq, Heap.modify, Heap.get_push, Heap.write_push_last]

theorem Value.subtract_eq {h : Heap} {lhs rhs : ValuePtr} {l r : Value} (uninit : ℚ)
    (hl : h.get lhs = some l) (hr : h.get rhs = some r) :
    Value.subtract h lhs rhs uninit =
      some (h.push { data := l.data - r.data, grad := uninit, op := "-", id := h.currentID,
                     prev := [lhs, rhs], backward := Backward.subtract lhs rhs h.cells.length },
            h.cells.length) := by
  simp [Value.subtract, hl, hr, Value.create_eq, Heap.modify, Heap.get_push, Heap.write_push_last]

theorem Value.relu_eq {h : Heap} {input : ValuePtr} {i : Value} (uninit : ℚ)
    (hi : h.get input = some i) :
    Value.relu h input uninit =
      some (h.push { data := max 0 i.data, grad := uninit, op := "ReLU", id := h.currentID,
                     prev := [input], backward := Backward.relu input h.cells.length },
            h.cells.length) := by
  simp [Value.relu, hi, Value.create_eq, Heap.modify, Heap.get_push, Heap.write_push_last]

theorem Value.pow_eq {h : Heap} {base : ValuePtr} {b : Value} (exponent : ℤ) (uninit : ℚ)
    (hb : h.get base = some b) :
    Value.pow h base exponent uninit =
      some (h.push { data := b.data ^ exponent, grad := uninit, op := "^", id := h.currentID,
                     prev := [base],
                     backward := Backward.pow h.cells.length h.cells.length exponent },
            h.cells.length) := by
  simp [Value.pow, hb, Value.create_eq, Heap.modify, Heap.get_push, Heap.write_push_last]


theorem Heap.push_currentID (h : Heap) (v : Value) :
    (h.push v).currentID = (h.currentID + 1) % 2 ^ 64 := rfl

/-- Every constructor call allocates one fresh node, `divide` two. -/
theorem Cmd.run_constructor {h h1 : Heap} {c : Cmd} (hc : c.isConstructor = true)
    (hrun : c.run h = some h1) :
    (∃ v, Fresh h v ∧ h1 = h.push v) ∨
      ∃ v w, Fresh h v ∧ Fresh (h.push v) w ∧ h1 = (h.push v).push w := by
  cases c with
  | create data op uninit =>
    left
    simp only [Cmd.run, Value.create_eq, Option.some.injEq] at hrun
    exact ⟨_, ⟨rfl, by simp⟩, hrun.symm⟩
  | add lhs rhs uninit =>
    left
    cases hl : h.get lhs with
    | none => simp [Cmd.run, Value.add, hl] at hrun
    | some l =>
      cases hr : h.get rhs with
      | none => simp [Cmd.run, Value.add, hl, hr] at hrun
      | some r =>
        simp only [Cmd.run, Value.add_eq uninit hl hr, Option.map_some', Option.some.injEq] at hrun
        refine ⟨_, ⟨rfl, ?_⟩, hrun.symm⟩
        simp [Heap.get_lt hl, Heap.get_lt hr]
  | multiply lhs rhs uninit =>
    left
    cases hl : h.get lhs with
    | none => simp [Cmd.run, Value.multiply, hl] at hrun
    | some l =>
      cases hr : h.get rhs with
      | none => simp [Cmd.run, Value.multiply, hl, hr] at hrun
      | some r =>
        simp only [Cmd.run, Value.multiply_eq uninit hl hr, Option.map_some', Option.some.injEq]
          at hrun
        refine ⟨_, ⟨rfl, ?_⟩, hrun.symm⟩
        simp [Heap.get_lt hl, Heap.get_lt hr]
  | subtract lhs rhs uninit =>
    left
    cases hl : h.get lhs with
    | none => simp [Cmd.run, Value.subtract, hl] at hrun
    | some l =>
      cases hr : h.get rhs with
      | none => simp [Cmd.run, Value.subtract, hl, hr] at hrun
      | some r =>
        simp only [Cmd.run, Value.subtract_eq uninit hl hr, Option.map_some', Option.some.injEq]
          at hrun
        refine ⟨_, ⟨rfl, ?_⟩, hrun.symm⟩
        simp [Heap.get_lt hl, Heap.get_lt hr]
  | relu input uninit =>
    left
    cases hi : h.get input with
    | none => simp [Cmd.run, Value.relu, hi] at hrun
    | some i =>
      simp only [Cmd.run, Value.relu_eq uninit hi, Option.map_some', Option.some.injEq] at hrun
      refine ⟨_, ⟨rfl, ?_⟩, hrun.symm⟩
      simp [Heap.get_lt hi]
  | pow base exponent uninit =>
    left
    cases hb : h.get base with
    | none => simp [Cmd.run, Value.pow, hb] at hrun
    | some b =>
      simp only [Cmd.run, Value.pow_eq exponent uninit hb, Option.map_some', Option.some.injEq]
        at hrun
      refine ⟨_, ⟨rfl, ?_⟩, hrun.symm⟩
      simp [Heap.get_lt hb]
  | divide lhs rhs uninit1 uninit2 =>
    right
    cases hr : h.get rhs with
    | none => simp [Cmd.run, Value.divide, Value.pow, hr] at hrun
    | some r =>
      simp only [Cmd.run, Value.divide, Value.pow_eq (-1) uninit1 hr, Option.bind_eq_bind,
        Option.some_bind] at hrun
      generalize hv :
        ({ data := r.data ^ (-1 : ℤ), grad := uninit1, op := "^", id := h.currentID,
           prev := [rhs],
           backward := Backward.pow h.cells.length h.cells.length (-1) } : Value) = v at hrun
      have hfv : Fresh h v := by
        subst hv
        exact ⟨rfl, by simp [Heap.get_lt hr]⟩
      have hr1 : (h.push v).get h.cells.length = some v := by simp [Heap.get_push]
      cases hl : (h.push v).get lhs with
      | none => simp [Value.multiply, hl] at hrun
      | some l =>
        simp only [Value.multiply_eq uninit2 hl hr1, Option.map_some', Option.some.injEq] at hrun
        refine ⟨v, _, hfv, ⟨rfl, ?_⟩, hrun.symm⟩
        have := Heap.get_lt hl
        simp at this
        simp [this]
  | destroy p => simp [Cmd.isConstructor] at hc

/-! ## The identifier counter -/


theorem Heap.liveBelow_le (h : Heap) (p : ValuePtr) : h.liveBelow p ≤ h.cells.length := by
  unfold Heap.liveBelow
  exact (List.countP_le_length _).trans (by simp)

theorem Heap.liveBelow_push_le (h : Heap) (v : Value) {p : ValuePtr} (hp : p ≤ h.cells.length) :
    (h.push v).liveBelow p = h.liveBelow p := by
  simp [Heap.liveBelow, Heap.push, List.take_append_of_le_length hp]

theorem Heap.liveBelow_push_succ (h : Heap) (v : Value) :
    (h.push v).liveBelow (h.cells.length + 1) = h.liveBelow h.cells.length + 1 := by
  simp [Heap.liveBelow, Heap.push, List.take_append_eq_append_take, List.countP_append,
    List.take_of_length_le (Nat.le_succ h.cells.length)]

theorem Heap.liveBelow_lt {h : Heap} {p q : ValuePtr} {v : Value} (hp : h.get p = some v)
    (hpq : p < q) : h.liveBelow p < h.liveBelow q := by
  have hlt := Heap.get_lt hp
  have hcell : h.cells[p]? = some (some v) := by
    unfold Heap.get at hp
    cases hc : h.cells[p]? with
    | none => simp [hc] at hp
    | some c => simp [hc] at hp; simp [hp]
  have h1 : h.liveBelow (p + 1) = h.liveBelow p + 1 := by
    unfold Heap.liveBelow
    rw [List.take_succ, List.countP_append, hcell]
    simp
  have h2 : h.liveBelow (p + 1) ≤ h.liveBelow q := by
    unfold Heap.liveBelow
    exact List.Sublist.countP_le _ (List.take_sublist_take_left _ (Nat.succ_le_of_lt hpq))
  omega

theorem idInv_push {h : Heap} {v : Value} (hinv : IdInv h) (hv : Fresh h v)
    (hlen : h.cells.length + 1 < 2 ^ 64) : IdInv (h.push v) := by
  obtain ⟨hcur, hid⟩ := hinv
  have hle := h.liveBelow_le h.cells.length
  refine ⟨?_, ?_⟩
  · rw [Heap.length_push, Heap.liveBelow_push_succ, Heap.push_currentID, hcur]
    exact Nat.mod_eq_of_lt (by omega)
  · intro p w hp
    rw [Heap.get_push] at hp
    by_cases hpn : p = h.cells.length
    · subst hpn
      simp only [if_true, Option.some.injEq] at hp
      subst hp
      rw [Heap.liveBelow_push_le h _ (Nat.le_refl _), hv.1, hcur]
    · simp only [hpn, if_false] at hp
      rw [Heap.liveBelow_push_le h _ (Nat.le_of_lt (Heap.get_lt hp))]
      exact hid p w hp

theorem List.take_set_of_le {α : Type} (a : α) {n m : Nat} (l : List α) (hmn : m ≤ n) :
    (l.set n a).take m = l.take m := by
  rw [List.set_take]
  exact List.set_eq_of_length_le (by simp; omega)

theorem idInv_destroy {h h1 : Heap} {p : ValuePtr} (hinv : IdInv h) (hnew : h.newest p)
    (hrun : Value.destroy h p = some h1) (hlen : h.cells.length < 2 ^ 64) : IdInv h1 := by
  obtain ⟨hcur, hid⟩ := hinv
  obtain ⟨v, hv⟩ := Option.isSome_iff_exists.mp hnew.1
  have hlt := Heap.get_lt hv
  simp only [Value.destroy, hv, Option.map_some', Option.some.injEq] at hrun
  have hcells : h1.cells = h.cells.set p none := by rw [← hrun]
  have hcid : h1.currentID = (h.currentID + 2 ^ 64 - 1) % 2 ^ 64 := by rw [← hrun]
  have hpos : h.liveBelow p < h.liveBelow h.cells.length := Heap.liveBelow_lt hv hlt
  have hle := h.liveBelow_le h.cells.length
  have hcell : h.cells[p]? = some (some v) := by
    unfold Heap.get at hv
    cases hc : h.cells[p]? with
    | none => simp [hc] at hv
    | some c => simp [hc] at hv; simp [hv]
  have hget : ∀ q, q ≠ p → h1.get q = h.get q := by
    intro q hq
    simp [Heap.get, hcells, List.getElem?_set_ne (Ne.symm hq)]
  have hgetp : h1.get p = none := by
    simp [Heap.get, hcells, hlt]
  have hbelow : ∀ q, q ≤ p → h1.liveBelow q = h.liveBelow q := by
    intro q hq
    simp [Heap.liveBelow, hcells, List.take_set_of_le _ _ hq]
  have htail : ∀ l : List (Option Value), (∀ c ∈ l, c = none) → l.countP Option.isSome = 0 := by
    intro l hl
    rw [List.countP_eq_zero]
    intro c hc
    simp [hl c hc]
  have hsplit : ∀ (g : Heap), g.liveBelow g.cells.length =
      g.liveBelow (p + 1) + (g.cells.drop (p + 1)).countP Option.isSome := by
    intro g
    unfold Heap.liveBelow
    rw [← List.countP_append, List.take_append_drop, List.take_length]
  have hdrop : ∀ c ∈ h.cells.drop (p + 1), c = none := by
    intro c hc
    obtain ⟨i, hi⟩ := List.mem_iff_getElem?.mp hc
    rw [List.getElem?_drop] at hi
    have hpi : p < p + 1 + i := Nat.lt_add_right i (Nat.lt_succ_self p)
    have := hnew.2 (p + 1 + i) hpi
    simp [Heap.get, hi] at this
    exact this
  have hdrop1 : h1.cells.drop (p + 1) = h.cells.drop (p + 1) := by
    rw [hcells, List.drop_set_of_lt _ _ (Nat.lt_succ_self p)]
  have hp1 : h.liveBelow (p + 1) = h.liveBelow p + 1 := by
    unfold Heap.liveBelow
    rw [List.take_succ, List.countP_append, hcell]
    simp
  have hp1' : h1.liveBelow (p + 1) = h.liveBelow p := by
    unfold Heap.liveBelow
    rw [List.take_succ, List.countP_append, hcells, List.take_set_of_le _ _ (Nat.le_refl p)]
    simp [hlt]
  have hlen1 : h1.cells.length = h.cells.length := by simp [hcells]
  have htot := hsplit h
  have htot1 := hsplit h1
  rw [hdrop1, htail _ hdrop, hp1'] at htot1
  rw [htail _ hdrop, hp1] at htot
  refine ⟨?_, ?_⟩
  · rw [hcid, hcur, htot1, htot]
    have : h.liveBelow p + 1 ≤ h.cells.length := by omega
    rw [show h.liveBelow p + 1 + 0 + 2 ^ 64 - 1 = h.liveBelow p + 0 + 2 ^ 64 by omega]
    rw [Nat.add_mod_right]
    exact Nat.mod_eq_of_lt (by omega)
  · intro q w hq
    by_cases hqp : q = p
    · subst hqp
      rw [hgetp] at hq
      exact absurd hq (by simp)
    · rw [hget q hqp] at hq
      have hqlt : q < p := by
        rcases Nat.lt_or_gt_of_ne hqp with hlt' | hgt
        · exact hlt'
        · have := hnew.2 q hgt
          rw [this] at hq
          exact absurd hq (by simp)
      rw [hbelow q (Nat.le_of_lt hqlt)]
      exact hid q w hq

theorem Cmd.run_length_le {h h1 : Heap} {c : Cmd} (hrun : c.run h = some h1) :
    h.cells.length ≤ h1.cells.length := by
  by_cases hc : c.isConstructor = true
  · rcases Cmd.run_constructor hc hrun with ⟨v, _, rfl⟩ | ⟨v, w, _, _, rfl⟩
    · simp
    · simp only [Heap.length_push]
      omega
  · cases c with
    | destroy p =>
      cases hp : h.get p with
      | none => simp [Cmd.run, Value.destroy, hp] at hrun
      | some v =>
        simp only [Cmd.run, Value.destroy, hp, Option.map_some', Option.some.injEq] at hrun
        rw [← hrun]
        simp
    | _ => simp [Cmd.isConstructor] at hc

theorem runAll_length_le : ∀ (cmds : List Cmd) {h h1 : Heap}, runAll h cmds = some h1 →
    h.cells.length ≤ h1.cells.length
  | [], h, h1, hrun => by
    simp only [runAll, Option.some.injEq] at hrun
    rw [hrun]
  | c :: cs, h, h1, hrun => by
    simp only [runAll] at hrun
    cases hc : c.run h with
    | none => simp [hc] at hrun
    | some h2 =>
      rw [hc] at hrun
      exact (Cmd.run_length_le hc).trans (runAll_length_le cs hrun)

theorem idInv_init : IdInv Heap.init := by
  refine ⟨rfl, ?_⟩
  intro p v hp
  simp [Heap.get, Heap.init] at hp

theorem idInv_step {h h1 : Heap} {c : Cmd} (hinv : IdInv h) (hrun : c.run h = some h1)
    (hlifo : ∀ p, c = Cmd.destroy p → h.newest p) (hlen : h1.cells.length < 2 ^ 64) :
    IdInv h1 := by
  by_cases hc : c.isConstructor = true
  · rcases Cmd.run_constructor hc hrun with ⟨v, hv, rfl⟩ | ⟨v, w, hv, hw, rfl⟩
    · simp only [Heap.length_push] at hlen
      exact idInv_push hinv hv hlen
    · simp only [Heap.length_push] at hlen
      exact idInv_push (idInv_push hinv hv (by omega)) hw (by simpa using hlen)
  · cases c with
    | destroy p =>
      simp only [Cmd.run] at hrun
      have hl := Cmd.run_length_le (c := Cmd.destroy p) hrun
      exact idInv_destroy hinv (hlifo p rfl) hrun (Nat.lt_of_le_of_lt hl hlen)
    | _ => simp [Cmd.isConstructor] at hc

theorem idInv_runAll : ∀ (cmds : List Cmd) {h h1 : Heap}, IdInv h → runAll h cmds = some h1 →
    Lifo h cmds → h1.cells.length < 2 ^ 64 → IdInv h1
  | [], h, h1, hinv, hrun, _, _ => by
    simp only [Grad.runAll, Option.some.injEq] at hrun
    rw [← hrun]
    exact hinv
  | c :: cs, h, h1, hinv, hrun, hlifo, hlen => by
    simp only [Grad.runAll] at hrun
    cases hc : c.run h with
    | none => simp [hc] at hrun
    | some h2 =>
      rw [hc] at hrun
      have hl := runAll_length_le cs hrun
      exact idInv_runAll cs (idInv_step hinv hc hlifo.1 (Nat.lt_of_le_of_lt hl hlen)) hrun
        (hlifo.2 h2 hc) hlen


/-! ## The topological sort -/

theorem Heap.prevOf_eq {h : Heap} {u : ValuePtr} {node : Value} (hu : h.get u = some node) :
    h.prevOf u = node.prev := by
  simp [Heap.prevOf, hu]

theorem RevTopo.nodup {h : Heap} : ∀ {l : List ValuePtr}, RevTopo h l → l.Nodup
  | [], _ => List.nodup_nil
  | _ :: _, hl => List.nodup_cons.mpr ⟨hl.1, RevTopo.nodup hl.2.2⟩

theorem RevTopo.closed {h : Heap} : ∀ {l : List ValuePtr}, RevTopo h l →
    ∀ u ∈ l, ∀ c ∈ h.prevOf u, c ∈ l
  | [], _, u, hu, _, _ => absurd hu (List.not_mem_nil u)
  | x :: rest, hl, u, hu, c, hc => by
    rcases List.mem_cons.mp hu with rfl | hu'
    · obtain ⟨node, hnode, hprev⟩ := hl.2.1
      rw [Heap.prevOf_eq hnode] at hc
      exact List.mem_cons_of_mem _ (hprev c hc)
    · exact List.mem_cons_of_mem _ (RevTopo.closed hl.2.2 u hu' c hc)

theorem RevTopo.live {h : Heap} : ∀ {l : List ValuePtr}, RevTopo h l →
    ∀ u ∈ l, ∃ node, h.get u = some node
  | [], _, u, hu => absurd hu (List.not_mem_nil u)
  | x :: rest, hl, u, hu => by
    rcases List.mem_cons.mp hu with rfl | hu'
    · obtain ⟨node, hnode, _⟩ := hl.2.1
      exact ⟨node, hnode⟩
    · exact RevTopo.live hl.2.2 u hu'

/-- In the sequence whose reversal is a processing order, every node comes
strictly after each of its operands. -/
theorem RevTopo.indexOf_lt {h : Heap} : ∀ {l : List ValuePtr}, RevTopo h l →
    ∀ u ∈ l, ∀ c ∈ h.prevOf u, l.reverse.indexOf c < l.reverse.indexOf u
  | [], _, u, hu, _, _ => absurd hu (List.not_mem_nil u)
  | x :: rest, hl, u, hu, c, hc => by
    rw [List.reverse_cons]
    have hcl : c ∈ rest := by
      rcases List.mem_cons.mp hu with rfl | hu'
      · obtain ⟨node, hnode, hprev⟩ := hl.2.1
        rw [Heap.prevOf_eq hnode] at hc
        exact hprev c hc
      · exact RevTopo.closed hl.2.2 u hu' c hc
    have hcr : c ∈ rest.reverse := List.mem_reverse.mpr hcl
    rw [List.indexOf_append_of_mem hcr]
    rcases List.mem_cons.mp hu with rfl | hu'
    · have hur : u ∉ rest.reverse := fun hmem => hl.1 (List.mem_reverse.mp hmem)
      rw [List.indexOf_append_of_not_mem hur, List.indexOf_cons_self, Nat.add_zero]
      exact List.indexOf_lt_length.mpr hcr
    · rw [List.indexOf_append_of_mem (List.mem_reverse.mpr hu')]
      exact RevTopo.indexOf_lt hl.2.2 u hu' c hc

theorem Reach.mem_of_closed {h : Heap} {r : ValuePtr} {l : List ValuePtr} (hr : r ∈ l)
    (hcl : ∀ u ∈ l, ∀ c ∈ h.prevOf u, c ∈ l) {v : ValuePtr} (hv : Reach h r v) : v ∈ l := by
  induction hv with
  | root => exact hr
  | step _ hc ih => exact hcl _ ih _ hc

theorem topoExt_refl {h : Heap} {r : ValuePtr} {st : TopoState} (hinv : TopoInv h st) :
    TopoExt h r st st := by
  refine ⟨hinv, ⟨[], by simp, by simp⟩, ?_⟩
  intro w
  constructor
  · exact Or.inl
  · rintro (hw | hw)
    · exact hw
    · exact hinv.2 w hw

theorem topoExt_trans {h : Heap} {r : ValuePtr} {st st1 st2 : TopoState}
    (h1 : TopoExt h r st st1) (h2 : TopoExt h r st1 st2) : TopoExt h r st st2 := by
  obtain ⟨_, ⟨new1, hnew1, hx1⟩, hvis1⟩ := h1
  obtain ⟨hinv2, ⟨new2, hnew2, hx2⟩, hvis2⟩ := h2
  refine ⟨hinv2, ⟨new1 ++ new2, by rw [hnew2, hnew1, List.append_assoc], ?_⟩, ?_⟩
  · intro x hx
    rcases List.mem_append.mp hx with hx' | hx'
    · exact hx1 x hx'
    · exact ⟨fun hmem => (hx2 x hx').1 ((hvis1 x).mpr (Or.inl hmem)), (hx2 x hx').2⟩
  · intro w
    rw [hvis2 w, hvis1 w]
    constructor
    · rintro ((hw | hw) | hw)
      · exact Or.inl hw
      · exact Or.inr (by rw [hnew2]; exact List.mem_append_left _ hw)
      · exact Or.inr hw
    · rintro (hw | hw)
      · exact Or.inl (Or.inl hw)
      · exact Or.inr hw

/-- The loop over the operands, given what one recursive call achieves. -/
theorem forEach_spec {h : Heap} {r : ValuePtr} {b : Nat}
    {f : ValuePtr → TopoState → Option TopoState}
    (hf : ∀ c st, c < b → Reach h r c → TopoInv h st →
      (∀ w ∈ st.visited, w ∉ st.topo → c < w) →
      ∃ st1, f c st = some st1 ∧ TopoExt h r st st1 ∧ c ∈ st1.topo) :
    ∀ (cs : List ValuePtr) (st : TopoState), (∀ c ∈ cs, c < b ∧ Reach h r c) →
      TopoInv h st → (∀ w ∈ st.visited, w ∉ st.topo → b ≤ w) →
      ∃ st1, forEach f cs st = some st1 ∧ TopoExt h r st st1 ∧ ∀ c ∈ cs, c ∈ st1.topo
  | [], st, _, hinv, _ => ⟨st, rfl, topoExt_refl hinv, fun c hc => absurd hc (List.not_mem_nil c)⟩
  | c :: cs, st, hcs, hinv, hstack => by
    have hc := hcs c (List.mem_cons_self c cs)
    obtain ⟨st1, hrun1, hext1, hmem1⟩ := hf c st hc.1 hc.2 hinv
      (fun w hw hnw => Nat.lt_of_lt_of_le hc.1 (hstack w hw hnw))
    have hstack1 : ∀ w ∈ st1.visited, w ∉ st1.topo → b ≤ w := by
      intro w hw hnw
      obtain ⟨_, ⟨new1, hnew1, _⟩, hvis1⟩ := hext1
      rcases (hvis1 w).mp hw with hw' | hw'
      · exact hstack w hw' (fun hmem => hnw (by rw [hnew1]; exact List.mem_append_left _ hmem))
      · exact absurd hw' hnw
    obtain ⟨st2, hrun2, hext2, hmem2⟩ := forEach_spec hf cs st1
      (fun c' hc' => hcs c' (List.mem_cons_of_mem c hc')) hext1.1 hstack1
    refine ⟨st2, by simp [forEach, hrun1, hrun2], topoExt_trans hext1 hext2, ?_⟩
    intro c' hc'
    rcases List.mem_cons.mp hc' with rfl | hc''
    · obtain ⟨_, ⟨new2, hnew2, _⟩, _⟩ := hext2
      rw [hnew2]
      exact List.mem_append_left _ hmem1
    · exact hmem2 c' hc''

/-- What `buildTopo(v, visited, topo)` achieves on a heap built by the
constructors, when the recursion bound exceeds `v`: it returns, `v` ends up in
`topo`, and `topo` stays a sequence in which operands precede their consumers. -/
theorem buildTopo_spec {h : Heap} (hdag : h.Dag) (r : ValuePtr) :
    ∀ (fuel : Nat) (v : ValuePtr) (st : TopoState), v < fuel → v < h.cells.length →
      Reach h r v → TopoInv h st → (∀ w ∈ st.visited, w ∉ st.topo → v < w) →
      ∃ st1, buildTopo fuel h v st = some st1 ∧ TopoExt h r st st1 ∧ v ∈ st1.topo ∧
        (v ∉ st.visited → ∃ mid, st1.topo = st.topo ++ mid ++ [v])
  | 0, v, _, hv, _, _, _, _ => absurd hv (Nat.not_lt_zero v)
  | fuel + 1, v, st, hv, hlen, hreach, hinv, hstack => by
    by_cases hvis : v ∈ st.visited
    · have hmem : v ∈ st.topo := by
        by_contra hn
        exact Nat.lt_irrefl v (hstack v hvis hn)
      exact ⟨st, by simp [buildTopo, hvis], topoExt_refl hinv, hmem, fun hn => absurd hvis hn⟩
    · obtain ⟨node, hnode, hprev⟩ := hdag v hlen
      have hinv0 : TopoInv h { st with visited := v :: st.visited } :=
        ⟨hinv.1, fun u hu => List.mem_cons_of_mem _ (hinv.2 u hu)⟩
      have hstack0 : ∀ w ∈ v :: st.visited, w ∉ st.topo → v ≤ w := by
        intro w hw hnw
        rcases List.mem_cons.mp hw with rfl | hw'
        · exact Nat.le_refl _
        · exact Nat.le_of_lt (hstack w hw' hnw)
      obtain ⟨st1, hrun1, hext1, hmem1⟩ := forEach_spec (h := h) (r := r) (b := v)
        (f := buildTopo fuel h)
        (fun c st' hc hrc hinv' hst' =>
          let ⟨st2, e, x, m, _⟩ := buildTopo_spec hdag r fuel c st'
            (Nat.lt_of_lt_of_le hc (Nat.le_of_lt_succ hv)) (Nat.lt_trans hc hlen) hrc hinv' hst'
          ⟨st2, e, x, m⟩)
        node.prev { st with visited := v :: st.visited }
        (fun c hc => ⟨hprev c hc, Reach.step hreach (by rw [Heap.prevOf_eq hnode]; exact hc)⟩)
        hinv0 hstack0
      obtain ⟨hinv1, ⟨new1, hnew1, hx1⟩, hvis1⟩ := hext1
      have hnew1' : st1.topo = st.topo ++ new1 := hnew1
      have hvtopo : v ∉ st1.topo := by
        rw [hnew1']
        intro hmem
        rcases List.mem_append.mp hmem with hm | hm
        · exact hvis (hinv.2 v hm)
        · exact (hx1 v hm).1 (List.mem_cons_self v st.visited)
      refine ⟨{ st1 with topo := st1.topo ++ [v] }, by simp [buildTopo, hvis, hnode, hrun1],
        ⟨⟨?_, ?_⟩, ⟨new1 ++ [v], ?_, ?_⟩, ?_⟩, by simp, fun _ => ⟨new1, ?_⟩⟩
      · show RevTopo h (st1.topo ++ [v]).reverse
        rw [List.reverse_append, List.reverse_singleton, List.singleton_append]
        exact ⟨fun hm => hvtopo (List.mem_reverse.mp hm),
          ⟨node, hnode, fun c hc => List.mem_reverse.mpr (hmem1 c hc)⟩, hinv1.1⟩
      · intro u hu
        rcases List.mem_append.mp hu with hu' | hu'
        · exact hinv1.2 u hu'
        · rw [List.mem_singleton.mp hu']
          exact (hvis1 v).mpr (Or.inl (List.mem_cons_self v st.visited))
      · show st1.topo ++ [v] = st.topo ++ (new1 ++ [v])
        rw [hnew1', List.append_assoc]
      · intro x hx
        rcases List.mem_append.mp hx with hx' | hx'
        · exact ⟨fun hm => (hx1 x hx').1 (List.mem_cons_of_mem _ hm), (hx1 x hx').2⟩
        · rw [List.mem_singleton.mp hx']
          exact ⟨hvis, hreach⟩
      · intro w
        show w ∈ st1.visited ↔ w ∈ st.visited ∨ w ∈ st1.topo ++ [v]
        rw [hvis1 w]
        simp only [List.mem_cons, List.mem_append, List.mem_singleton]
        tauto
      · show st1.topo ++ [v] = st.topo ++ new1 ++ [v]
        rw [hnew1']

/-! ## Heaps built by the constructors -/

theorem dag_init : Heap.init.Dag := by
  intro p hp
  simp [Heap.init] at hp

theorem dag_push {h : Heap} {v : Value} (hdag : h.Dag) (hv : Fresh h v) :
    (h.push v).Dag := by
  intro p hp
  rw [Heap.get_push]
  by_cases hpn : p = h.cells.length
  · subst hpn
    exact ⟨v, by simp, hv.2⟩
  · simp only [hpn, if_false]
    simp only [Heap.length_push] at hp
    exact hdag p (by omega)

theorem dag_step {h h1 : Heap} {c : Cmd} (hdag : h.Dag) (hc : c.isConstructor = true)
    (hrun : c.run h = some h1) : h1.Dag := by
  rcases Cmd.run_constructor hc hrun with ⟨v, hv, rfl⟩ | ⟨v, w, hv, hw, rfl⟩
  · exact dag_push hdag hv
  · exact dag_push (dag_push hdag hv) hw

theorem dag_runAll : ∀ (cmds : List Cmd) {h h1 : Heap}, h.Dag →
    (∀ c ∈ cmds, c.isConstructor = true) → runAll h cmds = some h1 → h1.Dag
  | [], h, h1, hdag, _, hrun => by
    simp only [Grad.runAll, Option.some.injEq] at hrun
    rw [← hrun]
    exact hdag
  | c :: cs, h, h1, hdag, hcs, hrun => by
    simp only [Grad.runAll] at hrun
    cases hc : c.run h with
    | none => simp [hc] at hrun
    | some h2 =>
      rw [hc] at hrun
      exact dag_runAll cs (dag_step hdag (hcs c (List.mem_cons_self c cs)) hc)
        (fun c' hc' => hcs c' (List.mem_cons_of_mem c hc')) hrun

/-- The topological sort from a root of a heap on which operands pre-exist
their consumers, with a recursion bound that exceeds the root's address. -/
theorem buildTopo_root {h : Heap} (hdag : h.Dag) {root fuel : Nat} (hroot : root < h.cells.length)
    (hfuel : root < fuel) :
    ∃ st, buildTopo fuel h root { visited := [], topo := [] } = some st ∧
      RevTopo h st.topo.reverse ∧ (∃ mid, st.topo = mid ++ [root]) ∧
      ∀ v, v ∈ st.topo ↔ Reach h root v := by
  have hinv0 : TopoInv h { visited := [], topo := [] } := ⟨trivial, by simp⟩
  obtain ⟨st, hrun, ⟨hinv, ⟨new, hnew, hx⟩, _⟩, hmem, hlast⟩ :=
    buildTopo_spec hdag root fuel root { visited := [], topo := [] } hfuel hroot Reach.root
      hinv0 (by simp)
  obtain ⟨mid, hmid⟩ := hlast (by simp)
  refine ⟨st, hrun, hinv.1, ⟨mid, by simpa using hmid⟩, ?_⟩
  intro v
  constructor
  · intro hv
    have hnew' : st.topo = new := by simpa using hnew
    exact (hx v (hnew' ▸ hv)).2
  · intro hv
    have hcl : ∀ u ∈ st.topo, ∀ c ∈ h.prevOf u, c ∈ st.topo := by
      intro u hu c hc
      exact List.mem_reverse.mp
        (RevTopo.closed hinv.1 u (List.mem_reverse.mpr hu) c hc)
    exact Reach.mem_of_closed hmem hcl hv

/-! ## The backward rules as updates of the gradients -/

theorem rep_refl (h : Heap) : Rep h h.gradAt h := by
  refine ⟨rfl, fun q => ?_⟩
  cases hq : h.get q with
  | none => rfl
  | some v => simp [Heap.gradAt, hq]

theorem Rep.congr {h h1 : Heap} {g g1 : ValuePtr → ℚ} (hrep : Rep h g h1) (hg : ∀ q, g q = g1 q) :
    Rep h g1 h1 := by
  have : g = g1 := funext hg
  rw [← this]
  exact hrep

theorem Rep.get {h h1 : Heap} {g : ValuePtr → ℚ} (hrep : Rep h g h1) {q : ValuePtr} {v : Value}
    (hq : h.get q = some v) : h1.get q = some { v with grad := g q } := by
  rw [hrep.2 q, hq]
  rfl

theorem Rep.gradAt {h h1 : Heap} {g : ValuePtr → ℚ} (hrep : Rep h g h1) {q : ValuePtr} {v : Value}
    (hq : h.get q = some v) : h1.gradAt q = g q := by
  simp [Heap.gradAt, hrep.get hq]

/-- Writing the gradient of a live node. -/
theorem Rep.modify {h h1 : Heap} {g : ValuePtr → ℚ} (hrep : Rep h g h1) {p : ValuePtr} {v : Value}
    (hp : h.get p = some v) (x : ℚ) (f : Value → Value)
    (hf : ∀ w : Value, f w = { w with grad := x }) :
    ∃ h2, h1.modify p f = some h2 ∧ Rep h (Function.update g p x) h2 := by
  have hp1 := hrep.get hp
  have hlt : p < h1.cells.length := Heap.get_lt hp1
  refine ⟨_, Heap.modify_eq hp1 f, ?_, ?_⟩
  · rw [Heap.length_write, hrep.1]
  · intro q
    rw [Heap.get_write _ _ _ _ hlt]
    by_cases hq : q = p
    · subst hq
      simp [hp, hf]
    · simp [hq, hrep.2 q]

/-- The statement `p->grad += x` on a live node. -/
theorem Rep.addGrad {h h1 : Heap} {g : ValuePtr → ℚ} (hrep : Rep h g h1) {p : ValuePtr}
    {v : Value} (hp : h.get p = some v) (x : ℚ) :
    ∃ h2, h1.addGrad p x = some h2 ∧ Rep h (Function.update g p (g p + x)) h2 := by
  have hp1 := hrep.get hp
  have hlt : p < h1.cells.length := Heap.get_lt hp1
  refine ⟨_, Heap.modify_eq hp1 _, ?_, ?_⟩
  · rw [Heap.length_write, hrep.1]
  · intro q
    rw [Heap.get_write _ _ _ _ hlt]
    by_cases hq : q = p
    · subst hq
      simp [hp]
    · simp [hq, hrep.2 q]

theorem localFactors_leaf {h : Heap} {u : ValuePtr} {node : Value} (hu : h.get u = some node)
    (hp : node.prev = []) : localFactors h u = [] := by
  simp [localFactors, hu, hp]

theorem weightTo_leaf {h : Heap} {u : ValuePtr} {node : Value} (hu : h.get u = some node)
    (hp : node.prev = []) (q : ValuePtr) : weightTo h u q = 0 := by
  simp [weightTo, localFactors_leaf hu hp]

theorem update_two (g : ValuePtr → ℚ) (l r q : ValuePtr) (a b : ℚ) :
    Function.update (Function.update g l (g l + a)) r (Function.update g l (g l + a) r + b) q =
      g q + ((if l = q then a else 0) + if r = q then b else 0) := by
  by_cases hr : r = q
  · subst hr
    by_cases hl : l = r
    · subst hl
      simp
      ring
    · simp [hl, Function.update_noteq (Ne.symm hl)]
  · by_cases hl : l = q
    · subst hl
      simp [hr, Function.update_noteq (Ne.symm hr)]
    · simp [hl, hr, Function.update_noteq (Ne.symm hr), Function.update_noteq (Ne.symm hl)]

/-- The backward rule of a leaf, sum, difference or product node `u`, run on a
heap whose gradients are `g`, returns and leaves the gradients `stepG h u g`. -/
theorem Backward.call_rep {h h1 : Heap} {g : ValuePtr → ℚ} (hdag : h.Dag) (hrep : Rep h g h1)
    {u : ValuePtr} {node : Value} (hu : h.get u = some node) (harith : node.ArithAt u) :
    ∃ h2, node.backward.call h1 = some h2 ∧ Rep h (stepG h u g) h2 := by
  have hult := Heap.get_lt hu
  obtain ⟨node', hnode', hprev⟩ := hdag u hult
  rw [hu] at hnode'
  cases hnode'
  rcases harith with ⟨hp, hb⟩ | ⟨lhs, rhs, hp, hcase⟩
  · refine ⟨h1, by rw [hb]; rfl, hrep.congr ?_⟩
    intro q
    simp [stepG, weightTo_leaf hu hp]
  · have hl : lhs < u := hprev lhs (by simp [hp])
    have hr : rhs < u := hprev rhs (by simp [hp])
    obtain ⟨vl, hvl, _⟩ := hdag lhs (Nat.lt_trans hl hult)
    obtain ⟨vr, hvr, _⟩ := hdag rhs (Nat.lt_trans hr hult)
    have hul : u ≠ lhs := Nat.ne_of_gt hl
    have hur : u ≠ rhs := Nat.ne_of_gt hr
    rcases hcase with ⟨hop, hb⟩ | ⟨hop, hb⟩ | ⟨hop, hb⟩
    · obtain ⟨h2, e2, hrep2⟩ := hrep.addGrad hvl (g u)
      obtain ⟨h3, e3, hrep3⟩ := hrep2.addGrad hvr (Function.update g lhs (g lhs + g u) u)
      refine ⟨h3, ?_, hrep3.congr ?_⟩
      · rw [hb]
        simp only [Backward.call, hrep.get hu, Option.bind_eq_bind, Option.some_bind, e2,
          hrep2.get hu, e3]
      · intro q
        rw [Function.update_noteq hul, update_two]
        simp only [stepG, weightTo, localFactors, hu, hp, hop, if_true, List.map_cons,
          List.map_nil, List.sum_cons, List.sum_nil]
        split_ifs <;> ring
    · obtain ⟨h2, e2, hrep2⟩ := hrep.addGrad hvl (g u)
      obtain ⟨h3, e3, hrep3⟩ := hrep2.addGrad hvr (-(Function.update g lhs (g lhs + g u) u))
      refine ⟨h3, ?_, hrep3.congr ?_⟩
      · rw [hb]
        simp only [Backward.call, hrep.get hu, Option.bind_eq_bind, Option.some_bind, e2,
          hrep2.get hu, e3]
      · intro q
        have hne : ¬ ("-" : String) = "+" := by decide
        rw [Function.update_noteq hul, update_two]
        simp only [stepG, weightTo, localFactors, hu, hp, hop, hne, if_true, if_false,
          List.map_cons, List.map_nil, List.sum_cons, List.sum_nil]
        split_ifs <;> ring
    · obtain ⟨h2, e2, hrep2⟩ := hrep.addGrad hvl (vr.data * g u)
      obtain ⟨h3, e3, hrep3⟩ := hrep2.addGrad hvr
        (vl.data * Function.update g lhs (g lhs + vr.data * g u) u)
      refine ⟨h3, ?_, hrep3.congr ?_⟩
      · rw [hb]
        simp only [Backward.call, hrep.get hu, hrep.get hvr, Option.bind_eq_bind,
          Option.some_bind, e2, hrep2.get hu, hrep2.get hvl, e3]
      · intro q
        have hne1 : ¬ ("*" : String) = "+" := by decide
        have hne2 : ¬ ("*" : String) = "-" := by decide
        rw [Function.update_noteq hul, update_two]
        simp only [stepG, weightTo, localFactors, hu, hp, hop, hne1, hne2, if_true, if_false,
          List.map_cons, List.map_nil, List.sum_cons, List.sum_nil, Heap.dataAt, hvl, hvr]
        split_ifs <;> ring

/-- The loop of `backProp` over a list of nodes of a heap of sums, differences
and products returns and leaves the gradients `runG h its g`. -/
theorem replay_rep {h : Heap} (hdag : h.Dag) (harith : h.Arith) :
    ∀ (its : List ValuePtr) (h1 : Heap) (g : ValuePtr → ℚ), Rep h g h1 →
      (∀ u ∈ its, u < h.cells.length) →
      ∃ h2, replay its h1 = some h2 ∧ Rep h (runG h its g) h2
  | [], h1, g, hrep, _ => ⟨h1, rfl, hrep⟩
  | u :: rest, h1, g, hrep, hlt => by
    obtain ⟨node, hnode, _⟩ := hdag u (hlt u (List.mem_cons_self u rest))
    obtain ⟨h2, e2, hrep2⟩ := Backward.call_rep hdag hrep hnode (harith u node hnode)
    obtain ⟨h3, e3, hrep3⟩ := replay_rep hdag harith rest h2 (stepG h u g) hrep2
      (fun w hw => hlt w (List.mem_cons_of_mem u hw))
    refine ⟨h3, ?_, hrep3⟩
    simp [replay, hrep.get hnode, e2, e3]

/-! ## Path sums -/

theorem sum_prod_flatMap (fs : List (ValuePtr × ℚ)) (P : ValuePtr → List (List ℚ)) :
    ((fs.flatMap fun cf => (P cf.1).map fun path => cf.2 :: path).map List.prod).sum =
      (fs.map fun cf => cf.2 * ((P cf.1).map List.prod).sum).sum := by
  induction fs with
  | nil => simp
  | cons cf fs ih =>
    rw [List.flatMap_cons, List.map_append, List.sum_append, ih, List.map_cons, List.sum_cons,
      List.map_map]
    congr 1
    rw [← List.sum_map_mul_left]
    congr 1

/-- The sum over the paths of one more edge, split by the first edge. -/
theorem paths_sum_succ (h : Heap) (fuel : Nat) (u v : ValuePtr) :
    ((paths h (fuel + 1) u v).map List.prod).sum =
      (if u = v then 1 else 0) +
        ((localFactors h u).map fun cf => cf.2 * ((paths h fuel cf.1 v).map List.prod).sum).sum := by
  rw [paths, List.map_append, List.sum_append,
    sum_prod_flatMap (localFactors h u) (fun c => paths h fuel c v)]
  congr 1
  split_ifs <;> simp

theorem localFactors_mem_prev {h : Heap} {u : ValuePtr} {cf : ValuePtr × ℚ}
    (hcf : cf ∈ localFactors h u) : cf.1 ∈ h.prevOf u := by
  unfold localFactors at hcf
  unfold Heap.prevOf
  cases hu : h.get u with
  | none => simp [hu] at hcf
  | some node =>
    simp only [hu] at hcf ⊢
    match hp : node.prev, hcf with
    | [lhs, rhs], hcf =>
      simp only at hcf
      split_ifs at hcf <;> simp at hcf <;> rcases hcf with rfl | rfl <;> simp
    | [], hcf => simp at hcf
    | [_], hcf => simp at hcf
    | _ :: _ :: _ :: _, hcf => simp at hcf

theorem localFactors_lt {h : Heap} (hdag : h.Dag) {u : ValuePtr} {cf : ValuePtr × ℚ}
    (hcf : cf ∈ localFactors h u) : cf.1 < u := by
  have hmem := localFactors_mem_prev hcf
  unfold Heap.prevOf at hmem
  cases hu : h.get u with
  | none => simp [hu] at hmem
  | some node =>
    simp only [hu] at hmem
    obtain ⟨node', hnode', hprev⟩ := hdag u (Heap.get_lt hu)
    rw [hu] at hnode'
    cases hnode'
    exact hprev _ hmem

/-- On a heap on which operands pre-exist their consumers the paths from `u`
do not depend on the bound, once it exceeds `u`. -/
theorem paths_fuel {h : Heap} (hdag : h.Dag) (v : ValuePtr) :
    ∀ (n : Nat) (u : Nat), u < n → ∀ f1 f2 : Nat, u < f1 → u < f2 →
      paths h f1 u v = paths h f2 u v
  | 0, u, hu, _, _, _, _ => absurd hu (Nat.not_lt_zero u)
  | n + 1, u, hu, f1, f2, h1, h2 => by
    obtain ⟨a, rfl⟩ : ∃ a, f1 = a + 1 := ⟨f1 - 1, by omega⟩
    obtain ⟨b, rfl⟩ : ∃ b, f2 = b + 1 := ⟨f2 - 1, by omega⟩
    rw [paths, paths]
    congr 1
    apply List.flatMap_congr
    intro cf hcf
    have hlt : cf.1 < u := localFactors_lt hdag hcf
    rw [paths_fuel hdag v n cf.1 (Nat.lt_of_lt_of_le hlt (Nat.le_of_lt_succ hu)) a b
      (Nat.lt_of_lt_of_le hlt (Nat.le_of_lt_succ h1))
      (Nat.lt_of_lt_of_le hlt (Nat.le_of_lt_succ h2))]

/-- The path sums split by the first edge of the path. -/
theorem pathSum_rec {h : Heap} (hdag : h.Dag) (u v : ValuePtr) :
    pathSum h u v =
      (if u = v then 1 else 0) + ((localFactors h u).map fun cf => cf.2 * pathSum h cf.1 v).sum := by
  unfold pathSum
  rw [paths_sum_succ]
  congr 2
  apply List.map_congr_left
  intro cf hcf
  have hlt := localFactors_lt hdag hcf
  rw [paths_fuel hdag v u cf.1 hlt u (cf.1 + 1) hlt (Nat.lt_succ_self _)]

theorem weightTo_eq_zero {h : Heap} {u q : ValuePtr} (hq : ∀ cf ∈ localFactors h u, cf.1 ≠ q) :
    weightTo h u q = 0 := by
  unfold weightTo
  apply List.sum_eq_zero
  intro x hx
  obtain ⟨cf, hcf, rfl⟩ := List.mem_map.mp hx
  simp [hq cf hcf]

theorem sum_map_single {l : List ValuePtr} (hl : l.Nodup) {c : ValuePtr} (hc : c ∈ l)
    (F : ValuePtr → ℚ) (f : ℚ) :
    (l.map fun w => (if c = w then f else 0) * F w).sum = f * F c := by
  induction l with
  | nil => exact absurd hc (List.not_mem_nil c)
  | cons x rest ih =>
    rw [List.nodup_cons] at hl
    rw [List.map_cons, List.sum_cons]
    rcases List.mem_cons.mp hc with rfl | hc'
    · have hz : (rest.map fun w => (if c = w then f else 0) * F w).sum = 0 := by
        apply List.sum_eq_zero
        intro y hy
        obtain ⟨w, hw, rfl⟩ := List.mem_map.mp hy
        have : c ≠ w := fun e => hl.1 (e ▸ hw)
        simp [this]
      rw [hz, if_pos rfl, add_zero]
    · have : c ≠ x := fun e => hl.1 (e ▸ hc')
      rw [if_neg this, zero_mul, zero_add]
      exact ih hl.2 hc'

/-- The gradient shares of `u`, weighted along a list that holds every operand
of `u` once, are the local factors of `u`. -/
theorem sum_weightTo {h : Heap} {u : ValuePtr} {l : List ValuePtr} (hl : l.Nodup)
    (F : ValuePtr → ℚ) :
    ∀ fs : List (ValuePtr × ℚ), (∀ cf ∈ fs, cf.1 ∈ l) →
      (l.map fun w => (fs.map fun cf => if cf.1 = w then cf.2 else 0).sum * F w).sum =
        (fs.map fun cf => cf.2 * F cf.1).sum
  | [], _ => by simp
  | cf :: fs, hfs => by
    have ih := sum_weightTo (h := h) (u := u) hl F fs
      (fun cf' hcf' => hfs cf' (List.mem_cons_of_mem cf hcf'))
    have h1 := sum_map_single hl (hfs cf (List.mem_cons_self cf fs)) F cf.2
    simp only [List.map_cons, List.sum_cons, add_mul, List.sum_map_add, h1, ih]

/-- The gradients after running the backward rules along a processing order
`its`: every node `v` of the order ends with the sum over the nodes `w` of the
order of `g w` times the path sum from `w` to `v`; other gradients are kept. -/
theorem runG_eq {h : Heap} (hdag : h.Dag) :
    ∀ (its : List ValuePtr), RevTopo h its → ∀ (g : ValuePtr → ℚ) (v : ValuePtr),
      runG h its g v =
        (its.map fun w => g w * pathSum h w v).sum + if v ∈ its then 0 else g v
  | [], _, g, v => by simp [runG]
  | u :: rest, hrev, g, v => by
    obtain ⟨hnot, ⟨node, hnode, hprev⟩, hrest⟩ := hrev
    have hfs : ∀ cf ∈ localFactors h u, cf.1 ∈ rest := by
      intro cf hcf
      have := localFactors_mem_prev hcf
      rw [Heap.prevOf_eq hnode] at this
      exact hprev _ this
    have hK := sum_weightTo (h := h) (u := u) (RevTopo.nodup hrest) (fun w => pathSum h w v)
      (localFactors h u) hfs
    have hsum : (rest.map fun w => stepG h u g w * pathSum h w v).sum =
        (rest.map fun w => g w * pathSum h w v).sum +
          g u * ((localFactors h u).map fun cf => cf.2 * pathSum h cf.1 v).sum := by
      rw [← hK, ← List.sum_map_mul_left, ← List.sum_map_add]
      congr 1
      apply List.map_congr_left
      intro w _
      simp only [stepG, weightTo]
      ring
    rw [runG, runG_eq hdag rest hrest (stepG h u g) v, hsum, List.map_cons, List.sum_cons,
      pathSum_rec hdag u v]
    by_cases hvu : v = u
    · subst hvu
      have hw0 : weightTo h v v = 0 :=
        weightTo_eq_zero (fun cf hcf e => hnot (e ▸ hfs cf hcf))
      simp [hnot, stepG, hw0]
      ring
    · have huv : ¬ u = v := fun e => hvu e.symm
      by_cases hvr : v ∈ rest
      · simp [hvr, huv]
        ring
      · have hw0 : weightTo h u v = 0 :=
          weightTo_eq_zero (fun cf hcf e => hvr (e ▸ hfs cf hcf))
        simp [hvr, hvu, huv, stepG, hw0]
        ring

/-! ## The backward pass on heaps of sums, differences and products -/

/-- The topological sort reads `prev` only: it is the same on a heap that
differs in the gradients. -/
theorem buildTopo_congr {h h1 : Heap} {g : ValuePtr → ℚ} (hrep : Rep h g h1) :
    ∀ (fuel : Nat) (v : ValuePtr) (st : TopoState), buildTopo fuel h1 v st = buildTopo fuel h v st
  | 0, _, _ => rfl
  | fuel + 1, v, st => by
    have hfun : buildTopo fuel h1 = buildTopo fuel h :=
      funext fun c => funext fun st' => buildTopo_congr hrep fuel c st'
    simp only [buildTopo, hfun, hrep.2 v]
    cases h.get v <;> rfl

theorem Cmd.isConstructor_of_isArith {c : Cmd} (hc : c.isArith = true) :
    c.isConstructor = true := by
  cases c <;> simp_all [Cmd.isArith, Cmd.isConstructor]

/-- A call of `create`, `add`, `subtract` or `multiply` allocates one leaf, sum,
difference or product. -/
theorem Cmd.run_arith {h h1 : Heap} {c : Cmd} (hc : c.isArith = true)
    (hrun : c.run h = some h1) : ∃ v, v.ArithAt h.cells.length ∧ h1 = h.push v := by
  cases c with
  | create data op uninit =>
    simp only [Cmd.run, Value.create_eq, Option.some.injEq] at hrun
    exact ⟨_, Or.inl ⟨rfl, rfl⟩, hrun.symm⟩
  | add lhs rhs uninit =>
    cases hl : h.get lhs with
    | none => simp [Cmd.run, Value.add, hl] at hrun
    | some l =>
      cases hr : h.get rhs with
      | none => simp [Cmd.run, Value.add, hl, hr] at hrun
      | some r =>
        simp only [Cmd.run, Value.add_eq uninit hl hr, Option.map_some', Option.some.injEq] at hrun
        exact ⟨_, Or.inr ⟨lhs, rhs, rfl, Or.inl ⟨rfl, rfl⟩⟩, hrun.symm⟩
  | subtract lhs rhs uninit =>
    cases hl : h.get lhs with
    | none => simp [Cmd.run, Value.subtract, hl] at hrun
    | some l =>
      cases hr : h.get rhs with
      | none => simp [Cmd.run, Value.subtract, hl, hr] at hrun
      | some r =>
        simp only [Cmd.run, Value.subtract_eq uninit hl hr, Option.map_some', Option.some.injEq]
          at hrun
        exact ⟨_, Or.inr ⟨lhs, rhs, rfl, Or.inr (Or.inl ⟨rfl, rfl⟩)⟩, hrun.symm⟩
  | multiply lhs rhs uninit =>
    cases hl : h.get lhs with
    | none => simp [Cmd.run, Value.multiply, hl] at hrun
    | some l =>
      cases hr : h.get rhs with
      | none => simp [Cmd.run, Value.multiply, hl, hr] at hrun
      | some r =>
        simp only [Cmd.run, Value.multiply_eq uninit hl hr, Option.map_some', Option.some.injEq]
          at hrun
        exact ⟨_, Or.inr ⟨lhs, rhs, rfl, Or.inr (Or.inr ⟨rfl, rfl⟩)⟩, hrun.symm⟩
  | divide _ _ _ _ => simp [Cmd.isArith] at hc
  | relu _ _ => simp [Cmd.isArith] at hc
  | pow _ _ _ => simp [Cmd.isArith] at hc
  | destroy _ => simp [Cmd.isArith] at hc

theorem arith_init : Heap.init.Arith := by
  intro p v hp
  simp [Heap.get, Heap.init] at hp

theorem arith_push {h : Heap} {v : Value} (harith : h.Arith)
    (hv : v.ArithAt h.cells.length) : (h.push v).Arith := by
  intro p w hp
  rw [Heap.get_push] at hp
  by_cases hpn : p = h.cells.length
  · subst hpn
    simp only [if_true, Option.some.injEq] at hp
    subst hp
    exact hv
  · simp only [hpn, if_false] at hp
    exact harith p w hp

theorem arith_runAll : ∀ (cmds : List Cmd) {h h1 : Heap}, h.Arith →
    (∀ c ∈ cmds, c.isArith = true) → runAll h cmds = some h1 → h1.Arith
  | [], h, h1, harith, _, hrun => by
    simp only [Grad.runAll, Option.some.injEq] at hrun
    rw [← hrun]
    exact harith
  | c :: cs, h, h1, harith, hcs, hrun => by
    simp only [Grad.runAll] at hrun
    cases hc : c.run h with
    | none => simp [hc] at hrun
    | some h2 =>
      rw [hc] at hrun
      obtain ⟨v, hv, rfl⟩ := Cmd.run_arith (hcs c (List.mem_cons_self c cs)) hc
      exact arith_runAll cs (arith_push harith hv)
        (fun c' hc' => hcs c' (List.mem_cons_of_mem c hc')) hrun

/-- In a processing order every consumer comes strictly before its operands. -/
theorem RevTopo.indexOf_gt {h : Heap} : ∀ {l : List ValuePtr}, RevTopo h l →
    ∀ u ∈ l, ∀ c ∈ h.prevOf u, l.indexOf u < l.indexOf c
  | [], _, u, hu, _, _ => absurd hu (List.not_mem_nil u)
  | x :: rest, hl, u, hu, c, hc => by
    have hcl : c ∈ rest := by
      rcases List.mem_cons.mp hu with rfl | hu'
      · obtain ⟨node, hnode, hprev⟩ := hl.2.1
        rw [Heap.prevOf_eq hnode] at hc
        exact hprev c hc
      · exact RevTopo.closed hl.2.2 u hu' c hc
    have hcx : c ≠ x := fun e => hl.1 (e ▸ hcl)
    rw [List.indexOf_cons_ne _ hcx.symm]
    rcases List.mem_cons.mp hu with rfl | hu'
    · rw [List.indexOf_cons_self]
      exact Nat.succ_pos _
    · have hux : u ≠ x := fun e => hl.1 (e ▸ hu')
      rw [List.indexOf_cons_ne _ hux.symm]
      exact Nat.succ_lt_succ (RevTopo.indexOf_gt hl.2.2 u hu' c hc)

/-- The backward pass from `root` on a heap of sums, differences and products
with gradients `g`: it sets the gradient of `root` to `1`, sorts, runs the
backward rules along the reversed topological order `st.topo`, and returns; the
gradient of every node `v` of the order is then the sum over the nodes `w` of
the order of the gradient of `w` before the rules ran (`1` for `root`) times the
path sum from `w` to `v`. -/
theorem backProp_spec {h h0 : Heap} {g : ValuePtr → ℚ} (hdag : h.Dag) (harith : h.Arith)
    (hrep : Rep h g h0) {root : ValuePtr} (hroot : root < h.cells.length) :
    ∃ (hm : Heap) (st : TopoState) (h1 : Heap),
      h0.modify root (fun v => { v with grad := 1 }) = some hm ∧
      buildTopo h0.cells.length hm root { visited := [], topo := [] } = some st ∧
      replay st.topo.reverse hm = some h1 ∧
      Value.backProp h0 root = some h1 ∧ RevTopo h st.topo.reverse ∧
      (∀ v, v ∈ st.topo ↔ Reach h root v) ∧
      Rep h (fun v => (st.topo.reverse.map fun w =>
          Function.update g root 1 w * pathSum h w v).sum +
        if v ∈ st.topo then 0 else Function.update g root 1 v) h1 := by
  obtain ⟨st, hst, hrev, _, hmem⟩ := buildTopo_root hdag hroot hroot
  obtain ⟨vroot, hvroot, _⟩ := hdag root hroot
  obtain ⟨hm, e1, hrep1⟩ := hrep.modify hvroot 1 (fun v => { v with grad := 1 }) (fun _ => rfl)
  obtain ⟨h2, e2, hrep2⟩ := replay_rep hdag harith st.topo.reverse hm _ hrep1
    (fun u hu => by
      obtain ⟨node, hnode⟩ := RevTopo.live hrev u hu
      exact Heap.get_lt hnode)
  have hstm : buildTopo h0.cells.length hm root { visited := [], topo := [] } = some st := by
    rw [hrep.1, buildTopo_congr hrep1, hst]
  refine ⟨hm, st, h2, e1, hstm, e2, ?_, hrev, hmem, hrep2.congr ?_⟩
  · simp only [Value.backProp, Value.backPropFuel, e1, Option.bind_eq_bind, Option.some_bind,
      hstm, e2]
  · intro v
    rw [runG_eq hdag _ hrev]
    simp only [List.mem_reverse]

/-! ## Path sums are partial derivatives -/

theorem Heap.dataAt_push {h : Heap} (v : Value) {q : ValuePtr} (hq : q < h.cells.length) :
    (h.push v).dataAt q = h.dataAt q := by
  simp [Heap.dataAt, Heap.get_push, Nat.ne_of_lt hq]

theorem forward_init : Heap.init.Forward := by
  intro p node lhs rhs hp
  simp [Heap.get, Heap.init] at hp

/-- A call of `create`, `add`, `subtract` or `multiply` allocates a node whose
value follows the value rule. -/
theorem Cmd.run_arith_forward {h h1 : Heap} {c : Cmd} (hc : c.isArith = true)
    (hrun : c.run h = some h1) :
    ∃ v, h1 = h.push v ∧ ∀ lhs rhs, v.prev = [lhs, rhs] →
      lhs < h.cells.length ∧ rhs < h.cells.length ∧
      (v.op = "+" → v.data = h.dataAt lhs + h.dataAt rhs) ∧
      (v.op = "-" → v.data = h.dataAt lhs - h.dataAt rhs) ∧
      (v.op = "*" → v.data = h.dataAt lhs * h.dataAt rhs) := by
  cases c with
  | create data op uninit =>
    simp only [Cmd.run, Value.create_eq, Option.some.injEq] at hrun
    exact ⟨_, hrun.symm, fun lhs rhs hp => by simp at hp⟩
  | add lhs rhs uninit =>
    cases hl : h.get lhs with
    | none => simp [Cmd.run, Value.add, hl] at hrun
    | some l =>
      cases hr : h.get rhs with
      | none => simp [Cmd.run, Value.add, hl, hr] at hrun
      | some r =>
        simp only [Cmd.run, Value.add_eq uninit hl hr, Option.map_some', Option.some.injEq] at hrun
        refine ⟨_, hrun.symm, ?_⟩
        intro a b hp
        simp only [List.cons.injEq, and_true] at hp
        obtain ⟨rfl, rfl⟩ := hp
        refine ⟨Heap.get_lt hl, Heap.get_lt hr, ?_, ?_, ?_⟩
        · intro _
          simp [Heap.dataAt, hl, hr]
        · intro hop
          simp at hop
        · intro hop
          simp at hop
  | subtract lhs rhs uninit =>
    cases hl : h.get lhs with
    | none => simp [Cmd.run, Value.subtract, hl] at hrun
    | some l =>
      cases hr : h.get rhs with
      | none => simp [Cmd.run, Value.subtract, hl, hr] at hrun
      | some r =>
        simp only [Cmd.run, Value.subtract_eq uninit hl hr, Option.map_some', Option.some.injEq]
          at hrun
        refine ⟨_, hrun.symm, ?_⟩
        intro a b hp
        simp only [List.cons.injEq, and_true] at hp
        obtain ⟨rfl, rfl⟩ := hp
        refine ⟨Heap.get_lt hl, Heap.get_lt hr, ?_, ?_, ?_⟩
        · intro hop
          simp at hop
        · intro _
          simp [Heap.dataAt, hl, hr]
        · intro hop
          simp at hop
  | multiply lhs rhs uninit =>
    cases hl : h.get lhs with
    | none => simp [Cmd.run, Value.multiply, hl] at hrun
    | some l =>
      cases hr : h.get rhs with
      | none => simp [Cmd.run, Value.multiply, hl, hr] at hrun
      | some r =>
        simp only [Cmd.run, Value.multiply_eq uninit hl hr, Option.map_some', Option.some.injEq]
          at hrun
        refine ⟨_, hrun.symm, ?_⟩
        intro a b hp
        simp only [List.cons.injEq, and_true] at hp
        obtain ⟨rfl, rfl⟩ := hp
        refine ⟨Heap.get_lt hl, Heap.get_lt hr, ?_, ?_, ?_⟩
        · intro hop
          simp at hop
        · intro hop
          simp at hop
        · intro _
          simp [Heap.dataAt, hl, hr]
  | divide _ _ _ _ => simp [Cmd.isArith] at hc
  | relu _ _ => simp [Cmd.isArith] at hc
  | pow _ _ _ => simp [Cmd.isArith] at hc
  | destroy _ => simp [Cmd.isArith] at hc

theorem forward_runAll : ∀ (cmds : List Cmd) {h h1 : Heap}, h.Dag → h.Forward →
    (∀ c ∈ cmds, c.isArith = true) → runAll h cmds = some h1 → h1.Forward
  | [], h, h1, _, hfw, _, hrun => by
    simp only [runAll, Option.some.injEq] at hrun
    rw [← hrun]
    exact hfw
  | c :: cs, h, h1, hdag, hfw, hcs, hrun => by
    simp only [runAll] at hrun
    cases hc : c.run h with
    | none => simp [hc] at hrun
    | some h2 =>
      rw [hc] at hrun
      have hca := hcs c (List.mem_cons_self c cs)
      have hdag2 : h2.Dag := dag_step hdag (Cmd.isConstructor_of_isArith hca) hc
      obtain ⟨v, rfl, hv⟩ := Cmd.run_arith_forward hca hc
      refine forward_runAll cs hdag2 ?_ (fun c' hc' => hcs c' (List.mem_cons_of_mem c hc')) hrun
      intro p node lhs rhs hp hprev
      rw [Heap.get_push] at hp
      by_cases hpn : p = h.cells.length
      · subst hpn
        simp only [if_true, Option.some.injEq] at hp
        subst hp
        obtain ⟨hl, hr, h1', h2', h3'⟩ := hv lhs rhs hprev
        rw [Heap.dataAt_push _ hl, Heap.dataAt_push _ hr]
        exact ⟨h1', h2', h3'⟩
      · simp only [hpn, if_false] at hp
        have hplt := Heap.get_lt hp
        obtain ⟨node', hnode', hlt⟩ := hdag p hplt
        rw [hp] at hnode'
        cases hnode'
        have hl : lhs < h.cells.length := Nat.lt_trans (hlt lhs (by simp [hprev])) hplt
        have hr : rhs < h.cells.length := Nat.lt_trans (hlt rhs (by simp [hprev])) hplt
        rw [Heap.dataAt_push _ hl, Heap.dataAt_push _ hr]
        exact hfw p node lhs rhs hp hprev

/-- No operand path leads from a node to a node of larger address. -/
theorem paths_eq_nil {h : Heap} (hdag : h.Dag) (v : ValuePtr) :
    ∀ (fuel : Nat) (u : Nat), u < v → paths h fuel u v = []
  | 0, _, _ => rfl
  | fuel + 1, u, huv => by
    rw [paths, if_neg (Nat.ne_of_lt huv), List.nil_append, List.flatMap_eq_nil_iff]
    intro cf hcf
    rw [paths_eq_nil hdag v fuel cf.1 (Nat.lt_trans (localFactors_lt hdag hcf) huv)]
    rfl

theorem pathSum_self {h : Heap} (hdag : h.Dag) (v : ValuePtr) : pathSum h v v = 1 := by
  rw [pathSum_rec hdag, if_pos rfl]
  have hz : ((localFactors h v).map fun cf => cf.2 * pathSum h cf.1 v).sum = 0 := by
    apply List.sum_eq_zero
    intro x hx
    obtain ⟨cf, hcf, rfl⟩ := List.mem_map.mp hx
    unfold pathSum
    rw [paths_eq_nil hdag v _ cf.1 (localFactors_lt hdag hcf)]
    simp
  rw [hz, add_zero]

/-- At the stored value of `v` the recomputed values are the stored ones. -/
theorem valueWith_dataAt {h : Heap} (hdag : h.Dag) (hfw : h.Forward) (v : ValuePtr) :
    ∀ (fuel : Nat) (u : Nat), u < fuel → valueWith h v (h.dataAt v) fuel u = h.dataAt u
  | 0, u, hu => absurd hu (Nat.not_lt_zero u)
  | fuel + 1, u, hu => by
    unfold valueWith
    by_cases huv : u = v
    · rw [if_pos huv, huv]
    · rw [if_neg huv]
      cases hg : h.get u with
      | none => simp [Heap.dataAt, hg]
      | some node =>
        obtain ⟨node', hnode', hlt⟩ := hdag u (Heap.get_lt hg)
        rw [hg] at hnode'
        cases hnode'
        have hdu : h.dataAt u = node.data := by simp [Heap.dataAt, hg]
        simp only []
        match hp : node.prev with
        | [lhs, rhs] =>
          have hl : lhs < fuel :=
            Nat.lt_of_lt_of_le (hlt lhs (by simp [hp])) (Nat.le_of_lt_succ hu)
          have hr : rhs < fuel :=
            Nat.lt_of_lt_of_le (hlt rhs (by simp [hp])) (Nat.le_of_lt_succ hu)
          obtain ⟨h1, h2, h3⟩ := hfw u node lhs rhs hg hp
          simp only [valueWith_dataAt hdag hfw v fuel lhs hl,
            valueWith_dataAt hdag hfw v fuel rhs hr]
          split_ifs with ha hs hm
          · rw [hdu, h1 ha]
          · rw [hdu, h2 hs]
          · rw [hdu, h3 hm]
          · rw [hdu]
        | [] => simp [hdu]
        | [_] => simp [hdu]
        | _ :: _ :: _ :: _ => simp [hdu]

/-- The path sum from `u` to `v` is the derivative of the value of `u` with
respect to the value of `v`, at the stored values. -/
theorem hasDerivAt_valueWith {h : Heap} (hdag : h.Dag) (hfw : h.Forward) (v : ValuePtr) :
    ∀ (fuel : Nat) (u : Nat), u < fuel →
      HasDerivAt (fun t => valueWith h v t fuel u) (pathSum h u v) (h.dataAt v)
  | 0, u, hu => absurd hu (Nat.not_lt_zero u)
  | fuel + 1, u, hu => by
    by_cases huv : u = v
    · subst huv
      have hfun : (fun t => valueWith h u t (fuel + 1) u) = fun t => t := by
        funext t
        simp [valueWith]
      rw [hfun, pathSum_self hdag]
      exact hasDerivAt_id _
    · rw [pathSum_rec hdag, if_neg huv, zero_add]
      cases hg : h.get u with
      | none =>
        have hfun : (fun t => valueWith h v t (fuel + 1) u) = fun _ => 0 := by
          funext t
          simp [valueWith, huv, hg]
        rw [hfun]
        simp only [localFactors, hg, List.map_nil, List.sum_nil]
        exact hasDerivAt_const _ _
      | some node =>
        obtain ⟨node', hnode', hlt⟩ := hdag u (Heap.get_lt hg)
        rw [hg] at hnode'
        cases hnode'
        have hconst : HasDerivAt (fun _ : ℚ => node.data) 0 (h.dataAt v) := hasDerivAt_const _ _
        match hp : node.prev with
        | [lhs, rhs] =>
          have hl : lhs < fuel :=
            Nat.lt_of_lt_of_le (hlt lhs (by simp [hp])) (Nat.le_of_lt_succ hu)
          have hr : rhs < fuel :=
            Nat.lt_of_lt_of_le (hlt rhs (by simp [hp])) (Nat.le_of_lt_succ hu)
          have dl := hasDerivAt_valueWith hdag hfw v fuel lhs hl
          have dr := hasDerivAt_valueWith hdag hfw v fuel rhs hr
          have vl := valueWith_dataAt hdag hfw v fuel lhs hl
          have vr := valueWith_dataAt hdag hfw v fuel rhs hr
          by_cases ha : node.op = "+"
          · have hfun : (fun t => valueWith h v t (fuel + 1) u) =
                fun t => valueWith h v t fuel lhs + valueWith h v t fuel rhs := by
              funext t
              simp [valueWith, huv, hg, hp, ha]
            rw [hfun]
            simp only [localFactors, hg, hp, ha, if_true, List.map_cons, List.map_nil,
              List.sum_cons, List.sum_nil, one_mul, add_zero]
            exact dl.add dr
          · by_cases hs : node.op = "-"
            · have hfun : (fun t => valueWith h v t (fuel + 1) u) =
                  fun t => valueWith h v t fuel lhs - valueWith h v t fuel rhs := by
                funext t
                simp [valueWith, huv, hg, hp, ha, hs]
              rw [hfun]
              have n1 : ¬ ("-" : String) = "+" := by decide
              simp only [localFactors, hg, hp, hs, n1, if_true, if_false, List.map_cons,
                List.map_nil, List.sum_cons, List.sum_nil, one_mul, add_zero]
              have := dl.sub dr
              rwa [sub_eq_add_neg, ← neg_one_mul] at this
            · by_cases hm : node.op = "*"
              · have hfun : (fun t => valueWith h v t (fuel + 1) u) =
                    fun t => valueWith h v t fuel lhs * valueWith h v t fuel rhs := by
                  funext t
                  simp [valueWith, huv, hg, hp, ha, hs, hm]
                rw [hfun]
                have n1 : ¬ ("*" : String) = "+" := by decide
                have n2 : ¬ ("*" : String) = "-" := by decide
                simp only [localFactors, hg, hp, hm, n1, n2, if_true, if_false, List.map_cons,
                  List.map_nil, List.sum_cons, List.sum_nil, add_zero]
                have := dl.mul dr
                rw [vl, vr] at this
                have he : pathSum h lhs v * h.dataAt rhs + h.dataAt lhs * pathSum h rhs v =
                    h.dataAt rhs * pathSum h lhs v + h.dataAt lhs * pathSum h rhs v := by ring
                rw [he] at this
                exact this
              · have hfun : (fun t => valueWith h v t (fuel + 1) u) = fun _ => node.data := by
                  funext t
                  simp [valueWith, huv, hg, hp, ha, hs, hm]
                rw [hfun]
                simp only [localFactors, hg, hp, ha, hs, hm, if_false, List.map_nil,
                  List.sum_nil]
                exact hconst
        | [] =>
          have hfun : (fun t => valueWith h v t (fuel + 1) u) = fun _ => node.data := by
            funext t
            simp [valueWith, huv, hg, hp]
          rw [hfun]
          simp only [localFactors, hg, hp, List.map_nil, List.sum_nil]
          exact hconst
        | [_] =>
          have hfun : (fun t => valueWith h v t (fuel + 1) u) = fun _ => node.data := by
            funext t
            simp [valueWith, huv, hg, hp]
          rw [hfun]
          simp only [localFactors, hg, hp, List.map_nil, List.sum_nil]
          exact hconst
        | _ :: _ :: _ :: _ =>
          have hfun : (fun t => valueWith h v t (fuel + 1) u) = fun _ => node.data := by
            funext t
            simp [valueWith, huv, hg, hp]
          rw [hfun]
          simp only [localFactors, hg, hp, List.map_nil, List.sum_nil]
          exact hconst

/-! ## The backward pass on every heap built by the constructors -/

/-- A gradient update that returned has changed that gradient only. -/
theorem Rep.of_addGrad {h h1 h2 : Heap} {g : ValuePtr → ℚ} {p : ValuePtr} {x : ℚ}
    (hrep : Rep h g h1) (e : h1.addGrad p x = some h2) :
    Rep h (Function.update g p (g p + x)) h2 := by
  cases hp : h.get p with
  | none =>
    have hnone : h1.get p = none := by rw [hrep.2 p, hp]; rfl
    simp [Heap.addGrad, Heap.modify, hnone] at e
  | some v =>
    obtain ⟨h2', e', hrep'⟩ := hrep.addGrad hp x
    rw [e'] at e
    cases e
    exact hrep'

/-- A backward closure that returned has changed gradients only, and only
those it writes to. -/
theorem Rep.of_call {h h1 h2 : Heap} {g : ValuePtr → ℚ} (hrep : Rep h g h1) :
    ∀ {b : Backward}, b.call h1 = some h2 →
      ∃ g2, Rep h g2 h2 ∧ ∀ q, q ∉ b.writes → g2 q = g q
  | Backward.empty, e => by
    simp only [Backward.call, Option.some.injEq] at e
    exact ⟨g, e ▸ hrep, fun _ _ => rfl⟩
  | Backward.add l r o, e => by
    simp only [Backward.call, Option.bind_eq_bind, Option.bind_eq_some] at e
    obtain ⟨vo, _, h3, e3, vo2, _, e4⟩ := e
    have r3 := hrep.of_addGrad e3
    have r4 := r3.of_addGrad e4
    refine ⟨_, r4, ?_⟩
    intro q hq
    simp only [Backward.writes, List.mem_cons, List.mem_singleton, List.not_mem_nil, or_false,
      not_or] at hq
    rw [Function.update_noteq hq.2, Function.update_noteq hq.1]
  | Backward.multiply l r o, e => by
    simp only [Backward.call, Option.bind_eq_bind, Option.bind_eq_some] at e
    obtain ⟨vr, _, vo, _, h3, e3, vl, _, vo2, _, e4⟩ := e
    have r3 := hrep.of_addGrad e3
    have r4 := r3.of_addGrad e4
    refine ⟨_, r4, ?_⟩
    intro q hq
    simp only [Backward.writes, List.mem_cons, List.mem_singleton, List.not_mem_nil, or_false,
      not_or] at hq
    rw [Function.update_noteq hq.2, Function.update_noteq hq.1]
  | Backward.relu i o, e => by
    simp only [Backward.call, Option.bind_eq_bind, Option.bind_eq_some] at e
    obtain ⟨vo, _, e3⟩ := e
    have r3 := hrep.of_addGrad e3
    refine ⟨_, r3, ?_⟩
    intro q hq
    simp only [Backward.writes, List.mem_singleton] at hq
    rw [Function.update_noteq hq]
  | Backward.subtract l r o, e => by
    simp only [Backward.call, Option.bind_eq_bind, Option.bind_eq_some] at e
    obtain ⟨vo, _, h3, e3, vo2, _, e4⟩ := e
    have r3 := hrep.of_addGrad e3
    have r4 := r3.of_addGrad e4
    refine ⟨_, r4, ?_⟩
    intro q hq
    simp only [Backward.writes, List.mem_cons, List.mem_singleton, List.not_mem_nil, or_false,
      not_or] at hq
    rw [Function.update_noteq hq.2, Function.update_noteq hq.1]
  | Backward.pow b o n, e => by
    simp only [Backward.call, Option.bind_eq_bind, Option.bind_eq_some] at e
    obtain ⟨vb, _, vo, _, e3⟩ := e
    have r3 := hrep.of_addGrad e3
    refine ⟨_, r3, ?_⟩
    intro q hq
    simp only [Backward.writes, List.mem_singleton] at hq
    rw [Function.update_noteq hq]

/-- A backward closure all of whose pointers are live returns. -/
theorem Backward.call_total {h h1 : Heap} {g : ValuePtr → ℚ} (hrep : Rep h g h1) :
    ∀ {b : Backward}, (∀ q ∈ b.ptrs, ∃ v, h.get q = some v) → ∃ h2, b.call h1 = some h2
  | Backward.empty, _ => ⟨h1, rfl⟩
  | Backward.add l r o, hl => by
    obtain ⟨vl, hvl⟩ := hl l (by simp [Backward.ptrs])
    obtain ⟨vr, hvr⟩ := hl r (by simp [Backward.ptrs])
    obtain ⟨vo, hvo⟩ := hl o (by simp [Backward.ptrs])
    obtain ⟨h3, e3, r3⟩ := hrep.addGrad hvl (g o)
    obtain ⟨h4, e4, _⟩ := r3.addGrad hvr (Function.update g l (g l + g o) o)
    exact ⟨h4, by simp only [Backward.call, hrep.get hvo, Option.bind_eq_bind, Option.some_bind,
      e3, r3.get hvo, e4]⟩
  | Backward.multiply l r o, hl => by
    obtain ⟨vl, hvl⟩ := hl l (by simp [Backward.ptrs])
    obtain ⟨vr, hvr⟩ := hl r (by simp [Backward.ptrs])
    obtain ⟨vo, hvo⟩ := hl o (by simp [Backward.ptrs])
    obtain ⟨h3, e3, r3⟩ := hrep.addGrad hvl (vr.data * g o)
    obtain ⟨h4, e4, _⟩ := r3.addGrad hvr
      (vl.data * Function.update g l (g l + vr.data * g o) o)
    exact ⟨h4, by simp only [Backward.call, hrep.get hvo, hrep.get hvr, Option.bind_eq_bind,
      Option.some_bind, e3, r3.get hvo, r3.get hvl, e4]⟩
  | Backward.relu i o, hl => by
    obtain ⟨vi, hvi⟩ := hl i (by simp [Backward.ptrs])
    obtain ⟨vo, hvo⟩ := hl o (by simp [Backward.ptrs])
    obtain ⟨h3, e3, _⟩ := hrep.addGrad hvi ((if vo.data > 0 then 1 else 0) * g o)
    exact ⟨h3, by simp only [Backward.call, hrep.get hvo, Option.bind_eq_bind, Option.some_bind,
      e3]⟩
  | Backward.subtract l r o, hl => by
    obtain ⟨vl, hvl⟩ := hl l (by simp [Backward.ptrs])
    obtain ⟨vr, hvr⟩ := hl r (by simp [Backward.ptrs])
    obtain ⟨vo, hvo⟩ := hl o (by simp [Backward.ptrs])
    obtain ⟨h3, e3, r3⟩ := hrep.addGrad hvl (g o)
    obtain ⟨h4, e4, _⟩ := r3.addGrad hvr (-(Function.update g l (g l + g o) o))
    exact ⟨h4, by simp only [Backward.call, hrep.get hvo, Option.bind_eq_bind, Option.some_bind,
      e3, r3.get hvo, e4]⟩
  | Backward.pow b o n, hl => by
    obtain ⟨vb, hvb⟩ := hl b (by simp [Backward.ptrs])
    obtain ⟨vo, hvo⟩ := hl o (by simp [Backward.ptrs])
    obtain ⟨h3, e3, _⟩ := hrep.addGrad hvb ((n : ℚ) * vb.data ^ (n - 1) * g o)
    exact ⟨h3, by simp only [Backward.call, hrep.get hvo, hrep.get hvb, Option.bind_eq_bind,
      Option.some_bind, e3]⟩

/-- A run of backward rules that returned has changed gradients only, and only
those written to by the closure of one of the nodes run. -/
theorem Rep.of_replay {h : Heap} :
    ∀ (its : List ValuePtr) {h1 h2 : Heap} {g : ValuePtr → ℚ}, Rep h g h1 →
      replay its h1 = some h2 →
      ∃ g2, Rep h g2 h2 ∧
        ∀ q, (∀ u ∈ its, ∀ node, h.get u = some node → q ∉ node.backward.writes) → g2 q = g q
  | [], h1, h2, g, hrep, e => by
    simp only [replay, Option.some.injEq] at e
    exact ⟨g, e ▸ hrep, fun _ _ => rfl⟩
  | u :: rest, h1, h2, g, hrep, e => by
    cases hu : h.get u with
    | none =>
      have : h1.get u = none := by rw [hrep.2 u, hu]; rfl
      simp [replay, this] at e
    | some node =>
      simp only [replay, hrep.get hu, Option.bind_eq_some] at e
      obtain ⟨h3, e3, e4⟩ := e
      obtain ⟨g3, r3, f3⟩ := hrep.of_call e3
      obtain ⟨g4, r4, f4⟩ := Rep.of_replay rest r3 e4
      refine ⟨g4, r4, ?_⟩
      intro q hq
      rw [f4 q (fun w hw => hq w (List.mem_cons_of_mem u hw)),
        f3 q (hq u (List.mem_cons_self u rest) node hu)]

/-- On a heap built by the constructors every run of backward rules returns. -/
theorem replay_total {h : Heap} (hdag : h.Dag) (hbuilt : h.Built) :
    ∀ (its : List ValuePtr) (h1 : Heap) (g : ValuePtr → ℚ), Rep h g h1 →
      (∀ u ∈ its, u < h.cells.length) → ∃ h2, replay its h1 = some h2
  | [], h1, _, _, _ => ⟨h1, rfl⟩
  | u :: rest, h1, g, hrep, hlt => by
    have hu := hlt u (List.mem_cons_self u rest)
    obtain ⟨node, hnode, _⟩ := hdag u hu
    have hlive : ∀ q ∈ node.backward.ptrs, ∃ v, h.get q = some v := by
      intro q hq
      have hqu : q ≤ u := (hbuilt u node hnode).1 q hq
      obtain ⟨v, hv, _⟩ := hdag q (Nat.lt_of_le_of_lt hqu hu)
      exact ⟨v, hv⟩
    obtain ⟨h3, e3⟩ := Backward.call_total hrep hlive
    obtain ⟨g3, r3, _⟩ := hrep.of_call e3
    obtain ⟨h4, e4⟩ := replay_total hdag hbuilt rest h3 g3 r3
      (fun w hw => hlt w (List.mem_cons_of_mem u hw))
    exact ⟨h4, by simp [replay, hrep.get hnode, e3, e4]⟩

/-- More recursion depth does not change what `buildTopo` returns. -/
theorem buildTopo_fuel_mono (h : Heap) :
    ∀ (f1 f2 : Nat) (v : ValuePtr) (st r : TopoState), f1 ≤ f2 →
      buildTopo f1 h v st = some r → buildTopo f2 h v st = some r
  | 0, _, _, _, _, _, e => by simp [buildTopo] at e
  | f1 + 1, f2, v, st, r, hle, e => by
    obtain ⟨k, rfl⟩ : ∃ k, f2 = k + 1 := ⟨f2 - 1, by omega⟩
    have hk : f1 ≤ k := Nat.le_of_succ_le_succ hle
    have hloop : ∀ (cs : List ValuePtr) (s t : TopoState),
        forEach (buildTopo f1 h) cs s = some t → forEach (buildTopo k h) cs s = some t := by
      intro cs
      induction cs with
      | nil => intro s t hs; exact hs
      | cons c cs ih =>
        intro s t hs
        simp only [forEach, Option.bind_eq_some] at hs ⊢
        obtain ⟨s1, hs1, hs2⟩ := hs
        exact ⟨s1, buildTopo_fuel_mono h f1 k c s s1 hk hs1, ih s1 t hs2⟩
    simp only [buildTopo] at e ⊢
    by_cases hv : v ∈ st.visited
    · simpa [hv] using e
    · simp only [hv, if_false] at e ⊢
      cases hg : h.get v with
      | none => simp [hg] at e
      | some node =>
        simp only [hg, Option.map_eq_some'] at e ⊢
        obtain ⟨s1, hs1, hs2⟩ := e
        exact ⟨s1, hloop _ _ _ hs1, hs2⟩

/-- The backward pass from any root of a heap built by the constructors, with
any gradients `g` to start from and any recursion bound from the number of
nodes on: every step returns, the order holds exactly the reachable nodes, once
each, only gradients change, and those of unreachable nodes are kept. -/
theorem backProp_total {h h0 : Heap} {g : ValuePtr → ℚ} (hdag : h.Dag) (hbuilt : h.Built)
    (hrep : Rep h g h0) {root fuel : Nat} (hroot : root < h.cells.length)
    (hfuel : h.cells.length ≤ fuel) :
    ∃ (hm : Heap) (st : TopoState) (h1 : Heap) (g1 : ValuePtr → ℚ),
      h0.modify root (fun v => { v with grad := 1 }) = some hm ∧
      buildTopo fuel hm root { visited := [], topo := [] } = some st ∧
      replay st.topo.reverse hm = some h1 ∧
      Value.backPropFuel fuel h0 root = some h1 ∧ Value.backProp h0 root = some h1 ∧
      RevTopo h st.topo.reverse ∧ (∀ v, v ∈ st.topo ↔ Reach h root v) ∧
      Rep h g1 h1 ∧ ∀ q, ¬ Reach h root q → g1 q = g q := by
  obtain ⟨st, hst, hrev, _, hmem⟩ := buildTopo_root hdag hroot hroot
  obtain ⟨vroot, hvroot, _⟩ := hdag root hroot
  obtain ⟨hm, e1, hrep1⟩ := hrep.modify hvroot 1 (fun v => { v with grad := 1 }) (fun _ => rfl)
  have hlt : ∀ u ∈ st.topo.reverse, u < h.cells.length := by
    intro u hu
    obtain ⟨node, hnode⟩ := RevTopo.live hrev u hu
    exact Heap.get_lt hnode
  obtain ⟨h1, e2⟩ := replay_total hdag hbuilt st.topo.reverse hm _ hrep1 hlt
  obtain ⟨g1, hrep2, hframe⟩ := Rep.of_replay st.topo.reverse hrep1 e2
  have hstm : buildTopo h0.cells.length hm root { visited := [], topo := [] } = some st := by
    rw [hrep.1, buildTopo_congr hrep1, hst]
  have hstf : buildTopo fuel hm root { visited := [], topo := [] } = some st :=
    buildTopo_fuel_mono hm _ _ _ _ _ (hrep.1 ▸ hfuel) hstm
  refine ⟨hm, st, h1, g1, e1, hstf, e2, ?_, ?_, hrev, hmem, hrep2, ?_⟩
  · simp only [Value.backPropFuel, e1, Option.bind_eq_bind, Option.some_bind, hstf, e2]
  · simp only [Value.backProp, Value.backPropFuel, e1, Option.bind_eq_bind, Option.some_bind,
      hstm, e2]
  · intro q hq
    have hqr : q ≠ root := fun e => hq (e ▸ Reach.root)
    rw [hframe q, Function.update_noteq hqr]
    intro u hu node hnode hw
    have hur : Reach h root u := (hmem u).mp (List.mem_reverse.mp hu)
    rcases (hbuilt u node hnode).2 q hw with hprev | rfl
    · exact hq (Reach.step hur (by rw [Heap.prevOf_eq hnode]; exact hprev))
    · exact hq hur

theorem built_init : Heap.init.Built := by
  intro p v hp
  simp [Heap.get, Heap.init] at hp

theorem built_push {h : Heap} {v : Value} (hbuilt : h.Built) (hv : v.BuiltAt h.cells.length) :
    (h.push v).Built := by
  intro p w hp
  rw [Heap.get_push] at hp
  by_cases hpn : p = h.cells.length
  · subst hpn
    simp only [if_true, Option.some.injEq] at hp
    subst hp
    exact hv
  · simp only [hpn, if_false] at hp
    exact hbuilt p w hp

/-- Every constructor call allocates one node, `divide` two, whose closures
dereference nothing beyond the node and write to its operands or to itself. -/
theorem Cmd.run_builtAt {h h1 : Heap} {c : Cmd} (hc : c.isConstructor = true)
    (hrun : c.run h = some h1) :
    (∃ v, v.BuiltAt h.cells.length ∧ h1 = h.push v) ∨
      ∃ v w, v.BuiltAt h.cells.length ∧ w.BuiltAt (h.cells.length + 1) ∧
        h1 = (h.push v).push w := by
  cases c with
  | create data op uninit =>
    left
    simp only [Cmd.run, Value.create_eq, Option.some.injEq] at hrun
    exact ⟨_, ⟨by simp [Backward.ptrs], by simp [Backward.writes]⟩, hrun.symm⟩
  | add lhs rhs uninit =>
    left
    cases hl : h.get lhs with
    | none => simp [Cmd.run, Value.add, hl] at hrun
    | some l =>
      cases hr : h.get rhs with
      | none => simp [Cmd.run, Value.add, hl, hr] at hrun
      | some r =>
        simp only [Cmd.run, Value.add_eq uninit hl hr, Option.map_some', Option.some.injEq] at hrun
        refine ⟨_, ⟨?_, ?_⟩, hrun.symm⟩
        · simp [Backward.ptrs, Nat.le_of_lt (Heap.get_lt hl), Nat.le_of_lt (Heap.get_lt hr)]
        · simp [Backward.writes]
  | multiply lhs rhs uninit =>
    left
    cases hl : h.get lhs with
    | none => simp [Cmd.run, Value.multiply, hl] at hrun
    | some l =>
      cases hr : h.get rhs with
      | none => simp [Cmd.run, Value.multiply, hl, hr] at hrun
      | some r =>
        simp only [Cmd.run, Value.multiply_eq uninit hl hr, Option.map_some', Option.some.injEq]
          at hrun
        refine ⟨_, ⟨?_, ?_⟩, hrun.symm⟩
        · simp [Backward.ptrs, Nat.le_of_lt (Heap.get_lt hl), Nat.le_of_lt (Heap.get_lt hr)]
        · simp [Backward.writes]
  | subtract lhs rhs uninit =>
    left
    cases hl : h.get lhs with
    | none => simp [Cmd.run, Value.subtract, hl] at hrun
    | some l =>
      cases hr : h.get rhs with
      | none => simp [Cmd.run, Value.subtract, hl, hr] at hrun
      | some r =>
        simp only [Cmd.run, Value.subtract_eq uninit hl hr, Option.map_some', Option.some.injEq]
          at hrun
        refine ⟨_, ⟨?_, ?_⟩, hrun.symm⟩
        · simp [Backward.ptrs, Nat.le_of_lt (Heap.get_lt hl), Nat.le_of_lt (Heap.get_lt hr)]
        · simp [Backward.writes]
  | relu input uninit =>
    left
    cases hi : h.get input with
    | none => simp [Cmd.run, Value.relu, hi] at hrun
    | some i =>
      simp only [Cmd.run, Value.relu_eq uninit hi, Option.map_some', Option.some.injEq] at hrun
      refine ⟨_, ⟨?_, ?_⟩, hrun.symm⟩
      · simp [Backward.ptrs, Nat.le_of_lt (Heap.get_lt hi)]
      · simp [Backward.writes]
  | pow base exponent uninit =>
    left
    cases hb : h.get base with
    | none => simp [Cmd.run, Value.pow, hb] at hrun
    | some b =>
      simp only [Cmd.run, Value.pow_eq exponent uninit hb, Option.map_some', Option.some.injEq]
        at hrun
      refine ⟨_, ⟨?_, ?_⟩, hrun.symm⟩
      · simp [Backward.ptrs]
      · simp [Backward.writes]
  | divide lhs rhs uninit1 uninit2 =>
    right
    cases hr : h.get rhs with
    | none => simp [Cmd.run, Value.divide, Value.pow, hr] at hrun
    | some r =>
      simp only [Cmd.run, Value.divide, Value.pow_eq (-1) uninit1 hr, Option.bind_eq_bind,
        Option.some_bind] at hrun
      generalize hv :
        ({ data := r.data ^ (-1 : ℤ), grad := uninit1, op := "^", id := h.currentID,
           prev := [rhs],
           backward := Backward.pow h.cells.length h.cells.length (-1) } : Value) = v at hrun
      have hbv : v.BuiltAt h.cells.length := by
        subst hv
        exact ⟨by simp [Backward.ptrs], by simp [Backward.writes]⟩
      have hr1 : (h.push v).get h.cells.length = some v := by simp [Heap.get_push]
      cases hl : (h.push v).get lhs with
      | none => simp [Value.multiply, hl] at hrun
      | some l =>
        simp only [Value.multiply_eq uninit2 hl hr1, Option.map_some', Option.some.injEq] at hrun
        refine ⟨v, _, hbv, ⟨?_, ?_⟩, hrun.symm⟩
        · have hlt := Heap.get_lt hl
          simp only [Heap.length_push] at hlt
          simp [Backward.ptrs, Nat.le_of_lt hlt]
        · simp [Backward.writes]
  | destroy p => simp [Cmd.isConstructor] at hc

theorem built_runAll : ∀ (cmds : List Cmd) {h h1 : Heap}, h.Built →
    (∀ c ∈ cmds, c.isConstructor = true) → runAll h cmds = some h1 → h1.Built
  | [], h, h1, hb, _, hrun => by
    simp only [runAll, Option.some.injEq] at hrun
    rw [← hrun]
    exact hb
  | c :: cs, h, h1, hb, hcs, hrun => by
    simp only [runAll] at hrun
    cases hc : c.run h with
    | none => simp [hc] at hrun
    | some h2 =>
      rw [hc] at hrun
      have hb2 : h2.Built := by
        rcases Cmd.run_builtAt (hcs c (List.mem_cons_self c cs)) hc with
          ⟨v, hv, rfl⟩ | ⟨v, w, hv, hw, rfl⟩
        · exact built_push hb hv
        · exact built_push (built_push hb hv) (by simpa using hw)
      exact built_runAll cs hb2 (fun c' hc' => hcs c' (List.mem_cons_of_mem c hc')) hrun

/-- The lookup in the visited set answers membership of the pointer, whatever
the hashes are. -/
theorem visitedCount_eq (hashString : String → Nat) (hashFloat : ℚ → Nat) (bucketCount : Nat)
    (h : Heap) (visited : List ValuePtr) (v : ValuePtr) :
    visitedCount hashString hashFloat bucketCount h visited v = decide (v ∈ visited) := by
  unfold visitedCount
  by_cases hv : v ∈ visited
  · have : v ∈ visited.filter fun w =>
        decide ((ValHash hashString hashFloat h w).map (· % bucketCount) =
          (ValHash hashString hashFloat h v).map (· % bucketCount)) := by
      rw [List.mem_filter]
      exact ⟨hv, by simp⟩
    simp [hv, this]
  · have : v ∉ visited.filter fun w =>
        decide ((ValHash hashString hashFloat h w).map (· % bucketCount) =
          (ValHash hashString hashFloat h v).map (· % bucketCount)) := by
      intro hm
      exact hv (List.mem_filter.mp hm).1
    simp [hv, this]

/-- A backward pass that returned has changed gradients only. -/
theorem Rep.of_backPropFuel {h h1 : Heap} {fuel : Nat} {root : ValuePtr}
    (e : Value.backPropFuel fuel h root = some h1) : Rep h h1.gradAt h1 := by
  simp only [Value.backPropFuel, Option.bind_eq_bind, Option.bind_eq_some] at e
  obtain ⟨hm, e1, st, _, e3⟩ := e
  cases hroot : h.get root with
  | none => simp [Heap.modify, hroot] at e1
  | some v =>
    obtain ⟨hm', e1', hrep1⟩ :=
      (rep_refl h).modify hroot 1 (fun v => { v with grad := 1 }) (fun _ => rfl)
    rw [e1'] at e1
    cases e1
    obtain ⟨g2, hrep2, _⟩ := Rep.of_replay st.topo.reverse hrep1 e3
    refine ⟨hrep2.1, fun q => ?_⟩
    cases hq : h.get q with
    | none => rw [hrep2.2 q, hq]; rfl
    | some w =>
      rw [hrep2.gradAt hq, hrep2.2 q, hq]

/-- On a heap on which operands pre-exist their consumers, what is reachable
from a node has no larger address. -/
theorem Reach.le {h : Heap} (hdag : h.Dag) {r v : ValuePtr} (hv : Reach h r v) : v ≤ r := by
  induction hv with
  | root => exact Nat.le_refl r
  | @step u c _ hc ih =>
    cases hu : h.get u with
    | none => simp [Heap.prevOf, hu] at hc
    | some node =>
      obtain ⟨node', hnode', hprev⟩ := hdag u (Heap.get_lt hu)
      rw [hu] at hnode'
      cases hnode'
      rw [Heap.prevOf_eq hu] at hc
      exact Nat.le_trans (Nat.le_of_lt (hprev c hc)) ih

theorem nodup_length_le {l : List Nat} {n : Nat} (hl : l.Nodup) (hlt : ∀ x ∈ l, x < n) :
    l.length ≤ n := by
  have hsub : l.toFinset ⊆ Finset.range n := by
    intro x hx
    exact Finset.mem_range.mpr (hlt x (List.mem_toFinset.mp hx))
  have := Finset.card_le_card hsub
  rwa [List.toFinset_card_of_nodup hl, Finset.card_range] at this

/-- The backward pass on a heap of sums, differences and products with all
gradients `0`: every node of the order ends with its path sum from the root. -/
theorem backProp_spec_zero {h : Heap} (hdag : h.Dag) (harith : h.Arith)
    (hzero : ∀ p v, h.get p = some v → v.grad = 0) {root : ValuePtr}
    (hroot : root < h.cells.length) :
    ∃ (st : TopoState) (h1 : Heap), Value.backProp h root = some h1 ∧
      (∀ v, v ∈ st.topo ↔ Reach h root v) ∧
      ∀ v, Reach h root v → h1.gradAt v = pathSum h root v := by
  obtain ⟨_, st, h1, _, _, _, hbp, hrev, hmem, hrep⟩ :=
    backProp_spec hdag harith (rep_refl h) hroot
  refine ⟨st, h1, hbp, hmem, ?_⟩
  intro v hv
  have hvt : v ∈ st.topo := (hmem v).mpr hv
  obtain ⟨node, hnode⟩ := RevTopo.live hrev v (List.mem_reverse.mpr hvt)
  rw [hrep.gradAt hnode]
  have hg : ∀ w, Function.update h.gradAt root 1 w = if root = w then 1 else 0 := by
    intro w
    by_cases hw : w = root
    · subst hw
      simp
    · rw [Function.update_noteq hw, if_neg (Ne.symm hw)]
      unfold Heap.gradAt
      cases hgw : h.get w with
      | none => rfl
      | some vw => exact hzero w vw hgw
  simp only [hg, hvt, if_true, add_zero]
  rw [sum_map_single (RevTopo.nodup hrev)
    (List.mem_reverse.mpr ((hmem root).mpr Reach.root)) (fun w => pathSum h w v) 1, one_mul]

/-! ## The engine over machine floats: basic facts -/

namespace Fl

variable {F : Type}

theorem Heap.fget_lt {h : Heap F} {p : ValuePtr} {v : Value F} (hp : h.get p = some v) :
    p < h.cells.length := by
  unfold Heap.get at hp
  by_contra hlt
  simp [List.getElem?_eq_none (Nat.le_of_not_lt hlt)] at hp

theorem Heap.fget_push (h : Heap F) (v : Value F) (p : ValuePtr) :
    (h.push v).get p = if p = h.cells.length then some v else h.get p := by
  unfold Heap.get Heap.push
  by_cases hp : p = h.cells.length
  · subst hp; simp
  · rcases Nat.lt_or_gt_of_ne hp with hlt | hgt
    · simp [hp, List.getElem?_append_left hlt]
    · have h1 : h.cells.length + 1 ≤ p := hgt
      simp [hp, List.getElem?_eq_none, h1, Nat.le_of_lt hgt]

theorem Heap.fget_write (h : Heap F) (p q : ValuePtr) (v : Value F) (hp : p < h.cells.length) :
    (h.write p v).get q = if q = p then some v else h.get q := by
  unfold Heap.get Heap.write
  by_cases hq : q = p
  · subst hq; simp [hp]
  · simp [hq, List.getElem?_set_ne (Ne.symm hq)]

@[simp] theorem Heap.flength_write (h : Heap F) (p : ValuePtr) (v : Value F) :
    (h.write p v).cells.length = h.cells.length := by
  simp [Heap.write]

@[simp] theorem Heap.flength_push (h : Heap F) (v : Value F) :
    (h.push v).cells.length = h.cells.length + 1 := by
  simp [Heap.push]

theorem Heap.fmodify_eq {h : Heap F} {p : ValuePtr} {v : Value F} (hp : h.get p = some v)
    (f : Value F → Value F) : h.modify p f = some (h.write p (f v)) := by
  simp [Heap.modify, hp]

theorem Value.fcreate_eq (h : Heap F) (data : F) (op : String) (uninit : F) :
    Value.create h data op uninit =
      (h.push { data := data, grad := uninit, op := op, id := h.currentID, prev := [],
                backward := Backward.empty }, h.cells.length) := rfl

theorem Heap.fwrite_push_last (h : Heap F) (v w : Value F) :
    (h.push v).write h.cells.length w = h.push w := by
  simp [Heap.write, Heap.push]

theorem Value.fadd_eq (A : FloatOps F) {h : Heap F} {lhs rhs : ValuePtr} {l r : Value F}
    (uninit : F) (hl : h.get lhs = some l) (hr : h.get rhs = some r) :
    Value.add A h lhs rhs uninit =
      some (h.push { data := A.add l.data r.data, grad := uninit, op := "+", id := h.currentID,
                     prev := [lhs, rhs], backward := Backward.add lhs rhs h.cells.length },
            h.cells.length) := by
  simp [Value.add, hl, hr, Value.fcreate_eq, Heap.modify, Heap.fget_push, Heap.fwrite_push_last]

theorem Value.fmultiply_eq (A : FloatOps F) {h : Heap F} {lhs rhs : ValuePtr} {l r : Value F}
    (uninit : F) (hl : h.get lhs = some l) (hr : h.get rhs = some r) :
    Value.multiply A h lhs rhs uninit =
      some (h.push { data := A.mul l.data r.data, grad := uninit, op := "*", id := h.currentID,
                     prev := [lhs, rhs], backward := Backward.multiply lhs rhs h.cells.length },
            h.cells.length) := by
  simp [Value.multiply, hl, hr, Value.fcreate_eq, Heap.modify, Heap.fget_push,
    Heap.fwrite_push_last]

theorem Value.fsubtract_eq (A : FloatOps F) {h : Heap F} {lhs rhs : ValuePtr} {l r : Value F}
    (uninit : F) (hl : h.get lhs = some l) (hr : h.get rhs = some r) :
    Value.subtract A h lhs rhs uninit =
      some (h.push { data := A.sub l.data r.data, grad := uninit, op := "-", id := h.currentID,
                     prev := [lhs, rhs], backward := Backward.subtract lhs rhs h.cells.length },
            h.cells.length) := by
  simp [Value.subtract, hl, hr, Value.fcreate_eq, Heap.modify, Heap.fget_push,
    Heap.fwrite_push_last]

theorem Value.frelu_eq (A : FloatOps F) {h : Heap F} {input : ValuePtr} {i : Value F}
    (uninit : F) (hi : h.get input = some i) :
    Value.relu A h input uninit =
      some (h.push { data := if A.lt (A.ofInt 0) i.data then i.data else A.ofInt 0,
                     grad := uninit, op := "ReLU", id := h.currentID,
                     prev := [input], backward := Backward.relu input h.cells.length },
            h.cells.length) := by
  simp [Value.relu, hi, Value.fcreate_eq, Heap.modify, Heap.fget_push, Heap.fwrite_push_last]

theorem Value.fpow_eq (A : FloatOps F) {h : Heap F} {base : ValuePtr} {b : Value F}
    (exponent uninit : F) (hb : h.get base = some b) :
    Value.pow A h base exponent uninit =
      some (h.push { data := A.pow b.data exponent, grad := uninit, op := "^",
                     id := h.currentID, prev := [base],
                     backward := Backward.pow h.cells.length h.cells.length exponent },
            h.cells.length) := by
  simp [Value.pow, hb, Value.fcreate_eq, Heap.modify, Heap.fget_push, Heap.fwrite_push_last]

theorem fbuildTopo_pos {fuel : Nat} (h : Heap F) (v : ValuePtr) (st : TopoState)
    (hf : 0 < fuel) :
    buildTopo fuel h v st =
      if v ∈ st.visited then some st
      else
        match h.get v with
        | none => none
        | some node =>
          (forEach (buildTopo (fuel - 1) h) node.prev { st with visited := v :: st.visited }).map
            fun st1 => { st1 with topo := st1.topo ++ [v] } := by
  obtain ⟨k, rfl⟩ : ∃ k, fuel = k + 1 := ⟨fuel - 1, by omega⟩
  simp [buildTopo]

end Fl

/-! ## Exact backward passes over machine floats -/

namespace Fl

variable {F : Type}

theorem Heap.toExact_get (val : F → ℚ) (h : Heap F) (p : ValuePtr) :
    (h.toExact val).get p = (h.get p).map (Value.toExact val) := by
  unfold Heap.get Grad.Heap.get Heap.toExact
  simp only [List.getElem?_map]
  cases h.cells[p]? with
  | none => rfl
  | some c => cases c <;> rfl

@[simp] theorem Heap.toExact_length (val : F → ℚ) (h : Heap F) :
    (h.toExact val).cells.length = h.cells.length := by
  simp [Heap.toExact]

theorem Heap.toExact_write (val : F → ℚ) (h : Heap F) (p : ValuePtr) (v : Value F) :
    (h.write p v).toExact val = (h.toExact val).write p (v.toExact val) := by
  simp [Heap.toExact, Heap.write, Grad.Heap.write, List.map_set]

theorem Heap.toExact_push (val : F → ℚ) (h : Heap F) (v : Value F) :
    (h.push v).toExact val = (h.toExact val).push (v.toExact val) := by
  simp [Heap.toExact, Heap.push, Grad.Heap.push]

/-- The topological sort reads `prev` only: it is the same on the heap read as
rationals. -/
theorem buildTopo_toExact (val : F → ℚ) (h : Heap F) :
    ∀ (fuel : Nat) (v : ValuePtr) (st : TopoState),
      buildTopo fuel h v st = Grad.buildTopo fuel (h.toExact val) v st
  | 0, _, _ => rfl
  | fuel + 1, v, st => by
    have hfun : buildTopo fuel h = Grad.buildTopo fuel (h.toExact val) :=
      funext fun c => funext fun st' => buildTopo_toExact val h fuel c st'
    simp only [buildTopo, Grad.buildTopo, hfun, Heap.toExact_get]
    cases h.get v <;> rfl

/-- A live node stays live under a gradient update. -/
theorem Heap.modify_live {h h1 : Heap F} {p q : ValuePtr} {f : Value F → Value F} {v : Value F}
    (e : h.modify p f = some h1) (hq : h.get q = some v) : ∃ v1, h1.get q = some v1 := by
  cases hp : h.get p with
  | none => simp [Heap.modify, hp] at e
  | some w =>
    rw [Heap.fmodify_eq hp] at e
    cases e
    rw [Heap.fget_write _ _ _ _ (Heap.fget_lt hp)]
    by_cases hqp : q = p
    · exact ⟨f w, by simp [hqp]⟩
    · exact ⟨v, by simp [hqp, hq]⟩

/-- An exact `p->grad += x` is the addition of the rationals. -/
theorem Heap.addGrad_sim (A : FloatOps F) (val : F → ℚ) {h : Heap F} {p : ValuePtr}
    {v : Value F} (x : F) (hp : h.get p = some v) (hex : h.ExactAddGrad A val p x) :
    ∃ h1, h.addGrad A p x = some h1 ∧
      (h.toExact val).addGrad p (val x) = some (h1.toExact val) := by
  simp only [Heap.ExactAddGrad, hp] at hex
  refine ⟨_, Heap.fmodify_eq hp _, ?_⟩
  have hq : (h.toExact val).get p = some (v.toExact val) := by
    rw [Heap.toExact_get, hp]
    rfl
  rw [Grad.Heap.addGrad, Grad.Heap.modify_eq hq, Heap.toExact_write]
  simp only [Value.toExact, hex]

/-- An exact `p->grad -= x` is the subtraction of the rationals. -/
theorem Heap.subGrad_sim (A : FloatOps F) (val : F → ℚ) {h : Heap F} {p : ValuePtr}
    {v : Value F} (x : F) (hp : h.get p = some v) (hex : h.ExactSubGrad A val p x) :
    ∃ h1, h.subGrad A p x = some h1 ∧
      (h.toExact val).addGrad p (-(val x)) = some (h1.toExact val) := by
  simp only [Heap.ExactSubGrad, hp] at hex
  refine ⟨_, Heap.fmodify_eq hp _, ?_⟩
  have hq : (h.toExact val).get p = some (v.toExact val) := by
    rw [Heap.toExact_get, hp]
    rfl
  rw [Grad.Heap.addGrad, Grad.Heap.modify_eq hq, Heap.toExact_write]
  simp only [Value.toExact, hex, sub_eq_add_neg]

/-- The closure of a sum, run with exact float operations, does on the heap
read as rationals what the closure of the exact engine does there. -/
theorem Backward.call_sim_add (A : FloatOps F) (val : F → ℚ) {h : Heap F} {l r o : ValuePtr}
    {vl vr vo : Value F} (hl : h.get l = some vl) (hr : h.get r = some vr)
    (ho : h.get o = some vo) (hex : (Backward.add l r o).Exact A val h) :
    ∃ h1, (Backward.add l r o).call A h = some h1 ∧
      Grad.Backward.call (h.toExact val) (Grad.Backward.add l r o) =
        some (h1.toExact val) := by
  simp only [Backward.Exact, ho] at hex
  obtain ⟨h1, e1, e1q⟩ := Heap.addGrad_sim A val vo.grad hl hex.1
  obtain ⟨vo1, ho1⟩ := Heap.modify_live e1 ho
  obtain ⟨vr1, hr1⟩ := Heap.modify_live e1 hr
  have hex2 := hex.2
  simp only [e1, ho1] at hex2
  obtain ⟨h2, e2, e2q⟩ := Heap.addGrad_sim A val vo1.grad hr1 hex2
  refine ⟨h2, ?_, ?_⟩
  · simp only [Backward.call, ho, e1, ho1, e2, Option.bind_eq_bind, Option.some_bind]
  · have e1q' : (h.toExact val).addGrad l (vo.toExact val).grad = some (h1.toExact val) := e1q
    have e2q' : (h1.toExact val).addGrad r (vo1.toExact val).grad = some (h2.toExact val) := e2q
    simp only [Grad.Backward.call, Heap.toExact_get, ho, Option.map_some',
      Option.bind_eq_bind, Option.some_bind, e1q', ho1, e2q']

/-- The closure of a difference, run with exact float operations. -/
theorem Backward.call_sim_subtract (A : FloatOps F) (val : F → ℚ) {h : Heap F}
    {l r o : ValuePtr} {vl vr vo : Value F} (hl : h.get l = some vl) (hr : h.get r = some vr)
    (ho : h.get o = some vo) (hex : (Backward.subtract l r o).Exact A val h) :
    ∃ h1, (Backward.subtract l r o).call A h = some h1 ∧
      Grad.Backward.call (h.toExact val) (Grad.Backward.subtract l r o) =
        some (h1.toExact val) := by
  simp only [Backward.Exact, ho] at hex
  obtain ⟨h1, e1, e1q⟩ := Heap.addGrad_sim A val vo.grad hl hex.1
  obtain ⟨vo1, ho1⟩ := Heap.modify_live e1 ho
  obtain ⟨vr1, hr1⟩ := Heap.modify_live e1 hr
  have hex2 := hex.2
  simp only [e1, ho1] at hex2
  obtain ⟨h2, e2, e2q⟩ := Heap.subGrad_sim A val vo1.grad hr1 hex2
  refine ⟨h2, ?_, ?_⟩
  · simp only [Backward.call, ho, e1, ho1, e2, Option.bind_eq_bind, Option.some_bind]
  · have e1q' : (h.toExact val).addGrad l (vo.toExact val).grad = some (h1.toExact val) := e1q
    have e2q' : (h1.toExact val).addGrad r (-(vo1.toExact val).grad) =
        some (h2.toExact val) := e2q
    simp only [Grad.Backward.call, Heap.toExact_get, ho, Option.map_some',
      Option.bind_eq_bind, Option.some_bind, e1q', ho1, e2q']

/-- The closure of a product, run with exact float operations. -/
theorem Backward.call_sim_multiply (A : FloatOps F) (val : F → ℚ) {h : Heap F}
    {l r o : ValuePtr} {vl vr vo : Value F} (hl : h.get l = some vl) (hr : h.get r = some vr)
    (ho : h.get o = some vo) (hex : (Backward.multiply l r o).Exact A val h) :
    ∃ h1, (Backward.multiply l r o).call A h = some h1 ∧
      Grad.Backward.call (h.toExact val) (Grad.Backward.multiply l r o) =
        some (h1.toExact val) := by
  simp only [Backward.Exact, hr, ho] at hex
  obtain ⟨hm1, ha1, hrest⟩ := hex
  obtain ⟨h1, e1, e1q⟩ := Heap.addGrad_sim A val (A.mul vr.data vo.grad) hl ha1
  obtain ⟨vo1, ho1⟩ := Heap.modify_live e1 ho
  obtain ⟨vr1, hr1⟩ := Heap.modify_live e1 hr
  obtain ⟨vl1, hl1⟩ := Heap.modify_live e1 hl
  simp only [e1, hl1, ho1] at hrest
  obtain ⟨hm2, ha2⟩ := hrest
  obtain ⟨h2, e2, e2q⟩ := Heap.addGrad_sim A val (A.mul vl1.data vo1.grad) hr1 ha2
  refine ⟨h2, ?_, ?_⟩
  · simp only [Backward.call, hr, ho, e1, hl1, ho1, e2, Option.bind_eq_bind, Option.some_bind]
  · have e1q' : (h.toExact val).addGrad l ((vr.toExact val).data * (vo.toExact val).grad) =
        some (h1.toExact val) := by
      rw [← e1q, hm1]
      rfl
    have e2q' : (h1.toExact val).addGrad r ((vl1.toExact val).data * (vo1.toExact val).grad) =
        some (h2.toExact val) := by
      rw [← e2q, hm2]
      rfl
    simp only [Grad.Backward.call, Heap.toExact_get, hr, ho, Option.map_some',
      Option.bind_eq_bind, Option.some_bind, e1q', hl1, ho1, e2q']

theorem Heap.of_toExact_get {val : F → ℚ} {h : Heap F} {q : ValuePtr} {w : Grad.Value}
    (hq : (h.toExact val).get q = some w) : ∃ v, h.get q = some v ∧ v.toExact val = w := by
  rw [Heap.toExact_get] at hq
  cases hv : h.get q with
  | none => simp [hv] at hq
  | some v =>
    rw [hv] at hq
    exact ⟨v, rfl, Option.some.inj hq⟩

/-- The loop of `backProp` over nodes of a graph of leaves, sums, differences
and products, run with exact float operations, returns, and does on the heap
read as rationals what the loop of the exact engine does there. -/
theorem replay_sim (A : FloatOps F) (val : F → ℚ) {hq : Grad.Heap} (hdag : hq.Dag)
    (harith : hq.Arith) :
    ∀ (its : List ValuePtr) (h : Heap F) (g : ValuePtr → ℚ), Rep hq g (h.toExact val) →
      (∀ u ∈ its, u < hq.cells.length) → replayExact A val its h →
      ∃ h1, replay A its h = some h1 ∧
        Grad.replay its (h.toExact val) = some (h1.toExact val)
  | [], h, _, _, _, _ => ⟨h, rfl, rfl⟩
  | u :: rest, h, g, hrep, hlt, hex => by
    have hult := hlt u (List.mem_cons_self u rest)
    obtain ⟨node, hnode, hprev⟩ := hdag u hult
    obtain ⟨v, hv, hvq⟩ := Heap.of_toExact_get (hrep.get hnode)
    have hvb : v.backward.toExact val = node.backward := by
      have := congrArg Grad.Value.backward hvq
      simpa [Value.toExact] using this
    obtain ⟨h2q, e2q, hrep2⟩ := Grad.Backward.call_rep hdag hrep hnode (harith u node hnode)
    simp only [replayExact, hv] at hex
    obtain ⟨hexu, hexrest⟩ := hex
    have hlive : ∀ c ∈ node.prev, ∃ vc, h.get c = some vc := by
      intro c hc
      obtain ⟨nc, hnc, _⟩ := hdag c (Nat.lt_trans (hprev c hc) hult)
      obtain ⟨vc, hvc, _⟩ := Heap.of_toExact_get (hrep.get hnc)
      exact ⟨vc, hvc⟩
    have hstep : ∃ h1, v.backward.call A h = some h1 ∧
        node.backward.call (h.toExact val) = some (h1.toExact val) := by
      rcases harith u node hnode with ⟨_, hb⟩ | ⟨l, r, hp, hcase⟩
      · rw [hb] at hvb ⊢
        have hbe : v.backward = Backward.empty := by
          cases hvv : v.backward <;> simp [hvv, Backward.toExact] at hvb
          rfl
        exact ⟨h, by rw [hbe]; rfl, rfl⟩
      · obtain ⟨vl, hl⟩ := hlive l (by simp [hp])
        obtain ⟨vr, hr⟩ := hlive r (by simp [hp])
        rcases hcase with ⟨_, hb⟩ | ⟨_, hb⟩ | ⟨_, hb⟩
        · rw [hb] at hvb ⊢
          have hbe : v.backward = Backward.add l r u := by
            cases hvv : v.backward <;> simp [hvv, Backward.toExact] at hvb
            obtain ⟨rfl, rfl, rfl⟩ := hvb
            rfl
          rw [hbe] at hexu ⊢
          exact Backward.call_sim_add A val hl hr hv hexu
        · rw [hb] at hvb ⊢
          have hbe : v.backward = Backward.subtract l r u := by
            cases hvv : v.backward <;> simp [hvv, Backward.toExact] at hvb
            obtain ⟨rfl, rfl, rfl⟩ := hvb
            rfl
          rw [hbe] at hexu ⊢
          exact Backward.call_sim_subtract A val hl hr hv hexu
        · rw [hb] at hvb ⊢
          have hbe : v.backward = Backward.multiply l r u := by
            cases hvv : v.backward <;> simp [hvv, Backward.toExact] at hvb
            obtain ⟨rfl, rfl, rfl⟩ := hvb
            rfl
          rw [hbe] at hexu ⊢
          exact Backward.call_sim_multiply A val hl hr hv hexu
    obtain ⟨h1, e1, e1q⟩ := hstep
    rw [e1q] at e2q
    cases e2q
    simp only [e1] at hexrest
    obtain ⟨h3, e3, e3q⟩ := replay_sim A val hdag harith rest h1 _ hrep2
      (fun w hw => hlt w (List.mem_cons_of_mem u hw)) hexrest
    refine ⟨h3, ?_, ?_⟩
    · simp only [replay, hv, e1, Option.some_bind, e3]
    · simp only [Grad.replay, hrep.get hnode, e1q, Option.some_bind, e3q]

/-- A call of `create`, `add`, `subtract` or `multiply` allocates one leaf, sum,
difference or product whose operands are nodes of the heap. -/
theorem Cmd.run_arith_toExact (A : FloatOps F) (val : F → ℚ) {h h1 : Heap F} {c : Cmd F}
    (hc : c.isArith = true) (hrun : c.run A h = some h1) :
    ∃ v, h1 = h.push v ∧ (v.toExact val).ArithAt h.cells.length ∧
      Fresh (h.toExact val) (v.toExact val) := by
  cases c with
  | create data op uninit =>
    simp only [Cmd.run, Value.fcreate_eq, Option.some.injEq] at hrun
    exact ⟨_, hrun.symm, Or.inl ⟨rfl, rfl⟩, rfl, by simp [Value.toExact]⟩
  | add lhs rhs uninit =>
    cases hl : h.get lhs with
    | none => simp [Cmd.run, Value.add, hl] at hrun
    | some l =>
      cases hr : h.get rhs with
      | none => simp [Cmd.run, Value.add, hl, hr] at hrun
      | some r =>
        simp only [Cmd.run, Value.fadd_eq A uninit hl hr, Option.map_some', Option.some.injEq]
          at hrun
        refine ⟨_, hrun.symm, Or.inr ⟨lhs, rhs, rfl, Or.inl ⟨rfl, rfl⟩⟩, rfl, ?_⟩
        simp [Value.toExact, Heap.fget_lt hl, Heap.fget_lt hr]
  | subtract lhs rhs uninit =>
    cases hl : h.get lhs with
    | none => simp [Cmd.run, Value.subtract, hl] at hrun
    | some l =>
      cases hr : h.get rhs with
      | none => simp [Cmd.run, Value.subtract, hl, hr] at hrun
      | some r =>
        simp only [Cmd.run, Value.fsubtract_eq A uninit hl hr, Option.map_some',
          Option.some.injEq] at hrun
        refine ⟨_, hrun.symm, Or.inr ⟨lhs, rhs, rfl, Or.inr (Or.inl ⟨rfl, rfl⟩)⟩, rfl, ?_⟩
        simp [Value.toExact, Heap.fget_lt hl, Heap.fget_lt hr]
  | multiply lhs rhs uninit =>
    cases hl : h.get lhs with
    | none => simp [Cmd.run, Value.multiply, hl] at hrun
    | some l =>
      cases hr : h.get rhs with
      | none => simp [Cmd.run, Value.multiply, hl, hr] at hrun
      | some r =>
        simp only [Cmd.run, Value.fmultiply_eq A uninit hl hr, Option.map_some',
          Option.some.injEq] at hrun
        refine ⟨_, hrun.symm, Or.inr ⟨lhs, rhs, rfl, Or.inr (Or.inr ⟨rfl, rfl⟩)⟩, rfl, ?_⟩
        simp [Value.toExact, Heap.fget_lt hl, Heap.fget_lt hr]
  | divide _ _ _ _ => simp [Cmd.isArith] at hc
  | relu _ _ => simp [Cmd.isArith] at hc
  | pow _ _ _ => simp [Cmd.isArith] at hc

/-- A heap built by calls of `create`, `add`, `subtract` and `multiply`, read as
rationals, is a graph of leaves, sums, differences and products on which
operands pre-exist their consumers. -/
theorem runAll_toExact (A : FloatOps F) (val : F → ℚ) :
    ∀ (cmds : List (Cmd F)) {h h1 : Heap F}, (h.toExact val).Dag → (h.toExact val).Arith →
      (∀ c ∈ cmds, c.isArith = true) → runAll A h cmds = some h1 →
      (h1.toExact val).Dag ∧ (h1.toExact val).Arith
  | [], h, h1, hdag, harith, _, hrun => by
    simp only [runAll, Option.some.injEq] at hrun
    rw [← hrun]
    exact ⟨hdag, harith⟩
  | c :: cs, h, h1, hdag, harith, hcs, hrun => by
    simp only [runAll] at hrun
    cases hc : c.run A h with
    | none => simp [hc] at hrun
    | some h2 =>
      rw [hc] at hrun
      obtain ⟨v, rfl, hv, hfresh⟩ :=
        Cmd.run_arith_toExact A val (hcs c (List.mem_cons_self c cs)) hc
      refine runAll_toExact A val cs ?_ ?_
        (fun c' hc' => hcs c' (List.mem_cons_of_mem c hc')) hrun
      · rw [Heap.toExact_push]
        exact dag_push hdag hfresh
      · rw [Heap.toExact_push]
        exact arith_push harith (by simpa using hv)

/-- The backward pass on a graph of leaves, sums, differences and products with
all gradients `0`, run with exact float operations: it returns, and every node
reachable from the root ends with a gradient that stands for its path sum. -/
theorem backProp_sim (A : FloatOps F) (val : F → ℚ) {h : Heap F} {root : ValuePtr}
    (hdag : (h.toExact val).Dag) (harith : (h.toExact val).Arith)
    (hzero : ∀ p v, h.get p = some v → v.grad = A.ofInt 0)
    (hv0 : val (A.ofInt 0) = 0) (hv1 : val (A.ofInt 1) = 1)
    (hex : Value.backPropExact A val h root) (hroot : root < h.cells.length) :
    ∃ (hm : Heap F) (st : TopoState) (h1 : Heap F),
      h.modify root (fun v => { v with grad := A.ofInt 1 }) = some hm ∧
      buildTopo h.cells.length hm root { visited := [], topo := [] } = some st ∧
      replay A st.topo.reverse hm = some h1 ∧
      Value.backProp A h root = some h1 ∧
      RevTopo (h.toExact val) st.topo.reverse ∧
      (∀ v, v ∈ st.topo ↔ Reach (h.toExact val) root v) ∧
      ∀ v, Reach (h.toExact val) root v →
        (h1.gradAt v).map val = some (pathSum (h.toExact val) root v) := by
  have hrootq : root < (h.toExact val).cells.length := by simpa using hroot
  obtain ⟨hmq, st, h1q, emq, estq, erq, ebq, hrev, hmem, hrepf⟩ :=
    backProp_spec hdag harith (rep_refl (h.toExact val)) hrootq
  have hzq : ∀ p v, (h.toExact val).get p = some v → v.grad = 0 := by
    intro p v hp
    obtain ⟨w, hw, rfl⟩ := Heap.of_toExact_get hp
    simp [Value.toExact, hzero p w hw, hv0]
  obtain ⟨_, h1q', ebq', _, hgrad⟩ := backProp_spec_zero hdag harith hzq hrootq
  rw [ebq] at ebq'
  cases ebq'
  obtain ⟨vrootq, hvrootq, _⟩ := hdag root hrootq
  obtain ⟨vroot, hvroot, _⟩ := Heap.of_toExact_get hvrootq
  have em : h.modify root (fun v => { v with grad := A.ofInt 1 }) =
      some (h.write root { vroot with grad := A.ofInt 1 }) := Heap.fmodify_eq hvroot _
  have hmeq : (h.write root { vroot with grad := A.ofInt 1 }).toExact val = hmq := by
    have hq : (h.toExact val).get root = some (vroot.toExact val) := by
      rw [Heap.toExact_get, hvroot]
      rfl
    rw [Grad.Heap.modify_eq hq] at emq
    rw [Heap.toExact_write, ← Option.some.inj emq]
    simp [Value.toExact, hv1]
  have hrepm : Rep (h.toExact val) (Function.update (h.toExact val).gradAt root 1)
      ((h.write root { vroot with grad := A.ofInt 1 }).toExact val) := by
    rw [hmeq]
    obtain ⟨hm', e', hrep'⟩ := (rep_refl (h.toExact val)).modify hvrootq 1
      (fun v => { v with grad := 1 }) (fun _ => rfl)
    rw [emq] at e'
    cases e'
    exact hrep'
  have est : buildTopo h.cells.length (h.write root { vroot with grad := A.ofInt 1 }) root
      { visited := [], topo := [] } = some st := by
    rw [buildTopo_toExact val, hmeq]
    simpa using estq
  have hexr : replayExact A val st.topo.reverse
      (h.write root { vroot with grad := A.ofInt 1 }) := by
    simp only [Value.backPropExact, em, est] at hex
    exact hex
  obtain ⟨h1, e1, e1q⟩ := replay_sim A val hdag harith st.topo.reverse _ _ hrepm
    (fun u hu => by
      obtain ⟨node, hnode⟩ := RevTopo.live hrev u hu
      exact Grad.Heap.get_lt hnode) hexr
  rw [hmeq, erq] at e1q
  have h1eq : h1.toExact val = h1q := (Option.some.inj e1q).symm
  refine ⟨_, st, h1, em, est, e1, ?_, hrev, hmem, ?_⟩
  · simp only [Value.backProp, Value.backPropFuel, em, Option.bind_eq_bind, Option.some_bind,
      est, e1]
  · intro v hv
    rw [← hgrad v hv, ← h1eq]
    simp only [Heap.gradAt, Grad.Heap.gradAt, Heap.toExact_get]
    obtain ⟨node, hnode⟩ := RevTopo.live hrev v (List.mem_reverse.mpr ((hmem v).mpr hv))
    obtain ⟨w, hw, _⟩ := Heap.of_toExact_get (h1eq ▸ hrepf.get hnode)
    simp [hw, Value.toExact]

/-- Read through the constant `0`, every float operation is exact. -/
theorem Backward.exact_zero (A : FloatOps F) (h : Heap F) (b : Backward F) :
    b.Exact A (fun _ => (0 : ℚ)) h := by
  have ha : ∀ (g : Heap F) (p : ValuePtr) (x : F),
      g.ExactAddGrad A (fun _ => (0 : ℚ)) p x := by
    intro g p x
    unfold Heap.ExactAddGrad
    cases g.get p <;> simp
  have hs : ∀ (g : Heap F) (p : ValuePtr) (x : F),
      g.ExactSubGrad A (fun _ => (0 : ℚ)) p x := by
    intro g p x
    unfold Heap.ExactSubGrad
    cases g.get p <;> simp
  cases b with
  | empty => trivial
  | add l r o =>
    simp only [Backward.Exact]
    split
    · trivial
    · refine ⟨ha _ _ _, ?_⟩
      split
      · trivial
      · split
        · trivial
        · exact ha _ _ _
  | multiply l r o =>
    simp only [Backward.Exact]
    split
    · refine ⟨by simp, ha _ _ _, ?_⟩
      split
      · trivial
      · split
        · exact ⟨by simp, ha _ _ _⟩
        · trivial
    · trivial
  | relu i o =>
    simp only [Backward.Exact]
    split
    · trivial
    · exact ⟨by simp, ha _ _ _⟩
  | subtract l r o =>
    simp only [Backward.Exact]
    split
    · trivial
    · refine ⟨ha _ _ _, ?_⟩
      split
      · trivial
      · split
        · trivial
        · exact hs _ _ _
  | pow b o e =>
    simp only [Backward.Exact]
    split
    · exact ⟨by simp, by simp, ha _ _ _⟩
    · trivial

theorem replayExact_zero (A : FloatOps F) :
    ∀ (its : List ValuePtr) (h : Heap F), replayExact A (fun _ => (0 : ℚ)) its h
  | [], _ => trivial
  | it :: rest, h => by
    simp only [replayExact]
    split
    · trivial
    · refine ⟨Backward.exact_zero A h _, ?_⟩
      split
      · trivial
      · exact replayExact_zero A rest _

/-- The backward pass on a graph of leaves, sums, differences and products
returns, whatever the floats are: the root's gradient is set, the topological
sort returns the reachable nodes in an order that puts operands before their
consumers, and the loop over the reversed order returns. -/
theorem backProp_returns (A : FloatOps F) (val : F → ℚ) {h : Heap F} {root : ValuePtr}
    (hdag : (h.toExact val).Dag) (hroot : root < h.cells.length)
    (hdag0 : (h.toExact fun _ => (0 : ℚ)).Dag) (harith0 : (h.toExact fun _ => (0 : ℚ)).Arith) :
    ∃ (hm : Heap F) (st : TopoState) (h1 : Heap F),
      h.modify root (fun v => { v with grad := A.ofInt 1 }) = some hm ∧
      buildTopo h.cells.length hm root { visited := [], topo := [] } = some st ∧
      replay A st.topo.reverse hm = some h1 ∧
      Value.backProp A h root = some h1 ∧
      RevTopo (h.toExact val) st.topo.reverse ∧
      ∀ v, v ∈ st.topo ↔ Reach (h.toExact val) root v := by
  have hrootq : root < (h.toExact val).cells.length := by simpa using hroot
  obtain ⟨st, hst, hrev, _, hmem⟩ := buildTopo_root hdag hrootq hrootq
  obtain ⟨vrootq, hvrootq, _⟩ := hdag root hrootq
  obtain ⟨vroot, hvroot, _⟩ := Heap.of_toExact_get hvrootq
  have em : h.modify root (fun v => { v with grad := A.ofInt 1 }) =
      some (h.write root { vroot with grad := A.ofInt 1 }) := Heap.fmodify_eq hvroot _
  have hrepm : ∀ val' : F → ℚ, Rep (h.toExact val')
      (Function.update (h.toExact val').gradAt root (val' (A.ofInt 1)))
      ((h.write root { vroot with grad := A.ofInt 1 }).toExact val') := by
    intro val'
    have hq : (h.toExact val').get root = some (vroot.toExact val') := by
      rw [Heap.toExact_get, hvroot]
      rfl
    obtain ⟨hm', e', hrep'⟩ := (rep_refl (h.toExact val')).modify hq (val' (A.ofInt 1))
      (fun v => { v with grad := val' (A.ofInt 1) }) (fun _ => rfl)
    rw [Grad.Heap.modify_eq hq] at e'
    rw [Heap.toExact_write]
    rw [← Option.some.inj e'] at hrep'
    exact hrep'
  have est : buildTopo h.cells.length (h.write root { vroot with grad := A.ofInt 1 }) root
      { visited := [], topo := [] } = some st := by
    rw [buildTopo_toExact val, buildTopo_congr (hrepm val)]
    simpa using hst
  have hlt0 : ∀ u ∈ st.topo.reverse, u < (h.toExact fun _ => (0 : ℚ)).cells.length := by
    intro u hu
    obtain ⟨node, hnode⟩ := RevTopo.live hrev u hu
    have := Grad.Heap.get_lt hnode
    simpa using this
  obtain ⟨h1, e1, _⟩ := replay_sim A (fun _ => (0 : ℚ)) hdag0 harith0 st.topo.reverse _ _
    (hrepm fun _ => (0 : ℚ)) hlt0 (replayExact_zero A _ _)
  refine ⟨_, st, h1, em, est, e1, ?_, hrev, hmem⟩
  simp only [Value.backProp, Value.backPropFuel, em, Option.bind_eq_bind, Option.some_bind,
    est, e1]

end Fl
/-! ## Claims settled by running the engine on symbolic inputs -/

/-- C3 (power rule), what the code does: for a leaf `a` of value `x` with
gradient `0` and `out = pow(a, n)` as root, `out.backProp()` leaves `a.grad = 0`
and adds the factor `n * out.data ^ (n - 1)` to the gradient of `out` itself,
since the closure's `base_weak` points to `out`.  For `x = 3`, `n = 2` this is
`a.grad = 0` (the power rule gives `6`) and `out.grad = 19`. -/
theorem pow_backProp_misses_base (h : Heap) (x : ℚ) (n : ℤ) (uninit : ℚ) :
    (do let (h1, a) := Value.create h x "" 0
        let (h2, out) ← Value.pow h1 a n uninit
        let h3 ← Value.backProp h2 out
        pure (h3.gradAt a, h3.gradAt out)) =
      some (0, 1 + (n : ℚ) * (x ^ n) ^ (n - 1) * 1) := by
  simp [Value.pow, Value.create_eq, Value.backProp, Value.backPropFuel, Heap.modify,
    Heap.get_push, Heap.get_write, Heap.write_push_last, buildTopo, forEach,
    replay, Backward.call, Heap.addGrad, Heap.gradAt, Nat.add_assoc]

/-- C4 (gradient through divide), what the code does: for leaves `a`, `b` of
values `x`, `y` with gradient `0` and `out = divide(a, b)` as root,
`out.backProp()` leaves `a.grad = y⁻¹` and `b.grad = 0`: the backward rule of
the internal `pow(b, -1)` node never writes to `b`.  For `x = 1`, `y = 2` the
quotient rule gives `b.grad = -1/4`. -/
theorem divide_backProp_misses_divisor (h : Heap) (x y : ℚ) (uninit1 uninit2 : ℚ) :
    (do let (h1, a) := Value.create h x "" 0
        let (h2, b) := Value.create h1 y "" 0
        let (h3, out) ← Value.divide h2 a b uninit1 uninit2
        let h4 ← Value.backProp h3 out
        pure (h4.gradAt a, h4.gradAt b)) = some (y ^ (-1 : ℤ), 0) := by
  simp [Value.divide, Value.pow, Value.multiply, Value.create_eq, Value.backProp,
    Value.backPropFuel, Heap.modify, Heap.get_push, Heap.get_write, Heap.write_push_last,
    buildTopo, forEach, replay, Backward.call, Heap.addGrad, Heap.gradAt, Nat.add_assoc]

/-- C7 (zero initial gradient), what the code does: the node returned by
`create` holds in `grad` whatever its storage held before; no constructor
assigns the field. -/
theorem create_grad_uninitialised (h : Heap) (data : ℚ) (op : String) (uninit : ℚ) :
    ((Value.create h data op uninit).1.get (Value.create h data op uninit).2).map Value.grad =
      some uninit := by
  simp [Value.create_eq, Heap.get_push]

/-- C9 (product rule).  For distinct leaves `a` and `b` with gradient `0` and
`out = multiply(a, b)` as root, `out.backProp()` returns and leaves
`a.grad = b.data`, `b.grad = a.data` and `out.grad = 1`. -/
theorem multiply_backProp_product_rule (h : Heap) (a b : ValuePtr) (va vb : Value) (uninit : ℚ)
    (ha : h.get a = some va) (hb : h.get b = some vb) (hab : a ≠ b)
    (hla : va.prev = [] ∧ va.backward = Backward.empty)
    (hlb : vb.prev = [] ∧ vb.backward = Backward.empty)
    (hga : va.grad = 0) (hgb : vb.grad = 0) :
    (do let (h1, out) ← Value.multiply h a b uninit
        let h2 ← Value.backProp h1 out
        pure (h2.gradAt a, h2.gradAt b, h2.gradAt out)) = some (vb.data, va.data, 1) := by
  have hal := Heap.get_lt ha
  have hbl := Heap.get_lt hb
  have han : a ≠ h.cells.length := Nat.ne_of_lt hal
  have hbn : b ≠ h.cells.length := Nat.ne_of_lt hbl
  have han2 := Ne.symm han
  have hbn2 := Ne.symm hbn
  have hal1 : a < h.cells.length + 1 := Nat.lt_succ_of_lt hal
  have hbl1 : b < h.cells.length + 1 := Nat.lt_succ_of_lt hbl
  have hba : b ≠ a := Ne.symm hab
  have hpos : 0 < h.cells.length := Nat.zero_lt_of_lt hal
  simp [Value.multiply, Value.create_eq, Value.backProp, Value.backPropFuel, Heap.modify,
    Heap.get_push, Heap.get_write, Heap.write_push_last, buildTopo, buildTopo_pos, forEach,
    replay, Backward.call, Heap.addGrad, Heap.gradAt, *]

/-- The product rule on the leaves `3` and `4`: the gradients are `4`, `3` and `1`. -/
theorem multiply_backProp_product_rule_witness :
    (do let (h1, out) ← Value.multiply
              { currentID := 2, cells := [some ⟨3, 0, "", 0, [], Backward.empty⟩,
                                          some ⟨4, 0, "", 1, [], Backward.empty⟩] } 0 1 7
        let h2 ← Value.backProp h1 out
        pure (h2.gradAt 0, h2.gradAt 1, h2.gradAt out)) = some (4, 3, 1) :=
  multiply_backProp_product_rule _ 0 1 ⟨3, 0, "", 0, [], Backward.empty⟩
    ⟨4, 0, "", 1, [], Backward.empty⟩ 7 rfl rfl (by decide) ⟨rfl, rfl⟩ ⟨rfl, rfl⟩ rfl rfl

/-- C10 (additivity).  For distinct leaves `a` and `b` with gradient `0` and
`out = add(a, b)` as root, `out.backProp()` returns and leaves
`a.grad = b.grad = out.grad = 1`. -/
theorem add_backProp_additivity (h : Heap) (a b : ValuePtr) (va vb : Value) (uninit : ℚ)
    (ha : h.get a = some va) (hb : h.get b = some vb) (hab : a ≠ b)
    (hla : va.prev = [] ∧ va.backward = Backward.empty)
    (hlb : vb.prev = [] ∧ vb.backward = Backward.empty)
    (hga : va.grad = 0) (hgb : vb.grad = 0) :
    (do let (h1, out) ← Value.add h a b uninit
        let h2 ← Value.backProp h1 out
        pure (h2.gradAt a, h2.gradAt b, h2.gradAt out)) = some (1, 1, 1) := by
  have hal := Heap.get_lt ha
  have hbl := Heap.get_lt hb
  have han : a ≠ h.cells.length := Nat.ne_of_lt hal
  have hbn : b ≠ h.cells.length := Nat.ne_of_lt hbl
  have han2 := Ne.symm han
  have hbn2 := Ne.symm hbn
  have hal1 : a < h.cells.length + 1 := Nat.lt_succ_of_lt hal
  have hbl1 : b < h.cells.length + 1 := Nat.lt_succ_of_lt hbl
  have hba : b ≠ a := Ne.symm hab
  have hpos : 0 < h.cells.length := Nat.zero_lt_of_lt hal
  simp [Value.add, Value.create_eq, Value.backProp, Value.backPropFuel, Heap.modify,
    Heap.get_push, Heap.get_write, Heap.write_push_last, buildTopo, buildTopo_pos, forEach,
    replay, Backward.call, Heap.addGrad, Heap.gradAt, *]

/-- Additivity on the leaves `3` and `4`: all three gradients are `1`. -/
theorem add_backProp_additivity_witness :
    (do let (h1, out) ← Value.add
              { currentID := 2, cells := [some ⟨3, 0, "", 0, [], Backward.empty⟩,
                                          some ⟨4, 0, "", 1, [], Backward.empty⟩] } 0 1 7
        let h2 ← Value.backProp h1 out
        pure (h2.gradAt 0, h2.gradAt 1, h2.gradAt out)) = some (1, 1, 1) :=
  add_backProp_additivity _ 0 1 ⟨3, 0, "", 0, [], Backward.empty⟩
    ⟨4, 0, "", 1, [], Backward.empty⟩ 7 rfl rfl (by decide) ⟨rfl, rfl⟩ ⟨rfl, rfl⟩ rfl rfl

/-! ## Claims about the identifier counter -/

/-- Where the identifiers do stay unique: in every state reached from the
initial one by a script of constructor calls and destructions in which every
destruction removes the most recently created live node, with fewer than `2^64`
nodes ever allocated, two distinct live nodes have different `id`s. -/
theorem id_unique_of_lifo (cmds : List Cmd) (h : Heap)
    (hrun : runAll Heap.init cmds = some h) (hlifo : Lifo Heap.init cmds)
    (hlen : h.cells.length < 2 ^ 64) (p q : ValuePtr) (vp vq : Value)
    (hp : h.get p = some vp) (hq : h.get q = some vq) (hpq : p ≠ q) : vp.id ≠ vq.id := by
  have hinv := idInv_runAll cmds idInv_init hrun hlifo hlen
  rw [hinv.2 p vp hp, hinv.2 q vq hq]
  rcases Nat.lt_or_gt_of_ne hpq with hlt | hgt
  · exact Nat.ne_of_lt (Heap.liveBelow_lt hp hlt)
  · exact Nat.ne_of_gt (Heap.liveBelow_lt hq hgt)

/-- After creating two leaves, destroying the second and creating a third, the
two live nodes have the ids `0` and `1`. -/
theorem id_unique_of_lifo_witness :
    (⟨1, 0, "", 0, [], Backward.empty⟩ : Value).id ≠
      (⟨3, 0, "", 1, [], Backward.empty⟩ : Value).id :=
  id_unique_of_lifo [Cmd.create 1 "" 0, Cmd.create 2 "" 0, Cmd.destroy 1, Cmd.create 3 "" 0]
    ⟨2, [some ⟨1, 0, "", 0, [], Backward.empty⟩, none, some ⟨3, 0, "", 1, [], Backward.empty⟩]⟩
    rfl (by
      simp [Lifo, Cmd.run, Value.create, Value.destroy, Heap.init, Heap.get, Heap.newest]
      intro q hq a ha
      have hlen : [some (⟨1, 0, "", 0, [], Backward.empty⟩ : Value),
          some ⟨2, 0, "", 1, [], Backward.empty⟩].length ≤ q := hq
      rw [List.getElem?_eq_none hlen] at ha
      cases ha) (by simp) 0 2 _ _ rfl rfl (by decide)

/-- C8 (unique identity), what the code does: after `a = create(1)`,
`b = create(2)`, the destruction of `a` and `c = create(3)`, the live nodes `b`
(address 1) and `c` (address 2) both have `id = 1`, because `~Value()`
decrements `currentID` and `create` hands out the counter as the next `id`. -/
theorem id_clash_after_destroy :
    (runAll Heap.init
        [Cmd.create 1 "" 0, Cmd.create 2 "" 0, Cmd.destroy 0, Cmd.create 3 "" 0]).map
      (fun h => ((h.get 1).map Value.id, (h.get 2).map Value.id)) = some (some 1, some 1) := by
  rfl

/-! ## Claims about the topological sort -/

/-- C6 (topological validity).  On every heap built from the initial one by a
script of constructor calls and for every root, `buildTopo(root, {}, [])` returns
(the recursion bound being at least the number of nodes) a sequence that contains
every node reachable from `root` via `prev` exactly once, and only such nodes,
places every node strictly after each of its operands, and ends with `root`. -/
theorem buildTopo_topological (cmds : List Cmd) (h : Heap) (root fuel : Nat)
    (hrun : runAll Heap.init cmds = some h) (hcs : ∀ c ∈ cmds, c.isConstructor = true)
    (hroot : root < h.cells.length) (hfuel : h.cells.length ≤ fuel) :
    ∃ st, buildTopo fuel h root { visited := [], topo := [] } = some st ∧
      (∀ v, Reach h root v → st.topo.count v = 1) ∧
      (∀ v ∈ st.topo, Reach h root v) ∧
      (∀ u ∈ st.topo, ∀ c ∈ h.prevOf u, st.topo.indexOf c < st.topo.indexOf u) ∧
      st.topo.getLast? = some root := by
  have hdag : h.Dag := dag_runAll cmds dag_init hcs hrun
  obtain ⟨st, hst, hrev, ⟨mid, hmid⟩, hmem⟩ :=
    buildTopo_root hdag hroot (Nat.lt_of_lt_of_le hroot hfuel)
  have hnodup : st.topo.Nodup := List.nodup_reverse.mp (RevTopo.nodup hrev)
  refine ⟨st, hst, ?_, ?_, ?_, ?_⟩
  · intro v hv
    exact List.count_eq_one_of_mem hnodup ((hmem v).mpr hv)
  · intro v hv
    exact (hmem v).mp hv
  · intro u hu c hc
    have := RevTopo.indexOf_lt hrev u (List.mem_reverse.mpr hu) c hc
    rwa [List.reverse_reverse] at this
  · rw [hmid, List.getLast?_concat]

/-- The sort on the graph of `main`, from `loss`. -/
theorem buildTopo_topological_witness :
    ∃ st, buildTopo 5 mainHeap 4 { visited := [], topo := [] } = some st ∧
      (∀ v, Reach mainHeap 4 v → st.topo.count v = 1) ∧
      (∀ v ∈ st.topo, Reach mainHeap 4 v) ∧
      (∀ u ∈ st.topo, ∀ c ∈ mainHeap.prevOf u, st.topo.indexOf c < st.topo.indexOf u) ∧
      st.topo.getLast? = some 4 :=
  buildTopo_topological
    [Cmd.create 1 "" 0, Cmd.create 2 "" 0, Cmd.add 0 1 0, Cmd.multiply 2 2 0, Cmd.add 3 3 0]
    mainHeap 4 5 rfl (by decide) (by decide) (by decide)

/-! ## The shape of the nodes built by the constructors -/

theorem made_init : Heap.init.Made := by
  intro p v hp
  simp [Heap.get, Heap.init] at hp

theorem made_push {h : Heap} {v : Value} (hmade : h.Made) (hv : v.MadeAt h.cells.length) :
    (h.push v).Made := by
  intro p w hp
  rw [Heap.get_push] at hp
  by_cases hpn : p = h.cells.length
  · subst hpn
    simp only [if_true, Option.some.injEq] at hp
    subst hp
    exact hv
  · simp only [hpn, if_false] at hp
    exact hmade p w hp

/-- Every constructor call allocates one node, `divide` two, each a leaf, a
sum, difference or product, a `relu` node or a `pow` node. -/
theorem Cmd.run_madeAt {h h1 : Heap} {c : Cmd} (hc : c.isConstructor = true)
    (hrun : c.run h = some h1) :
    (∃ v, v.MadeAt h.cells.length ∧ h1 = h.push v) ∨
      ∃ v w, v.MadeAt h.cells.length ∧ w.MadeAt (h.cells.length + 1) ∧
        h1 = (h.push v).push w := by
  by_cases ha : c.isArith = true
  · obtain ⟨v, hv, e⟩ := Cmd.run_arith ha hrun
    exact Or.inl ⟨v, Or.inl hv, e⟩
  · cases c with
    | create data op uninit => simp [Cmd.isArith] at ha
    | add lhs rhs uninit => simp [Cmd.isArith] at ha
    | multiply lhs rhs uninit => simp [Cmd.isArith] at ha
    | subtract lhs rhs uninit => simp [Cmd.isArith] at ha
    | relu input uninit =>
      left
      cases hi : h.get input with
      | none => simp [Cmd.run, Value.relu, hi] at hrun
      | some i =>
        simp only [Cmd.run, Value.relu_eq uninit hi, Option.map_some', Option.some.injEq] at hrun
        exact ⟨_, Or.inr (Or.inl ⟨input, rfl, rfl⟩), hrun.symm⟩
    | pow base exponent uninit =>
      left
      cases hb : h.get base with
      | none => simp [Cmd.run, Value.pow, hb] at hrun
      | some b =>
        simp only [Cmd.run, Value.pow_eq exponent uninit hb, Option.map_some',
          Option.some.injEq] at hrun
        exact ⟨_, Or.inr (Or.inr ⟨base, exponent, rfl, rfl⟩), hrun.symm⟩
    | divide lhs rhs uninit1 uninit2 =>
      right
      cases hr : h.get rhs with
      | none => simp [Cmd.run, Value.divide, Value.pow, hr] at hrun
      | some r =>
        simp only [Cmd.run, Value.divide, Value.pow_eq (-1) uninit1 hr, Option.bind_eq_bind,
          Option.some_bind] at hrun
        generalize hv :
          ({ data := r.data ^ (-1 : ℤ), grad := uninit1, op := "^", id := h.currentID,
             prev := [rhs],
             backward := Backward.pow h.cells.length h.cells.length (-1) } : Value) = v at hrun
        have hmv : v.MadeAt h.cells.length := by
          subst hv
          exact Or.inr (Or.inr ⟨rhs, -1, rfl, rfl⟩)
        have hr1 : (h.push v).get h.cells.length = some v := by simp [Heap.get_push]
        cases hl : (h.push v).get lhs with
        | none => simp [Value.multiply, hl] at hrun
        | some l =>
          simp only [Value.multiply_eq uninit2 hl hr1, Option.map_some', Option.some.injEq]
            at hrun
          refine ⟨v, _, hmv, ?_, hrun.symm⟩
          refine Or.inl (Or.inr ⟨lhs, h.cells.length, rfl, Or.inr (Or.inr ⟨rfl, ?_⟩)⟩)
          simp
    | destroy p => simp [Cmd.isConstructor] at hc

theorem made_runAll : ∀ (cmds : List Cmd) {h h1 : Heap}, h.Made →
    (∀ c ∈ cmds, c.isConstructor = true) → runAll h cmds = some h1 → h1.Made
  | [], h, h1, hb, _, hrun => by
    simp only [runAll, Option.some.injEq] at hrun
    rw [← hrun]
    exact hb
  | c :: cs, h, h1, hb, hcs, hrun => by
    simp only [runAll] at hrun
    cases hc : c.run h with
    | none => simp [hc] at hrun
    | some h2 =>
      rw [hc] at hrun
      have hb2 : h2.Made := by
        rcases Cmd.run_madeAt (hcs c (List.mem_cons_self c cs)) hc with
          ⟨v, hv, rfl⟩ | ⟨v, w, hv, hw, rfl⟩
        · exact made_push hb hv
        · exact made_push (made_push hb hv) (by simpa using hw)
      exact made_runAll cs hb2 (fun c' hc' => hcs c' (List.mem_cons_of_mem c hc')) hrun

theorem Reach.root_or_leaf {h : Heap} {root : ValuePtr}
    (hleaves : ∀ c ∈ h.prevOf root, h.prevOf c = []) {w : ValuePtr} (hw : Reach h root w) :
    w = root ∨ h.prevOf w = [] := by
  induction hw with
  | root => exact Or.inl rfl
  | step _ hc ih =>
    rcases ih with rfl | hleaf
    · exact Or.inr (hleaves _ hc)
    · rw [hleaf] at hc
      exact absurd hc (List.not_mem_nil _)

/-- A node without operands built by a constructor has no backward rule. -/
theorem Value.MadeAt.leaf {v : Value} {p : ValuePtr} (hv : v.MadeAt p) (hp : v.prev = []) :
    v.backward = Backward.empty := by
  rcases hv with (⟨_, hb⟩ | ⟨l, r, hlr, _⟩) | ⟨i, hi, _⟩ | ⟨b, e, hb, _⟩
  · exact hb
  · rw [hp] at hlr; cases hlr
  · rw [hp] at hi; cases hi
  · rw [hp] at hb; cases hb

/-- The backward rule of a node `u` built by a constructor, run on a heap whose
gradients are `g`, returns, changes gradients only, and adds `g u * shareTo h u q`
to the gradient of every other node `q`. -/
theorem Backward.call_share {h h1 : Heap} {g : ValuePtr → ℚ} (hdag : h.Dag) (hrep : Rep h g h1)
    {u : ValuePtr} {node : Value} (hu : h.get u = some node) (hmade : node.MadeAt u) :
    ∃ h2 g2, node.backward.call h1 = some h2 ∧ Rep h g2 h2 ∧
      ∀ q, q ≠ u → g2 q = g q + g u * shareTo h u q := by
  have hult := Heap.get_lt hu
  obtain ⟨node', hnode', hprev⟩ := hdag u hult
  rw [hu] at hnode'
  cases hnode'
  rcases hmade with harith | ⟨i, hi, hb⟩ | ⟨b, e, hpb, hb⟩
  · obtain ⟨h2, e2, hrep2⟩ := Backward.call_rep hdag hrep hu harith
    refine ⟨h2, _, e2, hrep2, ?_⟩
    intro q _
    have hz : (match node.backward with
        | Backward.relu input _ => if input = q then (if 0 < node.data then (1 : ℚ) else 0) else 0
        | _ => 0) = 0 := by
      rcases harith with ⟨_, hb⟩ | ⟨l, r, _, ⟨_, hb⟩ | ⟨_, hb⟩ | ⟨_, hb⟩⟩ <;> rw [hb]
    simp only [stepG, shareTo, hu, hz, add_zero]
  · have hil : i < u := hprev i (by simp [hi])
    obtain ⟨vi, hvi, _⟩ := hdag i (Nat.lt_trans hil hult)
    obtain ⟨h2, e2, hrep2⟩ := hrep.addGrad hvi ((if node.data > 0 then 1 else 0) * g u)
    refine ⟨h2, _, ?_, hrep2, ?_⟩
    · rw [hb]
      simp only [Backward.call, hrep.get hu, Option.bind_eq_bind, Option.some_bind, e2]
    · intro q _
      have hw : weightTo h u q = 0 := by
        simp [weightTo, localFactors, hu, hi]
      simp only [shareTo, hw, hu, hb, zero_add]
      by_cases hiq : i = q
      · subst hiq
        simp only [Function.update_same, if_true, gt_iff_lt]
        ring
      · rw [Function.update_noteq (Ne.symm hiq)]
        simp [hiq]
  · obtain ⟨h2, e2, hrep2⟩ := hrep.addGrad hu ((e : ℚ) * node.data ^ (e - 1) * g u)
    refine ⟨h2, _, ?_, hrep2, ?_⟩
    · rw [hb]
      simp only [Backward.call, hrep.get hu, Option.bind_eq_bind, Option.some_bind, e2]
    · intro q hq
      have hw : weightTo h u q = 0 := by
        simp [weightTo, localFactors, hu, hpb]
      rw [Function.update_noteq hq]
      simp [shareTo, hw, hu, hb]

/-- The loop of `backProp` over nodes without backward rule changes nothing. -/
theorem replay_leaves : ∀ (its : List ValuePtr) (h : Heap),
    (∀ u ∈ its, ∃ node, h.get u = some node ∧ node.backward = Backward.empty) →
    replay its h = some h
  | [], _, _ => rfl
  | it :: rest, h, hl => by
    obtain ⟨node, hnode, hb⟩ := hl it (List.mem_cons_self it rest)
    simp only [replay, hnode, hb, Backward.call, Option.some_bind]
    exact replay_leaves rest h (fun u hu => hl u (List.mem_cons_of_mem it hu))

/-- The backward pass from a root all of whose operands are leaves, on a heap
built by the constructors with any gradients `g` to start from: it returns,
changes gradients only, and adds `shareTo h root q` to the gradient of every
node `q` other than the root. -/
theorem backProp_direct {h h0 : Heap} {g : ValuePtr → ℚ} (hdag : h.Dag) (hmade : h.Made)
    (hrep : Rep h g h0) {root : ValuePtr} (hroot : root < h.cells.length)
    (hleaves : ∀ c ∈ h.prevOf root, h.prevOf c = []) :
    ∃ h1 g1, Value.backProp h0 root = some h1 ∧ Rep h g1 h1 ∧
      ∀ q, q ≠ root → g1 q = g q + shareTo h root q := by
  obtain ⟨st, hst, hrev, ⟨mid, hmid⟩, hmem⟩ := buildTopo_root hdag hroot hroot
  obtain ⟨vroot, hvroot, _⟩ := hdag root hroot
  obtain ⟨hm, e1, hrep1⟩ := hrep.modify hvroot 1 (fun v => { v with grad := 1 }) (fun _ => rfl)
  have hstm : buildTopo h0.cells.length hm root { visited := [], topo := [] } = some st := by
    rw [hrep.1, buildTopo_congr hrep1, hst]
  obtain ⟨h2, g2, e2, hrep2, hg2⟩ :=
    Backward.call_share hdag hrep1 hvroot (hmade root vroot hvroot)
  have hrevl : st.topo.reverse = root :: mid.reverse := by
    rw [hmid]
    simp
  have hnd : (root :: mid.reverse).Nodup := hrevl ▸ RevTopo.nodup hrev
  have hrest : replay mid.reverse h2 = some h2 := by
    apply replay_leaves
    intro u hu
    have hut : u ∈ st.topo := by
      rw [hmid]
      exact List.mem_append_left _ (List.mem_reverse.mp hu)
    have hne : u ≠ root := fun e => (List.nodup_cons.mp hnd).1 (e ▸ hu)
    obtain ⟨node, hnode⟩ := RevTopo.live hrev u (List.mem_reverse.mpr hut)
    have hleaf : h.prevOf u = [] := by
      rcases Reach.root_or_leaf hleaves ((hmem u).mp hut) with e | hl
      · exact absurd e hne
      · exact hl
    rw [Heap.prevOf_eq hnode] at hleaf
    exact ⟨_, hrep2.get hnode, (hmade u node hnode).leaf hleaf⟩
  refine ⟨h2, g2, ?_, hrep2, ?_⟩
  · simp only [Value.backProp, Value.backPropFuel, e1, Option.bind_eq_bind, Option.some_bind,
      hstm, hrevl, replay, hrep1.get hvroot, e2, hrest]
  · intro q hq
    rw [hg2 q hq, Function.update_noteq hq, Function.update_same, one_mul]

theorem pathSum_leaf {h : Heap} (hdag : h.Dag) {w : ValuePtr} (hw : h.prevOf w = [])
    (v : ValuePtr) : pathSum h w v = if w = v then 1 else 0 := by
  have hfs : localFactors h w = [] := by
    unfold Heap.prevOf at hw
    unfold localFactors
    cases hg : h.get w with
    | none => rfl
    | some node =>
      simp only [hg] at hw ⊢
      rw [hw]
  rw [pathSum_rec hdag, hfs]
  simp

/-- Two backward passes in a row (general form): the gradients after the first
pass are the path sums from the root, those after the second are given by
`backProp_spec` from the gradients after the first. -/
theorem backProp_twice_spec {h : Heap} (hdag : h.Dag) (harith : h.Arith)
    (hzero : ∀ p v, h.get p = some v → v.grad = 0) {root : ValuePtr}
    (hroot : root < h.cells.length) :
    ∃ (st : TopoState) (h1 h2 : Heap),
      Value.backProp h root = some h1 ∧ Value.backProp h1 root = some h2 ∧
      RevTopo h st.topo.reverse ∧ (∀ v, v ∈ st.topo ↔ Reach h root v) ∧
      Rep h (fun v => pathSum h root v) h1 ∧
      Rep h (fun v => (st.topo.reverse.map fun w =>
          Function.update (fun v => pathSum h root v) root 1 w * pathSum h w v).sum +
        if v ∈ st.topo then 0
        else Function.update (fun v => pathSum h root v) root 1 v) h2 := by
  obtain ⟨_, st, h1, _, hst, _, hbp, hrev, hmem, hrep⟩ :=
    backProp_spec hdag harith (rep_refl h) hroot
  have hg : ∀ w, Function.update h.gradAt root 1 w = if root = w then 1 else 0 := by
    intro w
    by_cases hw : w = root
    · subst hw
      simp
    · rw [Function.update_noteq hw, if_neg (Ne.symm hw)]
      unfold Heap.gradAt
      cases hgw : h.get w with
      | none => rfl
      | some vw => exact hzero w vw hgw
  have hrep1 : Rep h (fun v => pathSum h root v) h1 := by
    refine hrep.congr ?_
    intro v
    simp only [hg]
    rw [sum_map_single (RevTopo.nodup hrev)
      (List.mem_reverse.mpr ((hmem root).mpr Reach.root)) (fun w => pathSum h w v) 1, one_mul]
    by_cases hv : v ∈ st.topo
    · simp [hv]
    · have hne : ¬ root = v := fun e => hv (e ▸ (hmem root).mpr Reach.root)
      simp [hv, hne]
  obtain ⟨_, st2, h2, _, hst2, _, hbp2, hrev2, hmem2, hrep2⟩ :=
    backProp_spec hdag harith hrep1 hroot
  exact ⟨st2, h1, h2, hbp, hbp2, hrev2, hmem2, hrep1, hrep2⟩

/-- C5 (repeated backward), as the code has it: on every heap built from the
initial one by constructor calls (`create`, `add`, `subtract`, `multiply`,
`divide`, `pow`, `relu`), with every gradient `0` before the first call, and for
every root all of whose operands are leaves, two calls of `root.backProp()` in
a row return and leave every node other than `root` (every leaf but a root that
is one) with exactly twice the gradient it had after the first call. -/
theorem backProp_twice_doubles_direct_leaves (cmds : List Cmd) (h : Heap) (root : ValuePtr)
    (hrun : runAll Heap.init cmds = some h) (hcs : ∀ c ∈ cmds, c.isConstructor = true)
    (hzero : ∀ p v, h.get p = some v → v.grad = 0) (hroot : root < h.cells.length)
    (hleaves : ∀ c ∈ h.prevOf root, h.prevOf c = []) :
    ∃ h1 h2, Value.backProp h root = some h1 ∧ Value.backProp h1 root = some h2 ∧
      ∀ v, v ≠ root → h2.gradAt v = 2 * h1.gradAt v := by
  have hdag : h.Dag := dag_runAll cmds dag_init hcs hrun
  have hmade : h.Made := made_runAll cmds made_init hcs hrun
  obtain ⟨h1, g1, hbp1, hrep1, hg1⟩ := backProp_direct hdag hmade (rep_refl h) hroot hleaves
  obtain ⟨h2, g2, hbp2, hrep2, hg2⟩ := backProp_direct hdag hmade hrep1 hroot hleaves
  refine ⟨h1, h2, hbp1, hbp2, ?_⟩
  intro v hv
  cases hgv : h.get v with
  | none =>
    have e1 : h1.get v = none := by rw [hrep1.2 v, hgv]; rfl
    have e2 : h2.get v = none := by rw [hrep2.2 v, hgv]; rfl
    simp [Heap.gradAt, e1, e2]
  | some node =>
    rw [hrep1.gradAt hgv, hrep2.gradAt hgv, hg2 v hv, hg1 v hv]
    have hz : h.gradAt v = 0 := by
      simp only [Heap.gradAt, hgv]
      exact hzero v node hgv
    rw [hz]
    ring

/-- The heap after `a = create(3)`, `out = relu(a)`, all gradients `0`: two
passes from `out` leave `a.grad = 1` and then `a.grad = 2`. -/
theorem backProp_twice_doubles_direct_leaves_witness :
    ∃ h1 h2, Value.backProp ⟨2, [some ⟨3, 0, "", 0, [], Backward.empty⟩,
          some ⟨max 0 3, 0, "ReLU", 1, [0], Backward.relu 0 1⟩]⟩ 1 = some h1 ∧
      Value.backProp h1 1 = some h2 ∧ ∀ v, v ≠ 1 → h2.gradAt v = 2 * h1.gradAt v :=
  backProp_twice_doubles_direct_leaves [Cmd.create 3 "" 0, Cmd.relu 0 0]
    ⟨2, [some ⟨3, 0, "", 0, [], Backward.empty⟩,
         some ⟨max 0 3, 0, "ReLU", 1, [0], Backward.relu 0 1⟩]⟩ 1 rfl (by decide)
    (by
      intro p v hp
      rcases p with _ | _ | p <;> simp [Heap.get] at hp <;> subst hp <;> rfl)
    (by decide) (by
      intro c hc
      have hc' : c ∈ [0] := hc
      simp only [List.mem_singleton] at hc'
      subst hc'
      rfl)

set_option maxHeartbeats 1000000 in
/-- Two backward passes in a row on the graph of `main`, for all leaf values. -/
theorem backProp_twice_main (h : Heap) (x y : ℚ) :
    (do let (h1, a) := Value.create h x "" 0
        let (h2, b) := Value.create h1 y "" 0
        let (h3, c) ← Value.add h2 a b 0
        let (h4, d) ← Value.multiply h3 c c 0
        let (h5, loss) ← Value.add h4 d d 0
        let h6 ← Value.backProp h5 loss
        let h7 ← Value.backProp h6 loss
        pure (h6.gradAt a, h7.gradAt a)) = some (4 * (x + y), 16 * (x + y)) := by
  simp [Value.add, Value.multiply, Value.create_eq, Value.backProp, Value.backPropFuel,
    Heap.modify, Heap.get_push, Heap.get_write, Heap.write_push_last, buildTopo, forEach,
    replay, Backward.call, Heap.addGrad, Heap.gradAt, Nat.add_assoc]
  constructor <;> ring

/-- C5 fails as stated: on the graph of `main` (`a = 1`, `b = 2`, `c = a + b`,
`d = c * c`, `loss = d + d`, all gradients `0`), `a.grad` is `12` after one
`loss.backProp()` and `48`, not `24`, after a second one. -/
theorem backProp_twice_not_double :
    (do let (h1, a) := Value.create Heap.init 1 "" 0
        let (h2, b) := Value.create h1 2 "" 0
        let (h3, c) ← Value.add h2 a b 0
        let (h4, d) ← Value.multiply h3 c c 0
        let (h5, loss) ← Value.add h4 d d 0
        let h6 ← Value.backProp h5 loss
        let h7 ← Value.backProp h6 loss
        pure (h6.gradAt a, h7.gradAt a)) = some (12, 48) ∧ (48 : ℚ) ≠ 2 * 12 := by
  refine ⟨?_, by norm_num⟩
  rw [backProp_twice_main Heap.init 1 2]
  norm_num

/-! ## Further claims settled by running the engine on symbolic inputs -/

/-- C18 (no ownership cycle), what the code does: the lambda of `relu` captures
`out` by value, so the node `out = relu(a)` co-owns itself: its strong references
are `a` (in `prev`), `a` and `out` (in the closure).  The nodes built by `add`,
`multiply`, `subtract` and `pow` co-own their operands only. -/
theorem relu_owns_itself (h : Heap) (x : ℚ) (uninit : ℚ) :
    (do let (h1, a) := Value.create h x "" uninit
        let (h2, out) ← Value.relu h1 a uninit
        let (h3, s) ← Value.add h2 a a uninit
        let (h4, p) ← Value.pow h3 a 2 uninit
        pure (out, h4.strongRefs out, h4.strongRefs s, h4.strongRefs p)) =
      some (h.cells.length + 1,
        [h.cells.length, h.cells.length, h.cells.length + 1],
        [h.cells.length, h.cells.length], [h.cells.length]) := by
  simp [Value.relu, Value.add, Value.pow, Value.create_eq, Heap.modify, Heap.get_push,
    Heap.get_write, Heap.write_push_last, Heap.strongRefs, Backward.strong, Nat.add_assoc]

set_option maxHeartbeats 4000000 in
/-- C19 (aliased operands), what the code does.  With a leaf `x` of gradient `0`
in both operand slots of the root, `backProp` leaves `x.grad = 2` for `add(x, x)`,
`0` for `subtract(x, x)` and `2 * x.data` for `multiply(x, x)`.  With
`x = pow(b, n)` instead (gradient `0`), the root's rule accumulates the same two
contributions, and then the backward rule of `x` adds `n * x.data ^ (n - 1)`
times that gradient to the gradient of `x` itself: `add(x, x)` ends with
`x.grad = 2 + n * x.data ^ (n - 1) * 2` (`38` for `b = 3`, `n = 2`). -/
theorem aliased_operands_backProp (h : Heap) (y : ℚ) (n : ℤ) (uninit : ℚ) :
    (do let (h1, x) := Value.create h y "" 0
        let (h2, r1) ← Value.add h1 x x uninit
        let (h3, r2) ← Value.subtract h1 x x uninit
        let (h4, r3) ← Value.multiply h1 x x uninit
        let g1 ← Value.backProp h2 r1
        let g2 ← Value.backProp h3 r2
        let g3 ← Value.backProp h4 r3
        pure (g1.gradAt x, g2.gradAt x, g3.gradAt x)) = some (2, 0, 2 * y) ∧
    (do let (h0, b) := Value.create h y "" 0
        let (h1, x) ← Value.pow h0 b n 0
        let (h2, r1) ← Value.add h1 x x uninit
        let (h3, r2) ← Value.subtract h1 x x uninit
        let (h4, r3) ← Value.multiply h1 x x uninit
        let g1 ← Value.backProp h2 r1
        let g2 ← Value.backProp h3 r2
        let g3 ← Value.backProp h4 r3
        pure (g1.gradAt x, g2.gradAt x, g3.gradAt x)) =
      some (2 + (n : ℚ) * (y ^ n) ^ (n - 1) * 2, 0,
        2 * y ^ n + (n : ℚ) * (y ^ n) ^ (n - 1) * (2 * y ^ n)) := by
  constructor
  · simp [Value.add, Value.subtract, Value.multiply, Value.create_eq, Value.backProp,
      Value.backPropFuel, Heap.modify, Heap.get_push, Heap.get_write, Heap.write_push_last,
      buildTopo, forEach, replay, Backward.call, Heap.addGrad, Heap.gradAt, Nat.add_assoc]
    refine ⟨?_, ?_⟩ <;> ring
  · simp [Value.add, Value.subtract, Value.multiply, Value.pow, Value.create_eq, Value.backProp,
      Value.backPropFuel, Heap.modify, Heap.get_push, Heap.get_write, Heap.write_push_last,
      buildTopo, forEach, replay, Backward.call, Heap.addGrad, Heap.gradAt, Nat.add_assoc]
    refine ⟨?_, ?_⟩ <;> ring

/-! ## Further claims about the backward pass on arbitrary graphs -/

/-- C14 (only gradients mutate).  On any heap: a constructor call leaves every
existing node as it is, all fields included; and a `backProp` call that returns
leaves the heap with the same nodes at the same addresses, each with its `data`,
`op`, `id`, `prev` and `backward` unchanged: only `grad` fields differ. -/
theorem only_gradients_mutate (h : Heap) :
    (∀ (c : Cmd) (h1 : Heap), c.isConstructor = true → c.run h = some h1 →
      ∀ p v, h.get p = some v → h1.get p = some v) ∧
    (∀ (root : ValuePtr) (h1 : Heap), Value.backProp h root = some h1 →
      h1.cells.length = h.cells.length ∧
      ∀ p, h1.get p = (h.get p).map fun v => { v with grad := h1.gradAt p }) := by
  constructor
  · intro c h1 hc hrun p v hp
    have hlt := Heap.get_lt hp
    rcases Cmd.run_constructor hc hrun with ⟨w, _, rfl⟩ | ⟨w, w', _, _, rfl⟩
    · rw [Heap.get_push, if_neg (Nat.ne_of_lt hlt)]
      exact hp
    · rw [Heap.get_push, if_neg (by rw [Heap.length_push]; exact Nat.ne_of_lt (Nat.lt_succ_of_lt hlt)),
        Heap.get_push,
        if_neg (Nat.ne_of_lt hlt)]
      exact hp
  · intro root h1 e
    exact Rep.of_backPropFuel e

/-- C15 (termination).  On every heap built from the initial one by a script of
constructor calls, for every root and every recursion bound from the number of
nodes on: the topological sort returns, its result does not depend on the
bound, `backProp` returns, and the backward rules it invokes are those of the
nodes of the order, which holds no node twice and only nodes reachable from the
root, so at most one rule per reachable node and at most as many as there are
nodes. -/
theorem backProp_terminates (cmds : List Cmd) (h : Heap) (root fuel : Nat)
    (hrun : runAll Heap.init cmds = some h) (hcs : ∀ c ∈ cmds, c.isConstructor = true)
    (hroot : root < h.cells.length) (hfuel : h.cells.length ≤ fuel) :
    ∃ (hm : Heap) (st : TopoState) (h1 : Heap),
      h.modify root (fun v => { v with grad := 1 }) = some hm ∧
      buildTopo fuel hm root { visited := [], topo := [] } = some st ∧
      replay st.topo.reverse hm = some h1 ∧
      Value.backPropFuel fuel h root = some h1 ∧ Value.backProp h root = some h1 ∧
      st.topo.Nodup ∧ (∀ v ∈ st.topo, Reach h root v) ∧
      st.topo.length ≤ h.cells.length := by
  have hdag : h.Dag := dag_runAll cmds dag_init hcs hrun
  have hbuilt : h.Built := built_runAll cmds built_init hcs hrun
  obtain ⟨hm, st, h1, _, e1, e2, e3, e4, e5, hrev, hmem, _, _⟩ :=
    backProp_total hdag hbuilt (rep_refl h) hroot hfuel
  have hnodup : st.topo.Nodup := List.nodup_reverse.mp (RevTopo.nodup hrev)
  refine ⟨hm, st, h1, e1, e2, e3, e4, e5, hnodup, fun v hv => (hmem v).mp hv, ?_⟩
  apply nodup_length_le hnodup
  intro v hv
  obtain ⟨node, hnode⟩ := RevTopo.live hrev v (List.mem_reverse.mpr hv)
  exact Heap.get_lt hnode

/-- Termination of the backward pass on the graph of `main`, from `loss`. -/
theorem backProp_terminates_witness :
    ∃ (hm : Heap) (st : TopoState) (h1 : Heap),
      mainHeap.modify 4 (fun v => { v with grad := 1 }) = some hm ∧
      buildTopo 7 hm 4 { visited := [], topo := [] } = some st ∧
      replay st.topo.reverse hm = some h1 ∧
      Value.backPropFuel 7 mainHeap 4 = some h1 ∧ Value.backProp mainHeap 4 = some h1 ∧
      st.topo.Nodup ∧ (∀ v ∈ st.topo, Reach mainHeap 4 v) ∧
      st.topo.length ≤ mainHeap.cells.length :=
  backProp_terminates
    [Cmd.create 1 "" 0, Cmd.create 2 "" 0, Cmd.add 0 1 0, Cmd.multiply 2 2 0, Cmd.add 3 3 0]
    mainHeap 4 7 rfl (by decide) (by decide) (by decide)

/-- C20 (backward frame).  On every heap built from the initial one by a script
of constructor calls, for every root and every node `u` that is not reachable
from the root via `prev`, `root.backProp()` returns and leaves the gradient of
`u` as it was. -/
theorem backProp_frame (cmds : List Cmd) (h : Heap) (root u : ValuePtr)
    (hrun : runAll Heap.init cmds = some h) (hcs : ∀ c ∈ cmds, c.isConstructor = true)
    (hroot : root < h.cells.length) (hu : ¬ Reach h root u) :
    ∃ h1, Value.backProp h root = some h1 ∧ h1.gradAt u = h.gradAt u := by
  have hdag : h.Dag := dag_runAll cmds dag_init hcs hrun
  have hbuilt : h.Built := built_runAll cmds built_init hcs hrun
  obtain ⟨_, _, h1, g1, _, _, _, _, e5, _, _, hrep, hframe⟩ :=
    backProp_total hdag hbuilt (rep_refl h) hroot (Nat.le_refl _)
  refine ⟨h1, e5, ?_⟩
  cases hgu : h.get u with
  | none =>
    have : h1.get u = none := by rw [hrep.2 u, hgu]; rfl
    simp [Heap.gradAt, this, hgu]
  | some v =>
    rw [hrep.gradAt hgu, hframe u hu]

/-- The frame on the graph of `main`: `c.backProp()` leaves the gradient of its
consumer `d` as it was. -/
theorem backProp_frame_witness :
    ∃ h1, Value.backProp mainHeap 2 = some h1 ∧ h1.gradAt 3 = mainHeap.gradAt 3 :=
  backProp_frame
    [Cmd.create 1 "" 0, Cmd.create 2 "" 0, Cmd.add 0 1 0, Cmd.multiply 2 2 0, Cmd.add 3 3 0]
    mainHeap 2 3 rfl (by decide) (by decide)
    (fun hr => absurd (Reach.le (dag_runAll
      [Cmd.create 1 "" 0, Cmd.create 2 "" 0, Cmd.add 0 1 0, Cmd.multiply 2 2 0, Cmd.add 3 3 0]
      dag_init (by decide) rfl) hr) (by decide))

theorem productHeap_backProp_returns : ∃ h2, Value.backProp productHeap 2 = some h2 := by
  have hrun : runAll Heap.init [Cmd.create 3 "" 0, Cmd.create 4 "" 0, Cmd.multiply 0 1 0] =
      some productHeap := rfl
  obtain ⟨_, _, h2, _, _, _, _, _, e, _⟩ :=
    backProp_total (dag_runAll _ dag_init (by decide) hrun)
      (built_runAll _ built_init (by decide) hrun) (rep_refl productHeap)
      (show 2 < productHeap.cells.length by decide) (Nat.le_refl _)
  exact ⟨h2, e⟩

/-- On the heap of `out = multiply(3, 4)`: `add(a, b)` leaves `out` as it is, and
`out.backProp()` returns a heap in which `a` differs from before in `grad` only. -/
theorem only_gradients_mutate_witness :
    ∃ h1 h2, (Cmd.add 0 1 7).run productHeap = some h1 ∧ h1.get 2 = productHeap.get 2 ∧
      Value.backProp productHeap 2 = some h2 ∧
      h2.get 0 = (productHeap.get 0).map fun v => { v with grad := h2.gradAt 0 } := by
  obtain ⟨h2, e2⟩ := productHeap_backProp_returns
  have e1 : (Cmd.add 0 1 7).run productHeap =
      some ⟨(3 + 1) % 2 ^ 64, productHeap.cells ++
        [some ⟨3 + 4, 7, "+", 3, [0, 1], Backward.add 0 1 3⟩]⟩ := rfl
  exact ⟨_, h2, e1,
    (only_gradients_mutate productHeap).1 (Cmd.add 0 1 7) _ rfl e1 2 _ rfl, e2,
    ((only_gradients_mutate productHeap).2 2 h2 e2).2 0⟩

set_option maxHeartbeats 1000000 in
/-- Two leaves of value `5`, one of them squared by `pow`, under a sum: the
backward pass from the sum leaves the squared leaf with gradient `0`. -/
theorem pow_consumer_starves_operand (h : Heap) :
    (do let (h1, x1) := Value.create h 5 "" 0
        let (h2, y1) := Value.create h1 5 "" 0
        let (h3, p) ← Value.pow h2 x1 2 0
        let (h4, r) ← Value.add h3 p y1 0
        let h5 ← Value.backProp h4 r
        pure (h5.gradAt x1, h5.gradAt y1, h5.gradAt p)) = some (0, 1, 51) := by
  simp [Value.add, Value.pow, Value.create_eq, Value.backProp, Value.backPropFuel,
    Heap.modify, Heap.get_push, Heap.get_write, Heap.write_push_last, buildTopo, forEach,
    replay, Backward.call, Heap.addGrad, Heap.gradAt, Nat.add_assoc]
  norm_num

/-- C16 (identity-keyed deduplication), what the code does.  On every heap
built from the initial one by a script of constructor calls, for every root and
any two distinct nodes `x` and `y` reachable from it that have the same `op` and
the same `data`: `ValHash` gives them the same hash, whatever the library hash
functions are; the lookup in the visited set nevertheless answers for the
pointer itself (a set holding `x` only does not hold `y`); `backProp` returns
and the computed order holds `x` once and `y` once.  Under `root = add(x, y)`
with two leaves of value `5` both end with the gradient `1`.  But being in the
order does not give a node its contribution when its consumer is a `pow` node:
with `x = create(5)`, `y = create(5)`, `p = pow(x, 2)`, `root = add(p, y)` and
all gradients `0`, `root.backProp()` leaves `y.grad = 1` and `x.grad = 0`, the
rule of `p` adding `2 * 25 * 1` to `p.grad` itself, which ends at `51`. -/
theorem visited_keyed_by_identity (hashString : String → Nat) (hashFloat : ℚ → Nat)
    (cmds : List Cmd) (h : Heap) (root x y : ValuePtr) (vx vy : Value)
    (hrun : runAll Heap.init cmds = some h) (hcs : ∀ c ∈ cmds, c.isConstructor = true)
    (hroot : root < h.cells.length) (hxy : x ≠ y)
    (hrx : Reach h root x) (hry : Reach h root y)
    (hx : h.get x = some vx) (hy : h.get y = some vy)
    (hop : vx.op = vy.op) (hdata : vx.data = vy.data) :
    ValHash hashString hashFloat h x = ValHash hashString hashFloat h y ∧
    (∀ (bucketCount : Nat) (visited : List ValuePtr) (w : ValuePtr),
      visitedCount hashString hashFloat bucketCount h visited w = decide (w ∈ visited)) ∧
    (∀ bucketCount : Nat, visitedCount hashString hashFloat bucketCount h [x] y = false) ∧
    (∃ (hm : Heap) (st : TopoState) (h1 : Heap),
      h.modify root (fun v => { v with grad := 1 }) = some hm ∧
      buildTopo h.cells.length hm root { visited := [], topo := [] } = some st ∧
      replay st.topo.reverse hm = some h1 ∧ Value.backProp h root = some h1 ∧
      st.topo.count x = 1 ∧ st.topo.count y = 1) ∧
    (Value.backProp twinHeap 2).map (fun h1 => (h1.gradAt 0, h1.gradAt 1)) = some (1, 1) ∧
    (do let (h1, x1) := Value.create Heap.init 5 "" 0
        let (h2, y1) := Value.create h1 5 "" 0
        let (h3, p) ← Value.pow h2 x1 2 0
        let (h4, r) ← Value.add h3 p y1 0
        let h5 ← Value.backProp h4 r
        pure (h5.gradAt x1, h5.gradAt y1, h5.gradAt p)) = some (0, 1, 51) := by
  have hdag : h.Dag := dag_runAll cmds dag_init hcs hrun
  have hbuilt : h.Built := built_runAll cmds built_init hcs hrun
  obtain ⟨hm, st, h1, _, e1, e2, e3, _, e5, hrev, hmem, _, _⟩ :=
    backProp_total hdag hbuilt (rep_refl h) hroot (Nat.le_refl _)
  have hnodup : st.topo.Nodup := List.nodup_reverse.mp (RevTopo.nodup hrev)
  refine ⟨?_, fun nb visited w => visitedCount_eq _ _ nb h visited w, ?_,
    ⟨hm, st, h1, e1, e2, e3, e5,
      List.count_eq_one_of_mem hnodup ((hmem x).mpr hrx),
      List.count_eq_one_of_mem hnodup ((hmem y).mpr hry)⟩, ?_, ?_⟩
  · simp [ValHash, hx, hy, hop, hdata]
  · intro nb
    rw [visitedCount_eq]
    simp [Ne.symm hxy]
  · simp [twinHeap, Value.backProp, Value.backPropFuel, Heap.modify, Heap.get, Heap.write,
      buildTopo, forEach, replay, Backward.call, Heap.addGrad, Heap.gradAt]
  · exact pow_consumer_starves_operand Heap.init

theorem twinHeap_reach (x : ValuePtr) (hx : x ∈ [0, 1]) : Reach twinHeap 2 x :=
  Reach.step Reach.root (show x ∈ twinHeap.prevOf 2 from hx)

/-- Two leaves of value `5` under `root = add(x, y)`: equal hashes, a lookup by
pointer, both in the order. -/
theorem visited_keyed_by_identity_witness :
    ValHash String.length (fun d => d.num.natAbs) twinHeap 0 =
      ValHash String.length (fun d => d.num.natAbs) twinHeap 1 ∧
    (∀ (bucketCount : Nat) (visited : List ValuePtr) (w : ValuePtr),
      visitedCount String.length (fun d => d.num.natAbs) bucketCount twinHeap visited w =
        decide (w ∈ visited)) ∧
    (∀ bucketCount : Nat,
      visitedCount String.length (fun d => d.num.natAbs) bucketCount twinHeap [0] 1 = false) ∧
    (∃ (hm : Heap) (st : TopoState) (h1 : Heap),
      twinHeap.modify 2 (fun v => { v with grad := 1 }) = some hm ∧
      buildTopo twinHeap.cells.length hm 2 { visited := [], topo := [] } = some st ∧
      replay st.topo.reverse hm = some h1 ∧ Value.backProp twinHeap 2 = some h1 ∧
      st.topo.count 0 = 1 ∧ st.topo.count 1 = 1) ∧
    (Value.backProp twinHeap 2).map (fun h1 => (h1.gradAt 0, h1.gradAt 1)) = some (1, 1) ∧
    (do let (h1, x1) := Value.create Heap.init 5 "" 0
        let (h2, y1) := Value.create h1 5 "" 0
        let (h3, p) ← Value.pow h2 x1 2 0
        let (h4, r) ← Value.add h3 p y1 0
        let h5 ← Value.backProp h4 r
        pure (h5.gradAt x1, h5.gradAt y1, h5.gradAt p)) = some (0, 1, 51) :=
  visited_keyed_by_identity String.length (fun d => d.num.natAbs)
    [Cmd.create 5 "" 0, Cmd.create 5 "" 0, Cmd.add 0 1 0] twinHeap 2 0 1
    ⟨5, 0, "", 0, [], Backward.empty⟩ ⟨5, 0, "", 1, [], Backward.empty⟩
    rfl (by decide) (by decide) (by decide) (twinHeap_reach 0 (by decide))
    (twinHeap_reach 1 (by decide)) rfl rfl rfl rfl

/-! ## Claims settled on the engine over machine floats -/

/-- C13 (forward value rule).  In every float arithmetic and for live nodes `a`
and `b`, `add(a, b)` returns a node at a fresh address with
`data = a.data + b.data` (the float sum), `op = "+"` and `prev = [a, b]`, and
`multiply(a, b)` one with `data = a.data * b.data` (the float product),
`op = "*"` and `prev = [a, b]`; in the case of `main`, where `1 + 2` is the
float `3` and `3 * 3` the float `9`, `add(1, 2)` has `data = 3` and `op = "+"`,
and that node times itself has `data = 9` and `op = "*"`. -/
theorem add_multiply_forward {F : Type} (A : FloatOps F) (h : Fl.Heap F) (a b : ValuePtr)
    (va vb : Fl.Value F) (uninit : F) (ha : h.get a = some va) (hb : h.get b = some vb)
    (h12 : A.add (A.ofInt 1) (A.ofInt 2) = A.ofInt 3)
    (h33 : A.mul (A.ofInt 3) (A.ofInt 3) = A.ofInt 9) :
    (do let (h1, out) ← Fl.Value.add A h a b uninit
        let node ← h1.get out
        pure (h.get out, node.data, node.op, node.prev)) =
      some (none, A.add va.data vb.data, "+", [a, b]) ∧
    (do let (h1, out) ← Fl.Value.multiply A h a b uninit
        let node ← h1.get out
        pure (h.get out, node.data, node.op, node.prev)) =
      some (none, A.mul va.data vb.data, "*", [a, b]) ∧
    (do let (h1, a1) := Fl.Value.create h (A.ofInt 1) "" uninit
        let (h2, b1) := Fl.Value.create h1 (A.ofInt 2) "" uninit
        let (h3, c) ← Fl.Value.add A h2 a1 b1 uninit
        let (h4, d) ← Fl.Value.multiply A h3 c c uninit
        let nc ← h4.get c
        let nd ← h4.get d
        pure (nc.data, nc.op, nd.data, nd.op)) = some (A.ofInt 3, "+", A.ofInt 9, "*") := by
  have hnone : h.get h.cells.length = none := by
    simp [Fl.Heap.get]
  refine ⟨?_, ?_, ?_⟩
  · rw [Fl.Value.fadd_eq A uninit ha hb]
    simp [Fl.Heap.fget_push, hnone]
  · rw [Fl.Value.fmultiply_eq A uninit ha hb]
    simp [Fl.Heap.fget_push, hnone]
  · simp [Fl.Value.add, Fl.Value.multiply, Fl.Value.fcreate_eq, Fl.Heap.modify,
      Fl.Heap.fget_push, Fl.Heap.fget_write, Fl.Heap.fwrite_push_last, Nat.add_assoc, h12, h33]

set_option maxRecDepth 100000 in
/-- The value rule in binary32 on the leaves `2^24` and `1`: the sum stored by
`add` is the float `2^24`, the product stored by `multiply` is `2^24`. -/
theorem add_multiply_forward_witness :
    ((do let (h1, out) ← Fl.Value.add (binary32 F32.pow) roundingHeap 0 1 (F32.ofInt 7)
         let node ← h1.get out
         pure (roundingHeap.get out, node.data, node.op, node.prev)) =
      some (none, F32.add (F32.ofInt 16777216) (F32.ofInt 1), "+", [0, 1]) ∧
    (do let (h1, out) ← Fl.Value.multiply (binary32 F32.pow) roundingHeap 0 1 (F32.ofInt 7)
        let node ← h1.get out
        pure (roundingHeap.get out, node.data, node.op, node.prev)) =
      some (none, F32.mul (F32.ofInt 16777216) (F32.ofInt 1), "*", [0, 1]) ∧
    (do let (h1, a1) := Fl.Value.create roundingHeap (F32.ofInt 1) "" (F32.ofInt 7)
        let (h2, b1) := Fl.Value.create h1 (F32.ofInt 2) "" (F32.ofInt 7)
        let (h3, c) ← Fl.Value.add (binary32 F32.pow) h2 a1 b1 (F32.ofInt 7)
        let (h4, d) ← Fl.Value.multiply (binary32 F32.pow) h3 c c (F32.ofInt 7)
        let nc ← h4.get c
        let nd ← h4.get d
        pure (nc.data, nc.op, nd.data, nd.op)) = some (F32.ofInt 3, "+", F32.ofInt 9, "*")) ∧
    F32.add (F32.ofInt 16777216) (F32.ofInt 1) = F32.ofInt 16777216 ∧
    F32.mul (F32.ofInt 16777216) (F32.ofInt 1) = F32.ofInt 16777216 :=
  ⟨add_multiply_forward (binary32 F32.pow) roundingHeap 0 1
      ⟨F32.ofInt 16777216, F32.ofInt 0, "", 0, [], Fl.Backward.empty⟩
      ⟨F32.ofInt 1, F32.ofInt 0, "", 1, [], Fl.Backward.empty⟩ (F32.ofInt 7) rfl rfl
      (by decide) (by decide),
    by decide, by decide⟩

/-- C12 (subtract rule).  In every float arithmetic in which `0 + 1` is `1` and
`0 - 1` is `-1`, and for distinct leaves `a` and `b` with gradient `0`:
`out = subtract(a, b)` has `out.data = a.data - b.data` (the float difference),
and with `out` as root `out.backProp()` returns and leaves `a.grad = 1` and
`b.grad = -1`. -/
theorem subtract_backProp_rule {F : Type} (A : FloatOps F) (h : Fl.Heap F) (a b : ValuePtr)
    (va vb : Fl.Value F) (uninit : F)
    (ha : h.get a = some va) (hb : h.get b = some vb) (hab : a ≠ b)
    (hla : va.prev = [] ∧ va.backward = Fl.Backward.empty)
    (hlb : vb.prev = [] ∧ vb.backward = Fl.Backward.empty)
    (hga : va.grad = A.ofInt 0) (hgb : vb.grad = A.ofInt 0)
    (h01 : A.add (A.ofInt 0) (A.ofInt 1) = A.ofInt 1)
    (hs01 : A.sub (A.ofInt 0) (A.ofInt 1) = A.ofInt (-1)) :
    (do let (h1, out) ← Fl.Value.subtract A h a b uninit
        let h2 ← Fl.Value.backProp A h1 out
        pure (h1.dataAt out, h2.gradAt a, h2.gradAt b)) =
      some (some (A.sub va.data vb.data), some (A.ofInt 1), some (A.ofInt (-1))) := by
  have hal := Fl.Heap.fget_lt ha
  have hbl := Fl.Heap.fget_lt hb
  have han : a ≠ h.cells.length := Nat.ne_of_lt hal
  have hbn : b ≠ h.cells.length := Nat.ne_of_lt hbl
  have han2 := Ne.symm han
  have hbn2 := Ne.symm hbn
  have hal1 : a < h.cells.length + 1 := Nat.lt_succ_of_lt hal
  have hbl1 : b < h.cells.length + 1 := Nat.lt_succ_of_lt hbl
  have hba : b ≠ a := Ne.symm hab
  have hpos : 0 < h.cells.length := Nat.zero_lt_of_lt hal
  simp [Fl.Value.subtract, Fl.Value.fcreate_eq, Fl.Value.backProp, Fl.Value.backPropFuel,
    Fl.Heap.modify, Fl.Heap.fget_push, Fl.Heap.fget_write, Fl.Heap.fwrite_push_last,
    Fl.buildTopo, Fl.fbuildTopo_pos, forEach, Fl.replay, Fl.Backward.call, Fl.Heap.addGrad,
    Fl.Heap.subGrad, Fl.Heap.gradAt, Fl.Heap.dataAt, *]

set_option maxRecDepth 100000 in
/-- The subtract rule in binary32 on the leaves `2^24` and `-1`: the difference
stored is the float `2^24`, the gradients are `1` and `-1`. -/
theorem subtract_backProp_rule_witness :
    (do let (h1, out) ← Fl.Value.subtract (binary32 F32.pow) roundingHeap 0 2 (F32.ofInt 7)
        let h2 ← Fl.Value.backProp (binary32 F32.pow) h1 out
        pure (h1.dataAt out, h2.gradAt 0, h2.gradAt 2)) =
      some (some (F32.sub (F32.ofInt 16777216) (F32.ofInt (-1))), some (F32.ofInt 1),
        some (F32.ofInt (-1))) ∧
    F32.sub (F32.ofInt 16777216) (F32.ofInt (-1)) = F32.ofInt 16777216 :=
  ⟨subtract_backProp_rule (binary32 F32.pow) roundingHeap 0 2
      ⟨F32.ofInt 16777216, F32.ofInt 0, "", 0, [], Fl.Backward.empty⟩
      ⟨F32.ofInt (-1), F32.ofInt 0, "", 2, [], Fl.Backward.empty⟩ (F32.ofInt 7) rfl rfl
      (by decide) ⟨rfl, rfl⟩ ⟨rfl, rfl⟩ rfl rfl (by decide) (by decide),
    by decide⟩

/-- C17 (observed pow backward rule).  In every float arithmetic, for every
`float` exponent `n` and live node `base`: the node `out = pow(base, n)` has
`data = std::pow(base.data, n)` and stores a closure whose base handle and
output handle both point to `out`; and that closure, invoked on any heap where
the node at `out` has value `d` and gradient `g`, computes the factor
`n * std::pow(d, n - 1)` from the value of `out` and stores `g + factor * g` as
the gradient of `out`, the node in its base handle, leaving every other node,
`base` among them, as it was. -/
theorem pow_backward_rule_observed {F : Type} (A : FloatOps F) (h : Fl.Heap F)
    (base : ValuePtr) (vb : Fl.Value F) (n uninit : F) (hb : h.get base = some vb) :
    (do let (h1, out) ← Fl.Value.pow A h base n uninit
        let node ← h1.get out
        pure (out, decide (out = base), node.data, node.prev, node.backward)) =
      some (h.cells.length, false, A.pow vb.data n, [base],
        Fl.Backward.pow h.cells.length h.cells.length n) ∧
    ∀ (g : Fl.Heap F) (out : ValuePtr) (vo : Fl.Value F), g.get out = some vo →
      ∃ g1, (Fl.Backward.pow out out n).call A g = some g1 ∧
        g1.gradAt out =
          some (A.add vo.grad
            (A.mul (A.mul n (A.pow vo.data (A.sub n (A.ofInt 1)))) vo.grad)) ∧
        ∀ q, q ≠ out → g1.get q = g.get q := by
  have hbl := Fl.Heap.fget_lt hb
  have hbn : base ≠ h.cells.length := Nat.ne_of_lt hbl
  have hbn2 := Ne.symm hbn
  constructor
  · rw [Fl.Value.fpow_eq A n uninit hb]
    simp [Fl.Heap.fget_push, hbn2]
  · intro g out vo ho
    have hlt := Fl.Heap.fget_lt ho
    refine ⟨_, by simp [Fl.Backward.call, Fl.Heap.addGrad, Fl.Heap.modify, ho]; rfl, ?_, ?_⟩
    · simp [Fl.Heap.gradAt, Fl.Heap.fget_write, hlt]
    · intro q hq
      simp [Fl.Heap.fget_write, hlt, hq]

set_option maxRecDepth 100000 in
/-- The observed rule in binary32 with `std::pow` correctly rounded, on
`pow(3, -1)`: the new node holds the float nearest to `1/3`; with gradient `1`
there, the closure computes the factor `-1 * pow(data, -2)`, the float
`-9437183 * 2^-20` (about `-8.999999`), from it, and the gradient of the new
node becomes `1 + factor * 1`; the base `3` keeps its gradient. -/
theorem pow_backward_rule_observed_witness :
    ((do let (h1, out) ← Fl.Value.pow (binary32 F32.pow) roundingHeap 3 (F32.ofInt (-1))
                (F32.ofInt 1)
         let node ← h1.get out
         pure (out, decide (out = 3), node.data, node.prev, node.backward)) =
      some (4, false, F32.pow (F32.ofInt 3) (F32.ofInt (-1)), [3],
        Fl.Backward.pow 4 4 (F32.ofInt (-1))) ∧
    ∀ (g : Fl.Heap F32) (out : ValuePtr) (vo : Fl.Value F32), g.get out = some vo →
      ∃ g1, (Fl.Backward.pow out out (F32.ofInt (-1))).call (binary32 F32.pow) g = some g1 ∧
        g1.gradAt out =
          some (F32.add vo.grad
            (F32.mul (F32.mul (F32.ofInt (-1))
              (F32.pow vo.data (F32.sub (F32.ofInt (-1)) (F32.ofInt 1)))) vo.grad)) ∧
        ∀ q, q ≠ out → g1.get q = g.get q) ∧
    F32.pow (F32.ofInt 3) (F32.ofInt (-1)) = F32.fin false 11184811 (-25) ∧
    F32.mul (F32.ofInt (-1))
        (F32.pow (F32.fin false 11184811 (-25)) (F32.sub (F32.ofInt (-1)) (F32.ofInt 1))) =
      F32.fin true 9437183 (-20) ∧
    F32.pow (F32.ofInt 0) (F32.ofInt (-1)) = F32.inf false :=
  ⟨pow_backward_rule_observed (binary32 F32.pow) roundingHeap 3
      ⟨F32.ofInt 3, F32.ofInt 0, "", 3, [], Fl.Backward.empty⟩ (F32.ofInt (-1)) (F32.ofInt 1) rfl,
    by decide, by decide, by decide⟩

set_option maxRecDepth 100000 in
/-- C11 (rectifier gating), as first stated, fails in binary32 when the gate is
closed and the gradient arriving at the `relu` node is infinite: with
`a = create(-1)`, `r = relu(a)`, `s = add(FLT_MAX, FLT_MAX)`, `m = multiply(r, s)`
and `m.backProp()`, the node `r` has `data = 0` and receives the gradient
`+inf`, and its rule adds `0 * inf`, which is NaN, to `a.grad`, where the claim
has it add `0`. -/
theorem relu_closed_gate_adds_nan :
    (do let (h1, a) := Fl.Value.create Fl.Heap.init (F32.ofInt (-1)) "" (F32.ofInt 0)
        let (h2, r) ← Fl.Value.relu (binary32 F32.pow) h1 a (F32.ofInt 0)
        let (h3, x) := Fl.Value.create h2 FLT_MAX "" (F32.ofInt 0)
        let (h4, y) := Fl.Value.create h3 FLT_MAX "" (F32.ofInt 0)
        let (h5, s) ← Fl.Value.add (binary32 F32.pow) h4 x y (F32.ofInt 0)
        let (h6, m) ← Fl.Value.multiply (binary32 F32.pow) h5 r s (F32.ofInt 0)
        let h7 ← Fl.Value.backProp (binary32 F32.pow) h6 m
        pure (h6.dataAt r, h6.dataAt s, h7.gradAt r, h7.gradAt a)) =
      some (some (F32.ofInt 0), some (F32.inf false), some (F32.inf false), some F32.nan) := by
  decide

/-- C11 (rectifier gating), amended.  In every float arithmetic in which
`0 < 0` is false, `1 * 1 = 1`, `0 * 1 = 0`, `0 + 1 = 1` and `0 + 0 = 0`, and for
a leaf `a` with gradient `0`: `out = relu(a)` has `out.data = max(0, a.data)`,
that is `a.data` when `0 < a.data` and `0` otherwise, and with `out` as root
`out.backProp()` returns and leaves `a.grad = 1 = out.grad` when `0 < a.data`
and `a.grad = 0` otherwise.  In general the backward rule of a `relu` node adds
the float product `(out.data > 0) * out.grad` to the gradient of its input:
`1 * out.grad` when `0 < out.data` and `0 * out.grad` otherwise; in binary32
`0 * out.grad` is a zero when `out.grad` is finite and NaN when `out.grad` is
infinite or NaN, and a sum with NaN is NaN. -/
theorem relu_backProp_gating {F : Type} (A : FloatOps F) (h : Fl.Heap F) (a : ValuePtr)
    (va : Fl.Value F) (uninit : F)
    (ha : h.get a = some va) (hla : va.prev = [] ∧ va.backward = Fl.Backward.empty)
    (hga : va.grad = A.ofInt 0)
    (hlt : A.lt (A.ofInt 0) (A.ofInt 0) = false)
    (hm1 : A.mul (A.ofInt 1) (A.ofInt 1) = A.ofInt 1)
    (hm0 : A.mul (A.ofInt 0) (A.ofInt 1) = A.ofInt 0)
    (ha1 : A.add (A.ofInt 0) (A.ofInt 1) = A.ofInt 1)
    (ha0 : A.add (A.ofInt 0) (A.ofInt 0) = A.ofInt 0) :
    (do let (h1, out) ← Fl.Value.relu A h a uninit
        let h2 ← Fl.Value.backProp A h1 out
        pure (h1.dataAt out, h2.gradAt a, h2.gradAt out)) =
      some (some (if A.lt (A.ofInt 0) va.data then va.data else A.ofInt 0),
        some (if A.lt (A.ofInt 0) va.data then A.ofInt 1 else A.ofInt 0), some (A.ofInt 1)) ∧
    (∀ (g : Fl.Heap F) (input out : ValuePtr) (vi vo : Fl.Value F), g.get input = some vi →
      g.get out = some vo →
      ((Fl.Backward.relu input out).call A g).map (fun g1 => g1.gradAt input) =
        some (some (A.add vi.grad
          (A.mul (if A.lt (A.ofInt 0) vo.data then A.ofInt 1 else A.ofInt 0) vo.grad)))) ∧
    (∀ s m e, F32.mul (F32.ofInt 0) (F32.fin s m e) = F32.fin s 0 (-149)) ∧
    (∀ s, F32.mul (F32.ofInt 0) (F32.inf s) = F32.nan) ∧
    F32.mul (F32.ofInt 0) F32.nan = F32.nan ∧
    ∀ x, F32.add x F32.nan = F32.nan := by
  refine ⟨?_, ?_, ?_, ?_, ?_, ?_⟩
  · have hal := Fl.Heap.fget_lt ha
    have han : a ≠ h.cells.length := Nat.ne_of_lt hal
    have han2 := Ne.symm han
    have hal1 : a < h.cells.length + 1 := Nat.lt_succ_of_lt hal
    have hpos : 0 < h.cells.length := Nat.zero_lt_of_lt hal
    by_cases hpos1 : A.lt (A.ofInt 0) va.data = true <;>
      simp [Fl.Value.relu, Fl.Value.fcreate_eq, Fl.Value.backProp, Fl.Value.backPropFuel,
        Fl.Heap.modify, Fl.Heap.fget_push, Fl.Heap.fget_write, Fl.Heap.fwrite_push_last,
        Fl.buildTopo, Fl.fbuildTopo_pos, forEach, Fl.replay, Fl.Backward.call, Fl.Heap.addGrad,
        Fl.Heap.gradAt, Fl.Heap.dataAt, *]
  · intro g input out vi vo hi ho
    have hlt := Fl.Heap.fget_lt hi
    by_cases hpos1 : A.lt (A.ofInt 0) vo.data = true <;>
      simp [Fl.Backward.call, Fl.Heap.addGrad, Fl.Heap.modify, Fl.Heap.gradAt,
        Fl.Heap.fget_write, hi, ho, hlt, hpos1]
  · intro s m e
    have h0 : F32.ofInt 0 = F32.fin false 0 (-149) := by decide
    simp [h0, F32.mul, F32.round]
  · intro s
    have h0 : F32.ofInt 0 = F32.fin false 0 (-149) := by decide
    simp [h0, F32.mul]
  · have h0 : F32.ofInt 0 = F32.fin false 0 (-149) := by decide
    simp [h0, F32.mul]
  · intro x
    cases x <;> rfl

set_option maxRecDepth 100000 in
/-- Rectifier gating in binary32 on the leaf `3`: `out.data = 3`,
`a.grad = out.grad = 1`. -/
theorem relu_backProp_gating_witness :
    ((do let (h1, out) ← Fl.Value.relu (binary32 F32.pow) roundingHeap 3 (F32.ofInt 7)
         let h2 ← Fl.Value.backProp (binary32 F32.pow) h1 out
         pure (h1.dataAt out, h2.gradAt 3, h2.gradAt out)) =
      some (some (if F32.lt (F32.ofInt 0) (F32.ofInt 3) then F32.ofInt 3 else F32.ofInt 0),
        some (if F32.lt (F32.ofInt 0) (F32.ofInt 3) then F32.ofInt 1 else F32.ofInt 0),
        some (F32.ofInt 1)) ∧
    (∀ (g : Fl.Heap F32) (input out : ValuePtr) (vi vo : Fl.Value F32), g.get input = some vi →
      g.get out = some vo →
      ((Fl.Backward.relu input out).call (binary32 F32.pow) g).map
          (fun g1 => g1.gradAt input) =
        some (some (F32.add vi.grad
          (F32.mul (if F32.lt (F32.ofInt 0) vo.data then F32.ofInt 1 else F32.ofInt 0)
            vo.grad)))) ∧
    (∀ s m e, F32.mul (F32.ofInt 0) (F32.fin s m e) = F32.fin s 0 (-149)) ∧
    (∀ s, F32.mul (F32.ofInt 0) (F32.inf s) = F32.nan) ∧
    F32.mul (F32.ofInt 0) F32.nan = F32.nan ∧
    ∀ x, F32.add x F32.nan = F32.nan) ∧
    F32.lt (F32.ofInt 0) (F32.ofInt 3) = true :=
  ⟨relu_backProp_gating (binary32 F32.pow) roundingHeap 3
      ⟨F32.ofInt 3, F32.ofInt 0, "", 3, [], Fl.Backward.empty⟩ (F32.ofInt 7) rfl ⟨rfl, rfl⟩ rfl
      (by decide) (by decide) (by decide) (by decide) (by decide),
    by decide⟩

/-- C2 (chain rule over an arbitrary DAG), amended.  In every float arithmetic,
on every heap built from the initial one by calls of `create`, `add`, `subtract`
and `multiply`, with every gradient `0`, and for every root: `root.backProp()`
returns, being the assignment `root.grad = 1`, the topological sort `st` and
the run of the backward rules in the order `st.topo.reverse`, an order that
holds exactly the nodes reachable from the root and in which every consumer
comes strictly before each of its operands.  Let `val` read the floats as
rationals, `0` as `0` and `1` as `1`.  If no float addition, subtraction or
multiplication of the backward pass rounds (`backPropExact`), then afterwards
the gradient of every node `v` reachable from `root` stands for the sum over
all operand paths from `root` to `v` of the product of the local derivative
factors along the path; and if the stored values are the exact sums,
differences and products of their operands as well, that sum is the derivative
of the value of `root` with respect to the value of `v`. -/
theorem backProp_chain_rule {F : Type} (A : FloatOps F) (cmds : List (Fl.Cmd F))
    (h : Fl.Heap F) (root : ValuePtr)
    (hrun : Fl.runAll A Fl.Heap.init cmds = some h) (hcs : ∀ c ∈ cmds, c.isArith = true)
    (hzero : ∀ p v, h.get p = some v → v.grad = A.ofInt 0) (hroot : root < h.cells.length) :
    ∃ (hm : Fl.Heap F) (st : TopoState) (h1 : Fl.Heap F),
      h.modify root (fun v => { v with grad := A.ofInt 1 }) = some hm ∧
      Fl.buildTopo h.cells.length hm root { visited := [], topo := [] } = some st ∧
      Fl.replay A st.topo.reverse hm = some h1 ∧
      Fl.Value.backProp A h root = some h1 ∧
      (∀ u vu c, u ∈ st.topo → h.get u = some vu → c ∈ vu.prev →
        c ∈ st.topo ∧ st.topo.reverse.indexOf u < st.topo.reverse.indexOf c) ∧
      ∀ val : F → ℚ,
        (∀ v, v ∈ st.topo ↔ Reach (h.toExact val) root v) ∧
        (val (A.ofInt 0) = 0 → val (A.ofInt 1) = 1 → Fl.Value.backPropExact A val h root →
          (∀ v, Reach (h.toExact val) root v →
            (h1.gradAt v).map val = some (pathSum (h.toExact val) root v)) ∧
          ((h.toExact val).Forward → ∀ v, Reach (h.toExact val) root v →
            valueWith (h.toExact val) v ((h.toExact val).dataAt v) (root + 1) root =
              (h.toExact val).dataAt root ∧
            HasDerivAt (fun t => valueWith (h.toExact val) v t (root + 1) root)
              (pathSum (h.toExact val) root v) ((h.toExact val).dataAt v))) := by
  have hstruct : ∀ val : F → ℚ, (h.toExact val).Dag ∧ (h.toExact val).Arith := fun val =>
    Fl.runAll_toExact A val cmds (h := Fl.Heap.init) dag_init arith_init hcs hrun
  obtain ⟨hm, st, h1, em, est, er, eb, hrev0, _⟩ :=
    Fl.backProp_returns A (fun _ => (0 : ℚ)) (hstruct _).1 hroot (hstruct _).1 (hstruct _).2
  refine ⟨hm, st, h1, em, est, er, eb, ?_, ?_⟩
  · intro u vu c hu hvu hc
    have hq : (h.toExact fun _ => (0 : ℚ)).get u = some (vu.toExact fun _ => (0 : ℚ)) := by
      rw [Fl.Heap.toExact_get, hvu]
      rfl
    have hc' : c ∈ (h.toExact fun _ => (0 : ℚ)).prevOf u := by
      rw [Heap.prevOf_eq hq]
      exact hc
    exact ⟨List.mem_reverse.mp (RevTopo.closed hrev0 u (List.mem_reverse.mpr hu) c hc'),
      RevTopo.indexOf_gt hrev0 u (List.mem_reverse.mpr hu) c hc'⟩
  · intro val
    obtain ⟨hm', st', _, em', est', _, _, _, hmem'⟩ :=
      Fl.backProp_returns A val (hstruct val).1 hroot (hstruct _).1 (hstruct _).2
    rw [em] at em'
    cases em'
    rw [est] at est'
    cases est'
    refine ⟨hmem', ?_⟩
    intro hv0 hv1 hex
    obtain ⟨_, _, h1', _, _, _, eb', _, _, hgrad⟩ :=
      Fl.backProp_sim A val (hstruct val).1 (hstruct val).2 hzero hv0 hv1 hex hroot
    rw [eb] at eb'
    cases eb'
    refine ⟨hgrad, ?_⟩
    intro hfw v _
    exact ⟨valueWith_dataAt (hstruct val).1 hfw v (root + 1) root (Nat.lt_succ_self root),
      hasDerivAt_valueWith (hstruct val).1 hfw v (root + 1) root (Nat.lt_succ_self root)⟩

theorem absorbHeap_run :
    Fl.runAll (binary32 F32.pow) Fl.Heap.init
        [Fl.Cmd.create (F32.ofInt 1) "" (F32.ofInt 0),
         Fl.Cmd.create (F32.ofInt 16777216) "" (F32.ofInt 0),
         Fl.Cmd.multiply 0 1 (F32.ofInt 0), Fl.Cmd.add 2 0 (F32.ofInt 0)] =
      some absorbHeap := by
  rfl

theorem absorbHeap_pathSum : pathSum (absorbHeap.toExact F32.val) 3 0 = 16777217 := by
  have hdag : (absorbHeap.toExact F32.val).Dag :=
    (Fl.runAll_toExact (binary32 F32.pow) F32.val _ (h := Fl.Heap.init) dag_init arith_init
      (by decide) absorbHeap_run).1
  have h3 : localFactors (absorbHeap.toExact F32.val) 3 = [(2, 1), (0, 1)] := by
    simp [localFactors, Fl.Heap.toExact, absorbHeap, Heap.get, Fl.Value.toExact]
  have h2 : localFactors (absorbHeap.toExact F32.val) 2 =
      [(0, F32.val (F32.ofInt 16777216)), (1, F32.val (F32.ofInt 1))] := by
    simp [localFactors, Fl.Heap.toExact, absorbHeap, Heap.get, Fl.Value.toExact, Heap.dataAt]
  have hl0 : (absorbHeap.toExact F32.val).prevOf 0 = [] := rfl
  have hl1 : (absorbHeap.toExact F32.val).prevOf 1 = [] := rfl
  have hv : F32.val (F32.ofInt 16777216) = 16777216 := by
    rw [show F32.ofInt 16777216 = F32.fin false 8388608 1 by decide]
    norm_num [F32.val]
  rw [pathSum_rec hdag, h3]
  simp only [List.map_cons, List.map_nil, List.sum_cons, List.sum_nil]
  rw [pathSum_rec hdag 2 0, h2]
  simp only [List.map_cons, List.map_nil, List.sum_cons, List.sum_nil,
    pathSum_leaf hdag hl0, pathSum_leaf hdag hl1, hv]
  norm_num

set_option maxRecDepth 100000 in
/-- C2 (chain rule over an arbitrary DAG), as first stated, fails in binary32:
with `a = create(1)`, `b = create(2^24)`, `m = multiply(a, b)`, `root = add(m, a)`
and all gradients `0`, the two operand paths from `root` to `a` have the factor
products `1` and `2^24`, with sum `16777217`, while `root.backProp()` leaves
`a.grad = 16777216`: the float sum `1 + 2^24` rounds. -/
theorem backProp_path_sum_rounds :
    Fl.runAll (binary32 F32.pow) Fl.Heap.init
        [Fl.Cmd.create (F32.ofInt 1) "" (F32.ofInt 0),
         Fl.Cmd.create (F32.ofInt 16777216) "" (F32.ofInt 0),
         Fl.Cmd.multiply 0 1 (F32.ofInt 0), Fl.Cmd.add 2 0 (F32.ofInt 0)] =
      some absorbHeap ∧
    (Fl.Value.backProp (binary32 F32.pow) absorbHeap 3).map (fun h1 => h1.gradAt 0) =
      some (some (F32.ofInt 16777216)) ∧
    F32.val (F32.ofInt 16777216) = 16777216 ∧
    pathSum (absorbHeap.toExact F32.val) 3 0 = 16777217 := by
  refine ⟨absorbHeap_run, by decide, ?_, absorbHeap_pathSum⟩
  rw [show F32.ofInt 16777216 = F32.fin false 8388608 1 by decide]
  norm_num [F32.val]

theorem mainFloatHeap_run :
    Fl.runAll (binary32 F32.pow) Fl.Heap.init
        [Fl.Cmd.create (F32.ofInt 1) "" (F32.ofInt 0), Fl.Cmd.create (F32.ofInt 2) "" (F32.ofInt 0),
         Fl.Cmd.add 0 1 (F32.ofInt 0), Fl.Cmd.multiply 2 2 (F32.ofInt 0),
         Fl.Cmd.add 3 3 (F32.ofInt 0)] =
      some mainFloatHeap := by
  rfl

theorem mainFloatHeap_grad_zero :
    ∀ p v, mainFloatHeap.get p = some v → v.grad = (binary32 F32.pow).ofInt 0 := by
  intro p v hp
  rcases p with _ | _ | _ | _ | _ | p <;>
    simp [mainFloatHeap, Fl.Heap.get] at hp <;> subst hp <;> rfl

set_option maxRecDepth 100000 in
/-- The floats met on the graph of `main`, in canonical form. -/
theorem mainFloatHeap_floats :
    F32.ofInt 0 = F32.fin false 0 (-149) ∧ F32.ofInt 1 = F32.fin false 8388608 (-23) ∧
    F32.ofInt 2 = F32.fin false 8388608 (-22) ∧
    F32.add (F32.fin false 8388608 (-23)) (F32.fin false 8388608 (-22)) =
      F32.fin false 12582912 (-22) ∧
    F32.mul (F32.fin false 12582912 (-22)) (F32.fin false 12582912 (-22)) =
      F32.fin false 9437184 (-20) ∧
    F32.add (F32.fin false 9437184 (-20)) (F32.fin false 9437184 (-20)) =
      F32.fin false 9437184 (-19) ∧
    F32.add (F32.fin false 0 (-149)) (F32.fin false 8388608 (-23)) =
      F32.fin false 8388608 (-23) ∧
    F32.add (F32.fin false 8388608 (-23)) (F32.fin false 8388608 (-23)) =
      F32.fin false 8388608 (-22) ∧
    F32.mul (F32.fin false 12582912 (-22)) (F32.fin false 8388608 (-22)) =
      F32.fin false 12582912 (-21) ∧
    F32.add (F32.fin false 0 (-149)) (F32.fin false 12582912 (-21)) =
      F32.fin false 12582912 (-21) ∧
    F32.add (F32.fin false 12582912 (-21)) (F32.fin false 12582912 (-21)) =
      F32.fin false 12582912 (-20) ∧
    F32.add (F32.fin false 0 (-149)) (F32.fin false 12582912 (-20)) =
      F32.fin false 12582912 (-20) := by
  decide

theorem mainFloatHeap_exact :
    Fl.Value.backPropExact (binary32 F32.pow) F32.val mainFloatHeap 4 := by
  obtain ⟨f0, f1, f2, f3, f4, f5, f6, f7, f8, f9, f10, f11⟩ := mainFloatHeap_floats
  simp [Fl.Value.backPropExact, Fl.Heap.modify, Fl.Heap.get, Fl.Heap.write, mainFloatHeap,
    Fl.buildTopo, forEach, Fl.replayExact, Fl.Backward.Exact, Fl.Backward.call, Fl.Heap.addGrad,
    Fl.Heap.ExactAddGrad, binary32, f0, f1, f2, f3, f4, f5, f6, f7, f8, f9, f10, f11, F32.val]
  norm_num

theorem mainFloatHeap_forward : (mainFloatHeap.toExact F32.val).Forward := by
  obtain ⟨f0, f1, f2, f3, f4, f5, f6, f7, f8, f9, f10, f11⟩ := mainFloatHeap_floats
  intro p node lhs rhs hp hprev
  rcases p with _ | _ | _ | _ | _ | p <;>
    simp [mainFloatHeap, Fl.Heap.toExact, Heap.get, Fl.Value.toExact] at hp <;> subst hp <;>
    simp at hprev
  all_goals
    obtain ⟨rfl, rfl⟩ := hprev
    simp [Heap.dataAt, Fl.Heap.toExact, Heap.get, mainFloatHeap, Fl.Value.toExact,
      f0, f1, f2, f3, f4, f5, F32.val]
    try norm_num

/-- The chain rule in binary32 on the graph of `main`, from `loss`: no operation
of the pass rounds, and every gradient stands for its path sum, the derivative
of the value of `loss`. -/
theorem backProp_chain_rule_witness :
    ∃ (hm : Fl.Heap F32) (st : TopoState) (h1 : Fl.Heap F32),
      mainFloatHeap.modify 4 (fun v => { v with grad := F32.ofInt 1 }) = some hm ∧
      Fl.buildTopo mainFloatHeap.cells.length hm 4 { visited := [], topo := [] } = some st ∧
      Fl.replay (binary32 F32.pow) st.topo.reverse hm = some h1 ∧
      Fl.Value.backProp (binary32 F32.pow) mainFloatHeap 4 = some h1 ∧
      (∀ u vu c, u ∈ st.topo → mainFloatHeap.get u = some vu → c ∈ vu.prev →
        c ∈ st.topo ∧ st.topo.reverse.indexOf u < st.topo.reverse.indexOf c) ∧
      (∀ v, v ∈ st.topo ↔ Reach (mainFloatHeap.toExact F32.val) 4 v) ∧
      (∀ v, Reach (mainFloatHeap.toExact F32.val) 4 v →
        (h1.gradAt v).map F32.val = some (pathSum (mainFloatHeap.toExact F32.val) 4 v)) ∧
      ∀ v, Reach (mainFloatHeap.toExact F32.val) 4 v →
        valueWith (mainFloatHeap.toExact F32.val) v ((mainFloatHeap.toExact F32.val).dataAt v)
            (4 + 1) 4 = (mainFloatHeap.toExact F32.val).dataAt 4 ∧
        HasDerivAt (fun t => valueWith (mainFloatHeap.toExact F32.val) v t (4 + 1) 4)
          (pathSum (mainFloatHeap.toExact F32.val) 4 v)
          ((mainFloatHeap.toExact F32.val).dataAt v) := by
  obtain ⟨hm, st, h1, em, est, er, eb, hord, hval⟩ :=
    backProp_chain_rule (binary32 F32.pow) _ mainFloatHeap 4 mainFloatHeap_run (by decide)
      mainFloatHeap_grad_zero (by decide)
  obtain ⟨hmem, hmain⟩ := hval F32.val
  obtain ⟨hg, hd⟩ := hmain
    (by rw [show (binary32 F32.pow).ofInt 0 = F32.fin false 0 (-149) from
          mainFloatHeap_floats.1]
        simp [F32.val])
    (by rw [show (binary32 F32.pow).ofInt 1 = F32.fin false 8388608 (-23) from
          mainFloatHeap_floats.2.1]
        norm_num [F32.val])
    mainFloatHeap_exact
  exact ⟨hm, st, h1, em, est, er, eb, hord, hmem, hg, hd mainFloatHeap_forward⟩

end Grad
